import Mathlib

/-!
Verification of the provider-orchestration and planning pipeline of the
PocketPaw repository against its natural-language specification.

The Python sources embedded here are
`src/pocketpaw/agents/open_interpreter.py` (provider resolution, failover,
rate limiting, the streaming consumer loop) and
`src/pocketpaw/deep_work/planner.py` (the four-phase planner, the tolerant
JSON-recovery cascade and its deterministic fallbacks).

Modelling conventions, used throughout:
* Python strings are Lean `String`s; `str.lower()` is `String.toLower`
  (identical on ASCII input), `str.strip()` is trimming of ASCII
  whitespace, and `a in b` on strings is the infix test `containsSub`.
* Machine time (`time.monotonic`) is a rational-number clock, and
  `time.sleep(s)` advances it by exactly `s`.
* Fallible Python code (`try`/`except`) is modelled with `Option`:
  `none` is the caught exception.
* JSON numbers are modelled as integers; the inputs treated by the
  theorems contain no floats.
-/

set_option maxHeartbeats 4000000

namespace Steam

/-- Does `hay` start with `needle`? -/
def listStartsWith : List Char → List Char → Bool
  | _, [] => true
  | [], _ :: _ => false
  | c :: cs, n :: ns => (c == n) && listStartsWith cs ns

/-- Does `needle` occur as a contiguous sublist of `hay`? -/
def listContainsSub : List Char → List Char → Bool
  | [], needle => needle.isEmpty
  | c :: cs, needle => listStartsWith (c :: cs) needle || listContainsSub cs needle

/-- Python's `needle in hay` substring test on strings. -/
def containsSub (hay needle : String) : Bool :=
  listContainsSub hay.data needle.data

/-- Python's `str.lower()` (the sources only lower ASCII text). -/
def pyLower (s : String) : String := String.mk (s.data.map Char.toLower)

/-- The ASCII whitespace characters removed by Python's `str.strip()`. -/
def pyIsSpace (c : Char) : Bool :=
  c == '\x20' || c == '\t' || c == '\n' || c == '\r' || c == '\x0b' || c == '\x0c'

/-- Python's `str.strip()` on a character list. -/
def pyStripList (cs : List Char) : List Char :=
  ((cs.dropWhile pyIsSpace).reverse.dropWhile pyIsSpace).reverse

/-- Python's `str.strip()`. -/
def pyStrip (s : String) : String := String.mk (pyStripList s.data)

/-! ## Claim C2: provider selection under `"registry_auto"`
    (`_resolve_runtime_llm`, open_interpreter.py lines 266-298)

The `registry_auto` branch of `_resolve_runtime_llm`:

    if providers:
        if mode in {"round_robin", "failover"}:
            if on_error:
                self._provider_rr_index += 1
            provider_id = providers[self._provider_rr_index % len(providers)]
            if not on_error:
                self._provider_rr_index += 1
        else:
            provider_id = providers[0]

The function below returns the selected provider id together with the new
value of `_provider_rr_index`. -/

/-- Selection step of `_resolve_runtime_llm` under `selected == "registry_auto"`,
over the list of enabled registry entry ids. -/
def resolveRegistryAutoStep (mode : String) (onError : Bool)
    (providers : List String) (rrIndex : Nat) : Option String × Nat :=
  if providers.isEmpty then (none, rrIndex)
  else if mode = "round_robin" || mode = "failover" then
    let i1 := if onError then rrIndex + 1 else rrIndex
    (providers.get? (i1 % providers.length), if onError then i1 else i1 + 1)
  else (providers.get? 0, rrIndex)

/-- Claim C2 counterexample: in mode `"failover"` a resolution with
`on_error = false` (a successful, non-error resolution) still advances the
rotation index from 0 to 1, contradicting the claim that in failover mode the
index advances only on a call made with `on_error = true`. -/
theorem resolveRegistryAuto_failover_advances_without_error :
    resolveRegistryAutoStep "failover" false ["a", "b"] 0 = (some "a", 1) ∧
    (resolveRegistryAutoStep "failover" false ["a", "b"] 0).2 ≠ 0 := by
  constructor
  · rfl
  · decide

/-- Claim C2 (amended): with a non-empty list of enabled registry entries,
mode `"first"` always selects entry 0 and leaves the rotation index unchanged;
under both `"round_robin"` and `"failover"` the index advances by exactly one
on every call (not only on `on_error = true` calls), and the entry selected is
the one at the pre-advance index for `on_error = false` and at the advanced
index for `on_error = true`. -/
theorem resolveRegistryAuto_selection (mode : String) (onError : Bool)
    (providers : List String) (rrIndex : Nat) (hne : providers ≠ []) :
    (mode = "first" →
      resolveRegistryAutoStep mode onError providers rrIndex
        = (providers.get? 0, rrIndex)) ∧
    ((mode = "round_robin" ∨ mode = "failover") →
      (resolveRegistryAutoStep mode onError providers rrIndex).2 = rrIndex + 1 ∧
      (resolveRegistryAutoStep mode onError providers rrIndex).1
        = providers.get?
            ((if onError then rrIndex + 1 else rrIndex) % providers.length)) := by
  have hempty : providers.isEmpty = false := by
    cases providers with
    | nil => exact absurd rfl hne
    | cons a l => rfl
  constructor
  · intro hmode
    subst hmode
    simp [resolveRegistryAutoStep, hempty]
  · intro hmode
    rcases hmode with h | h <;> subst h <;>
      cases onError <;> simp [resolveRegistryAutoStep, hempty]

/-- Witness for `resolveRegistryAuto_selection` at mode `"round_robin"`,
`on_error = true`, providers `["a", "b"]`, index 5. -/
theorem resolveRegistryAuto_selection_witness :
    (("round_robin" = "first" →
      resolveRegistryAutoStep "round_robin" true ["a", "b"] 5
        = ((["a", "b"] : List String).get? 0, 5)) ∧
    (("round_robin" = "round_robin" ∨ "round_robin" = "failover") →
      (resolveRegistryAutoStep "round_robin" true ["a", "b"] 5).2 = 5 + 1 ∧
      (resolveRegistryAutoStep "round_robin" true ["a", "b"] 5).1
        = (["a", "b"] : List String).get?
            ((if true then 5 + 1 else 5) % (["a", "b"] : List String).length))) :=
  resolveRegistryAuto_selection "round_robin" true ["a", "b"] 5 (by decide)

/-! ## Claim C1: failover retry in the streaming executor
    (`run_sync` inside `OpenInterpreterAgent.run`, open_interpreter.py
    lines 614-796)

`run_sync` makes one provider call (`_stream_once`).  Afterwards:
* if the call completed but emitted zero chunks, it retries once with
  `_resolve_runtime_llm(on_error=True)` when `can_failover` holds, then
  emits a terminal error if the total emitted count is still zero;
* if the call raised, it retries once when the lowered message contains one
  of the transient tokens AND (`can_failover` OR the message is not
  quota-like); otherwise it emits `"Agent error: <msg>"`.

An attempt is abstracted as either completing with a chunk count or raising
with a message. -/

/-- Outcome of one `_stream_once` provider call. -/
inductive StreamAttempt where
  | completes (emitted : Nat)
  | raises (msg : String)
deriving DecidableEq

/-- The token list of the `except` branch of `run_sync` (the transient
vocabulary the code actually matches against the lowered message). -/
def transientTokens : List String :=
  ["rate limit", "too many requests", "429", "quota", "api key",
   "unauthorized", "401", "forbidden", "authentication"]

/-- `any(t in err for t in [...])` over the transient vocabulary. -/
def matchesTransient (err : String) : Bool :=
  transientTokens.any (fun t => containsSub err t)

/-- `OpenInterpreterAgent._is_quota_like_error`. -/
def isQuotaLike (errorText : String) : Bool :=
  let lowered := pyLower errorText
  ["quota", "insufficient_quota", "max budget", "billing", "credit"].any
    (fun t => containsSub lowered t)

/-- The terminal error emitted when both attempts produced zero chunks. -/
def noStreamText : String :=
  "Agent error: provider returned no stream output (possible quota/rate-limit/auth issue in Open Interpreter runtime)."

/-- What `run_sync` did after the first provider call: whether a failover
retry (`_resolve_runtime_llm(on_error=True)` followed by `_stream_once()`)
was performed, and the content of the terminal error event, if one was
emitted. -/
structure RunSyncOutcome where
  retried : Bool
  errorContent : Option String
deriving DecidableEq

/-- Failure handling of `run_sync`: `first` is the first `_stream_once`
outcome, `canFailover` the value of `_has_runtime_fallback(llm_cfg)`, and
`retry` the outcome the retry call would have (consulted only when a retry
is made).  In the zero-chunk branch, `emitted_chunks` accumulates across
both attempts. -/
def runSyncFailureModel (first : StreamAttempt) (canFailover : Bool)
    (retry : StreamAttempt) : RunSyncOutcome :=
  match first with
  | .completes n =>
      if n = 0 then
        if canFailover then
          match retry with
          | .completes m =>
              if n + m = 0 then ⟨true, some noStreamText⟩ else ⟨true, none⟩
          | .raises _ => ⟨true, some noStreamText⟩
        else ⟨false, some noStreamText⟩
      else ⟨false, none⟩
  | .raises msg =>
      let err := pyLower msg
      if matchesTransient err && (canFailover || !isQuotaLike err) then
        match retry with
        | .completes _ => ⟨true, none⟩
        | .raises m2 => ⟨true, some ("Agent error: " ++ m2)⟩
      else ⟨false, some ("Agent error: " ++ msg)⟩

/-- Claim C1 counterexample: an exception whose message is `"429"` matches
the transient vocabulary and is not quota-like, so `run_sync` retries once
even though `has_fallback` is false for the active config — the claim states
that with `has_fallback` false no retry occurs. -/
theorem runSync_retries_without_fallback :
    (runSyncFailureModel (.raises "429") false (.completes 1)).retried = true ∧
    matchesTransient (pyLower "429") = true ∧
    isQuotaLike (pyLower "429") = false := by decide

/-- Claim C1 (amended): `run_sync` performs the failover retry (re-resolving
with `on_error = true`, exactly once) precisely when the provider call either
completes with zero emitted events and `has_fallback` is true, or raises an
exception whose lowered message matches the transient vocabulary
(rate-limit / too-many-requests / 429 / quota / api-key / unauthorized /
401 / forbidden / authentication) and either `has_fallback` is true or the
message is not quota-like; in every other failure case no retry occurs. -/
theorem runSync_retry_iff (first retry : StreamAttempt) (canFailover : Bool) :
    (runSyncFailureModel first canFailover retry).retried = true ↔
      ((first = .completes 0 ∧ canFailover = true) ∨
       (∃ msg, first = .raises msg ∧ matchesTransient (pyLower msg) = true ∧
         (canFailover = true ∨ isQuotaLike (pyLower msg) = false))) := by
  cases first with
  | completes n =>
      cases canFailover with
      | false =>
          by_cases hn : n = 0 <;>
            simp [runSyncFailureModel, hn]
      | true =>
          by_cases hn : n = 0
          · subst hn
            cases retry with
            | completes m =>
                by_cases hm : m = 0 <;>
                  simp [runSyncFailureModel, hm]
            | raises m2 => simp [runSyncFailureModel]
          · simp [runSyncFailureModel, hn]
  | raises msg =>
      by_cases hmatch :
          (matchesTransient (pyLower msg) && (canFailover || !isQuotaLike (pyLower msg))) = true
      · cases retry <;>
          simp only [runSyncFailureModel, hmatch, if_pos rfl] <;>
          simp_all [Bool.and_eq_true, Bool.or_eq_true]
      · simp only [runSyncFailureModel]
        rw [if_neg (by simpa using hmatch)]
        simp_all [Bool.and_eq_true, Bool.or_eq_true]

/-! ## Claim C9: the keyword-bucket team fallback
    (`PlannerAgent._fallback_team_from_tasks`, planner.py lines 161-241)

Data model: `TaskSpec` and `AgentSpec` live in `pocketpaw/deep_work/models.py`;
their fields are embedded exactly as constructed and read throughout
planner.py (`TaskSpec(key=..., title=..., description=..., task_type=...,
priority=..., tags=..., estimated_minutes=..., required_specialties=...,
blocked_by_keys=...)` and `AgentSpec(name=..., role=..., description=...,
specialties=..., backend=...)`). -/

/-- A planner task specification (fields as constructed in planner.py). -/
structure TaskSpec where
  key : String
  title : String
  description : String
  task_type : String
  priority : String
  tags : List String
  estimated_minutes : Nat
  required_specialties : List String
  blocked_by_keys : List String
deriving DecidableEq

/-- A recommended team member (fields as constructed in planner.py). -/
structure AgentSpec where
  name : String
  role : String
  description : String
  specialties : List String
  backend : String
deriving DecidableEq

/-- The specialties collected by `_fallback_team_from_tasks`, before set
semantics are applied: for every agent task, `s.lower().strip()` of each
non-empty, non-blank required specialty. -/
def collectSpecialties (tasks : List TaskSpec) : List String :=
  (tasks.filter (fun t => t.task_type == "agent")).flatMap
    (fun t =>
      (t.required_specialties.filter (fun s => !(s == "") && !(pyStrip s == ""))).map
        (fun s => pyStrip (pyLower s)))

/-- Lexicographic code-point order on character lists (Python's string
order). -/
def charListLt : List Char → List Char → Bool
  | [], [] => false
  | [], _ :: _ => true
  | _ :: _, [] => false
  | c :: cs, d :: ds => c.toNat < d.toNat || (c == d && charListLt cs ds)

/-- Python's `<` on strings. -/
def strLt (a b : String) : Bool := charListLt a.data b.data

/-- Insert into a strictly sorted list, skipping duplicates. -/
def insertSorted (x : String) : List String → List String
  | [] => [x]
  | y :: ys =>
      if x == y then y :: ys
      else if strLt x y then x :: y :: ys
      else y :: insertSorted x ys

/-- `sorted(set(l))`: each distinct element once, in lexicographic order
(Python sorts strings by code point, as `String.lt` does). -/
def sortedDedup (l : List String) : List String :=
  l.foldl (fun acc x => insertSorted x acc) []

/-- `_bucket_for_specialty`: keyword matching into the four role buckets. -/
def bucketForSpecialty (specialty : String) : String :=
  let s := pyLower specialty
  if ["front", "ui", "html", "css", "javascript", "js", "react", "vue"].any
      (fun k => containsSub s k) then "frontend-ui"
  else if ["test", "qa", "quality", "validation"].any
      (fun k => containsSub s k) then "qa-validation"
  else if ["devops", "infra", "deploy", "docker", "k8s", "ops", "ci", "cd"].any
      (fun k => containsSub s k) then "infra-ops"
  else "engineering-core"

/-- One bucket entry of `_fallback_team_from_tasks`: an `AgentSpec` when the
bucket's specialty list is non-empty, nothing otherwise. -/
def bucketAgent (name role description : String) (specs : List String) :
    List AgentSpec :=
  if specs.isEmpty then [] else [⟨name, role, description, specs, "open_interpreter"⟩]

/-- The specialty set used by `_fallback_team_from_tasks`: the sorted
deduplicated collected specialties, or the default set
`\x7b"python", "testing"\x7d` when nothing was collected. -/
def teamSpecialties (tasks : List TaskSpec) : List String :=
  if (sortedDedup (collectSpecialties tasks)).isEmpty then
    sortedDedup ["python", "testing"]
  else sortedDedup (collectSpecialties tasks)

/-- The bucket loop of `_fallback_team_from_tasks`.  The Python loop walks
`sorted(specialties)` and appends each specialty to its bucket, so each
bucket's list equals the filter of the sorted deduplicated list by
`_bucket_for_specialty`; non-empty buckets become agents in dict insertion
order (engineering-core, frontend-ui, qa-validation, infra-ops). -/
def teamBucketResult (tasks : List TaskSpec) : List AgentSpec :=
  bucketAgent "engineering-core" "Execution Engineer"
    "Implements core project requirements and integration work."
    ((teamSpecialties tasks).filter (fun s => bucketForSpecialty s == "engineering-core"))
  ++ bucketAgent "frontend-ui" "Frontend Engineer"
    "Builds UI/UX, templates, and client-side interactions."
    ((teamSpecialties tasks).filter (fun s => bucketForSpecialty s == "frontend-ui"))
  ++ bucketAgent "qa-validation" "QA & Validation Engineer"
    "Runs tests, validates acceptance criteria, and reports gaps."
    ((teamSpecialties tasks).filter (fun s => bucketForSpecialty s == "qa-validation"))
  ++ bucketAgent "infra-ops" "Infra & Ops Engineer"
    "Handles runtime configuration, deployment, and operations tasks."
    ((teamSpecialties tasks).filter (fun s => bucketForSpecialty s == "infra-ops"))

/-- `PlannerAgent._fallback_team_from_tasks`. -/
def fallbackTeamFromTasks (tasks : List TaskSpec) : List AgentSpec :=
  if (teamBucketResult tasks).isEmpty then
    [⟨"execution-generalist", "Execution Generalist",
      "Fallback agent used when planner cannot produce structured team JSON. Executes assigned implementation and validation tasks.",
      teamSpecialties tasks, "open_interpreter"⟩]
  else teamBucketResult tasks

/-- The team produced when no specialties were collected at all: the default
set `\x7b"python", "testing"\x7d` is bucketed into engineering-core and
qa-validation, yielding two agents (not a single generalist). -/
def defaultTwoAgentTeam : List AgentSpec :=
  [⟨"engineering-core", "Execution Engineer",
    "Implements core project requirements and integration work.",
    ["python"], "open_interpreter"⟩,
   ⟨"qa-validation", "QA & Validation Engineer",
    "Runs tests, validates acceptance criteria, and reports gaps.",
    ["testing"], "open_interpreter"⟩]

/-- Claim C9 counterexample: for a single agent task with no required
specialties, `_fallback_team_from_tasks` returns two agents (engineering-core
with specialty "python" and qa-validation with specialty "testing"), not a
single generalist `AgentSpec`; moreover the produced specialty "python" is
not in the (empty) union of `required_specialties` over the agent tasks. -/
theorem fallbackTeam_empty_specialties_two_agents :
    fallbackTeamFromTasks [⟨"t1", "Analyze", "d", "agent", "high", [], 10, [], []⟩]
      = defaultTwoAgentTeam ∧
    (fallbackTeamFromTasks
      [⟨"t1", "Analyze", "d", "agent", "high", [], 10, [], []⟩]).length ≠ 1 := by
  decide

theorem insertSorted_ne_nil (x : String) (l : List String) :
    insertSorted x l ≠ [] := by
  cases l with
  | nil => simp [insertSorted]
  | cons y ys =>
      simp only [insertSorted]
      split
      · simp
      · split <;> simp

theorem foldl_insertSorted_ne_nil (l : List String) (acc : List String)
    (h : acc ≠ [] ∨ l ≠ []) :
    l.foldl (fun acc x => insertSorted x acc) acc ≠ [] := by
  induction l generalizing acc with
  | nil =>
      rcases h with h | h
      · simpa using h
      · exact absurd rfl h
  | cons x xs ih =>
      exact ih (insertSorted x acc) (Or.inl (insertSorted_ne_nil x acc))

theorem mem_insertSorted (y x : String) (l : List String)
    (h : y ∈ insertSorted x l) : y = x ∨ y ∈ l := by
  induction l with
  | nil => simpa [insertSorted] using h
  | cons z zs ih =>
      simp only [insertSorted] at h
      split at h
      · exact Or.inr h
      · split at h
        · rcases List.mem_cons.mp h with h | h
          · exact Or.inl h
          · exact Or.inr h
        · rcases List.mem_cons.mp h with h | h
          · exact Or.inr (h ▸ List.mem_cons_self z zs)
          · rcases ih h with h | h
            · exact Or.inl h
            · exact Or.inr (List.mem_cons_of_mem z h)

theorem mem_foldl_insertSorted (y : String) (l acc : List String)
    (h : y ∈ l.foldl (fun acc x => insertSorted x acc) acc) :
    y ∈ acc ∨ y ∈ l := by
  induction l generalizing acc with
  | nil => exact Or.inl (by simpa using h)
  | cons x xs ih =>
      rcases ih (insertSorted x acc) (by simpa using h) with h | h
      · rcases mem_insertSorted y x acc h with h | h
        · exact Or.inr (h ▸ List.mem_cons_self x xs)
        · exact Or.inl h
      · exact Or.inr (List.mem_cons_of_mem x h)

theorem mem_sortedDedup (y : String) (l : List String)
    (h : y ∈ sortedDedup l) : y ∈ l := by
  rcases mem_foldl_insertSorted y l [] h with h | h
  · simp at h
  · exact h

/-- Claim C9 (amended): the keyword-bucket fallback always produces at least
one `AgentSpec`; when at least one specialty was collected from the agent
tasks, every specialty of every produced `AgentSpec` is the lowercased,
stripped form of some entry of `required_specialties` of some agent-type
task; and when no specialties exist at all, the default pair
engineering-core("python") / qa-validation("testing") is returned rather
than a single generalist. -/
theorem specialties_of_mem_bucketAgent (sp : AgentSpec)
    (n r d : String) (specs : List String) (h : sp ∈ bucketAgent n r d specs) :
    sp.specialties = specs := by
  unfold bucketAgent at h
  split at h
  · simp at h
  · rcases List.mem_singleton.mp h with h
    subst h
    rfl

theorem specialties_of_mem_teamBucketResult (sp : AgentSpec)
    (tasks : List TaskSpec) (h : sp ∈ teamBucketResult tasks) :
    ∀ s ∈ sp.specialties, s ∈ teamSpecialties tasks := by
  intro s hs
  unfold teamBucketResult at h
  rcases List.mem_append.mp h with h | h
  · rcases List.mem_append.mp h with h | h
    · rcases List.mem_append.mp h with h | h
      · rw [specialties_of_mem_bucketAgent sp _ _ _ _ h] at hs
        exact (List.mem_filter.mp hs).1
      · rw [specialties_of_mem_bucketAgent sp _ _ _ _ h] at hs
        exact (List.mem_filter.mp hs).1
    · rw [specialties_of_mem_bucketAgent sp _ _ _ _ h] at hs
      exact (List.mem_filter.mp hs).1
  · rw [specialties_of_mem_bucketAgent sp _ _ _ _ h] at hs
    exact (List.mem_filter.mp hs).1

theorem fallbackTeam_specialties_sound (tasks : List TaskSpec) :
    fallbackTeamFromTasks tasks ≠ [] ∧
    (collectSpecialties tasks ≠ [] →
      ∀ sp ∈ fallbackTeamFromTasks tasks, ∀ s ∈ sp.specialties,
        ∃ t ∈ tasks, t.task_type = "agent" ∧
          ∃ r ∈ t.required_specialties, s = pyStrip (pyLower r)) ∧
    (collectSpecialties tasks = [] →
      fallbackTeamFromTasks tasks = defaultTwoAgentTeam) := by
  refine ⟨?_, ?_, ?_⟩
  · unfold fallbackTeamFromTasks
    split
    · simp
    · next hres =>
        intro hnil
        rw [hnil] at hres
        simp at hres
  · intro hne sp hsp s hs
    have hspec : s ∈ teamSpecialties tasks := by
      unfold fallbackTeamFromTasks at hsp
      split at hsp
      · rcases List.mem_singleton.mp hsp with h
        subst h
        exact hs
      · exact specialties_of_mem_teamBucketResult sp tasks hsp s hs
    have hsd : sortedDedup (collectSpecialties tasks) ≠ [] := by
      unfold sortedDedup
      exact foldl_insertSorted_ne_nil _ _ (Or.inr hne)
    have hspec2 : s ∈ sortedDedup (collectSpecialties tasks) := by
      unfold teamSpecialties at hspec
      rw [if_neg (by simpa [List.isEmpty_iff] using hsd)] at hspec
      exact hspec
    have hc : s ∈ collectSpecialties tasks := mem_sortedDedup s _ hspec2
    unfold collectSpecialties at hc
    simp only [List.mem_flatMap, List.mem_filter, List.mem_map] at hc
    rcases hc with ⟨t, ⟨htmem, htype⟩, r, ⟨hrmem, _⟩, hr⟩
    exact ⟨t, htmem, by simpa using htype, r, hrmem, hr.symm⟩
  · intro hempty
    unfold fallbackTeamFromTasks teamBucketResult teamSpecialties
    rw [hempty]
    decide

/-- Witness for `fallbackTeam_specialties_sound` at a task list with one
agent task carrying specialty `" Python "`. -/
theorem fallbackTeam_specialties_sound_witness :
    collectSpecialties
        [⟨"t1", "T", "d", "agent", "high", [], 10, [" Python "], []⟩] ≠ [] ∧
    (∀ sp ∈ fallbackTeamFromTasks
        [⟨"t1", "T", "d", "agent", "high", [], 10, [" Python "], []⟩],
      ∀ s ∈ sp.specialties,
        ∃ t ∈ [(⟨"t1", "T", "d", "agent", "high", [], 10, [" Python "], []⟩ : TaskSpec)],
          t.task_type = "agent" ∧
          ∃ r ∈ t.required_specialties, s = pyStrip (pyLower r)) :=
  ⟨by decide,
   (fallbackTeam_specialties_sound
      [⟨"t1", "T", "d", "agent", "high", [], 10, [" Python "], []⟩]).2.1
     (by decide)⟩

/-! ## Claim C7: the request rate limiter
    (`OpenInterpreterAgent._enforce_requests_per_minute`,
    open_interpreter.py lines 433-479)

Time is the rational-valued monotonic clock; `time.sleep(s)` advances it by
exactly `s`.  The mutable state is the deque `_request_times` (oldest first)
and `_last_request_ts`.  `limit` is
`max(0, open_interpreter_requests_per_minute)` and `cfgInterval` is
`max(0.0, open_interpreter_min_request_interval_seconds)`. -/

/-- Rate limiter state: the FIFO of request timestamps and the time of the
previous request (`0` meaning none yet, as in the Python initializer). -/
structure RLState where
  reqTimes : List ℚ
  lastTs : ℚ
deriving DecidableEq

/-- The front-eviction loop
`while self._request_times and (now - self._request_times[0]) >= window`
with `window = 60`. -/
def evictExpired (now : ℚ) : List ℚ → List ℚ
  | [] => []
  | t :: ts => if 60 ≤ now - t then evictExpired now ts else t :: ts

/-- The effective minimum inter-call interval:
`max(configured_min_interval, 60/limit if limit > 0 else 0)`. -/
def minIntervalOf (limit : Nat) (cfgInterval : ℚ) : ℚ :=
  max cfgInterval (if 0 < limit then 60 / (limit : ℚ) else 0)

/-- The clock after the minimum-interval pacing sleep (step (a) of
`_enforce_requests_per_minute`): the sleep runs only when the interval is
positive, a previous request exists, and less than the interval has
elapsed since it. -/
def pacedClock (limit : Nat) (cfgInterval : ℚ) (st : RLState) (now : ℚ) : ℚ :=
  if 0 < minIntervalOf limit cfgInterval ∧ 0 < st.lastTs ∧
      now - st.lastTs < minIntervalOf limit cfgInterval then
    st.lastTs + minIntervalOf limit cfgInterval
  else now

/-- The sliding-window step (b) of `_enforce_requests_per_minute`, applied
to the paced clock `now1` and the already-evicted FIFO `q1`: when occupancy
is still at or above the cap, sleep the remaining window time of the front
entry and evict again; returns the final clock and the FIFO before the
final append. -/
def enforceWindow (limit : Nat) (now1 : ℚ) (q1 : List ℚ) : ℚ × List ℚ :=
  if limit ≤ q1.length then
    match q1 with
    | [] => (now1, q1)
    | t0 :: ts =>
        if 0 < 60 - (now1 - t0) then
          (now1 + (60 - (now1 - t0)), evictExpired (now1 + (60 - (now1 - t0))) (t0 :: ts))
        else (now1, t0 :: ts)
  else (now1, q1)

/-- `_enforce_requests_per_minute`: returns the new state and the finish
clock (the timestamp recorded for this request).  Step (a) paces by the
minimum inter-call interval; with no cap the function only updates
`_last_request_ts`; otherwise step (b) evicts expired entries from the
front of the FIFO, waits out the window if occupancy is still at or above
the cap, and appends the finish time. -/
def enforceRPM (limit : Nat) (cfgInterval : ℚ) (st : RLState) (now : ℚ) :
    RLState × ℚ :=
  let now1 := pacedClock limit cfgInterval st now
  if limit = 0 then ({ st with lastTs := now1 }, now1)
  else
    let p := enforceWindow limit now1 (evictExpired now1 st.reqTimes)
    ({ reqTimes := p.2 ++ [p.1], lastTs := p.1 }, p.1)

theorem evictExpired_suffix (now : ℚ) (l : List ℚ) :
    evictExpired now l <:+ l := by
  induction l with
  | nil => simp [evictExpired]
  | cons a l ih =>
      simp only [evictExpired]
      split
      · exact ih.trans (List.suffix_cons a l)
      · exact List.suffix_refl _

theorem evictExpired_head_lt (now : ℚ) (l : List ℚ) (t : ℚ) (ts : List ℚ)
    (h : evictExpired now l = t :: ts) : now - t < 60 := by
  induction l with
  | nil => simp [evictExpired] at h
  | cons a l ih =>
      simp only [evictExpired] at h
      split at h
      · exact ih h
      · next hlt =>
          injection h with h1 h2
          subst h1
          linarith [lt_of_not_le hlt]

theorem evictExpired_all_in_window (now : ℚ) (l : List ℚ)
    (hsorted : l.Pairwise (· ≤ ·)) :
    ∀ t ∈ evictExpired now l, now - t < 60 := by
  induction l with
  | nil => simp [evictExpired]
  | cons a l ih =>
      intro t ht
      simp only [evictExpired] at ht
      split at ht
      · exact ih (List.pairwise_cons.mp hsorted).2 t ht
      · next hlt =>
          rcases List.mem_cons.mp ht with rfl | ht
          · linarith [lt_of_not_le hlt]
          · have hle : a ≤ t := (List.pairwise_cons.mp hsorted).1 t ht
            have : now - a < 60 := lt_of_not_le hlt
            linarith

theorem pacedClock_not_lt (limit : Nat) (cfgInterval : ℚ) (st : RLState)
    (now : ℚ) (h : st.lastTs ≤ now) :
    now ≤ pacedClock limit cfgInterval st now := by
  unfold pacedClock
  split
  · next hc => linarith [hc.2.2]
  · exact le_refl now

theorem minIntervalOf_pos_eq (limit : Nat) (cfgInterval : ℚ)
    (hlimit : 0 < limit) :
    minIntervalOf limit cfgInterval = max cfgInterval (60 / (limit : ℚ)) := by
  unfold minIntervalOf
  rw [if_pos hlimit]

theorem pacedClock_paces (limit : Nat) (cfgInterval : ℚ) (st : RLState)
    (now : ℚ) (hlimit : 0 < limit) (hlast : 0 < st.lastTs) :
    st.lastTs + max cfgInterval (60 / (limit : ℚ))
      ≤ pacedClock limit cfgInterval st now := by
  have hlimQ : (0 : ℚ) < (limit : ℚ) := by exact_mod_cast hlimit
  have hderived : (0 : ℚ) < 60 / (limit : ℚ) := by positivity
  have hmin : (0 : ℚ) < max cfgInterval (60 / (limit : ℚ)) :=
    lt_of_lt_of_le hderived (le_max_right _ _)
  unfold pacedClock
  rw [minIntervalOf_pos_eq limit cfgInterval hlimit]
  split
  · exact le_refl _
  · next hc =>
      push_neg at hc
      have := hc hmin hlast
      linarith

/-- Claim C7: a call to `_enforce_requests_per_minute` with a positive
requests-per-minute cap, on a well-formed state (sorted FIFO whose entries
precede `lastTs ≤ now`, occupancy at most the cap), satisfies:
(a) pacing — when a previous request exists, the recorded finish time is at
least `lastTs` plus the minimum inter-call interval
`max cfgInterval (60/limit)`, whose derived component is `60/limit`;
(b) sliding window — every timestamp kept in the new FIFO lies within the
last 60 seconds of the finish time, the new occupancy stays at most the
cap, and if after pacing and front-eviction the occupancy is still at or
above the cap the call sleeps exactly until the front entry leaves the
60-second window (`finish = front + 60`); hence when the FIFO already holds
`limit` entries — the (N+1)-th call within 60 s under a cap of N — the call
cannot finish before the oldest entry's timestamp plus 60 seconds. -/
theorem enforceRPM_paces_and_blocks (limit : Nat) (cfgInterval : ℚ)
    (st : RLState) (now : ℚ) (hlimit : 0 < limit)
    (hsorted : st.reqTimes.Pairwise (· ≤ ·))
    (hlast : ∀ t ∈ st.reqTimes, t ≤ st.lastTs)
    (hnow : st.lastTs ≤ now)
    (hlen : st.reqTimes.length ≤ limit) :
    (0 < st.lastTs →
      st.lastTs + max cfgInterval (60 / (limit : ℚ))
        ≤ (enforceRPM limit cfgInterval st now).2) ∧
    (∀ t ∈ (enforceRPM limit cfgInterval st now).1.reqTimes,
      (enforceRPM limit cfgInterval st now).2 - 60 < t ∧
      t ≤ (enforceRPM limit cfgInterval st now).2) ∧
    ((enforceRPM limit cfgInterval st now).1.reqTimes.length ≤ limit) ∧
    (∀ t0 ts1,
      evictExpired (pacedClock limit cfgInterval st now) st.reqTimes = t0 :: ts1 →
      limit ≤ (t0 :: ts1).length →
      (enforceRPM limit cfgInterval st now).2 = t0 + 60) ∧
    (limit ≤ st.reqTimes.length →
      ∀ t0, st.reqTimes.head? = some t0 →
        t0 + 60 ≤ (enforceRPM limit cfgInterval st now).2) := by
  have hlim0 : ¬ limit = 0 := by omega
  set now1 := pacedClock limit cfgInterval st now with hnow1def
  have hnow1 : now ≤ now1 := pacedClock_not_lt limit cfgInterval st now hnow
  set q1 := evictExpired now1 st.reqTimes with hq1def
  have hq1sub : ∀ t ∈ q1, t ∈ st.reqTimes := fun t ht =>
    (evictExpired_suffix now1 st.reqTimes).subset ht
  have hq1sorted : q1.Pairwise (· ≤ ·) :=
    hsorted.sublist (evictExpired_suffix now1 st.reqTimes).sublist
  have hq1len : q1.length ≤ st.reqTimes.length :=
    (evictExpired_suffix now1 st.reqTimes).sublist.length_le
  have henf : enforceRPM limit cfgInterval st now
      = (⟨(enforceWindow limit now1 q1).2 ++ [(enforceWindow limit now1 q1).1],
          (enforceWindow limit now1 q1).1⟩, (enforceWindow limit now1 q1).1) := by
    unfold enforceRPM
    rw [if_neg hlim0]
  -- characterize the window step
  have hwin : (limit ≤ q1.length ∧ ∃ t0 ts1, q1 = t0 :: ts1 ∧
        enforceWindow limit now1 q1 = (t0 + 60, evictExpired (t0 + 60) q1)) ∨
      (q1.length < limit ∧ enforceWindow limit now1 q1 = (now1, q1)) := by
    by_cases hq : limit ≤ q1.length
    · left
      refine ⟨hq, ?_⟩
      cases hq1 : q1 with
      | nil => rw [hq1] at hq; simp at hq; omega
      | cons t0 ts1 =>
          refine ⟨t0, ts1, rfl, ?_⟩
          have hfr : now1 - t0 < 60 :=
            evictExpired_head_lt now1 st.reqTimes t0 ts1 (hq1def.symm.trans hq1)
          rw [hq1] at hq
          unfold enforceWindow
          rw [if_pos hq]
          have hwf : 0 < 60 - (now1 - t0) := by linarith
          show (if 0 < 60 - (now1 - t0) then
              (now1 + (60 - (now1 - t0)),
                evictExpired (now1 + (60 - (now1 - t0))) (t0 :: ts1))
            else (now1, t0 :: ts1))
            = (t0 + 60, evictExpired (t0 + 60) (t0 :: ts1))
          rw [if_pos hwf, show now1 + (60 - (now1 - t0)) = t0 + 60 by ring]
    · right
      refine ⟨by omega, ?_⟩
      unfold enforceWindow
      rw [if_neg hq]
  have hfin_ge : now1 ≤ (enforceWindow limit now1 q1).1 := by
    rcases hwin with ⟨hq, t0, ts1, hq1, heq⟩ | ⟨hq, heq⟩
    · rw [heq]
      have hfr : now1 - t0 < 60 := evictExpired_head_lt now1 st.reqTimes t0 ts1 (by rw [← hq1def, hq1])
      simp only
      linarith
    · rw [heq]
  refine ⟨?_, ?_, ?_, ?_, ?_⟩
  · -- (a) pacing
    intro hpos
    rw [henf]
    exact le_trans (pacedClock_paces limit cfgInterval st now hlimit hpos) hfin_ge
  · -- (b) all entries of the new FIFO are within the last 60 s of finish
    intro t ht
    rw [henf] at ht ⊢
    simp only at ht
    rcases List.mem_append.mp ht with ht | ht
    · have htst : t ∈ st.reqTimes := by
        rcases hwin with ⟨hq, t0, ts1, hq1, heq⟩ | ⟨hq, heq⟩
        · rw [heq] at ht
          exact hq1sub t ((evictExpired_suffix (t0 + 60) q1).subset ht)
        · rw [heq] at ht
          exact hq1sub t ht
      have htle : t ≤ (enforceWindow limit now1 q1).1 :=
        le_trans (le_trans (hlast t htst) (le_trans hnow hnow1)) hfin_ge
      refine ⟨?_, htle⟩
      rcases hwin with ⟨hq, t0, ts1, hq1, heq⟩ | ⟨hq, heq⟩
      · rw [heq] at ht ⊢
        have := evictExpired_all_in_window (t0 + 60) q1 hq1sorted t ht
        simp only at this ⊢
        linarith
      · rw [heq] at ht ⊢
        have := evictExpired_all_in_window now1 st.reqTimes hsorted t (hq1def ▸ ht)
        simp only
        linarith
    · simp only [List.mem_singleton] at ht
      subst ht
      constructor
      · linarith
      · exact le_refl _
  · -- (b) occupancy stays at most the cap
    rw [henf]
    simp only [List.length_append, List.length_singleton]
    rcases hwin with ⟨hq, t0, ts1, hq1, heq⟩ | ⟨hq, heq⟩
    · rw [heq]
      have hdrop : evictExpired (t0 + 60) q1 = evictExpired (t0 + 60) ts1 := by
        rw [hq1]
        simp [evictExpired]
      have : (evictExpired (t0 + 60) ts1).length ≤ ts1.length :=
        (evictExpired_suffix (t0 + 60) ts1).sublist.length_le
      have hq1l : q1.length = ts1.length + 1 := by rw [hq1]; rfl
      simp only [hdrop]
      omega
    · rw [heq]
      simp only
      omega
  · -- (b) exact window wait
    intro t0 ts1 hq1eq hlenq
    have hq1' : q1 = t0 :: ts1 := by rw [hq1def]; exact hq1eq
    rcases hwin with ⟨hq, t0', ts1', hq1'', heq⟩ | ⟨hq, heq⟩
    · rw [hq1'] at hq1''
      injection hq1'' with h1 h2
      subst h1
      rw [henf, heq]
    · rw [hq1'] at hq
      simp only [List.length_cons] at hq hlenq
      omega
  · -- consequence: a full window blocks until the front leaves it
    intro hfull t0 hhead
    cases hst : st.reqTimes with
    | nil => rw [hst] at hhead; simp at hhead
    | cons a rest =>
        rw [hst] at hhead
        simp only [List.head?_cons, Option.some.injEq] at hhead
        subst hhead
        by_cases hexp : 60 ≤ now1 - a
        · rw [henf]
          have : a + 60 ≤ now1 := by linarith
          exact le_trans this hfin_ge
        · have hq1' : q1 = a :: rest := by
            rw [hq1def, hst]
            simp only [evictExpired]
            rw [if_neg hexp]
          rcases hwin with ⟨hq, t0', ts1', hq1'', heq⟩ | ⟨hq, heq⟩
          · rw [hq1'] at hq1''
            injection hq1'' with h1 h2
            subst h1
            rw [henf, heq]
          · rw [hq1'] at hq
            rw [hst] at hfull
            simp only [List.length_cons] at hq hfull
            omega

/-- Witness for `enforceRPM_paces_and_blocks`: cap 2, no configured
interval, two requests at times 10 and 40 already in the window,
previous request at 40, called at time 41. -/
theorem enforceRPM_paces_and_blocks_witness :
    ((0 : ℚ) < (⟨[10, 40], 40⟩ : RLState).lastTs →
      (⟨[10, 40], 40⟩ : RLState).lastTs + max 0 (60 / ((2 : Nat) : ℚ))
        ≤ (enforceRPM 2 0 ⟨[10, 40], 40⟩ 41).2) ∧
    (∀ t ∈ (enforceRPM 2 0 ⟨[10, 40], 40⟩ 41).1.reqTimes,
      (enforceRPM 2 0 ⟨[10, 40], 40⟩ 41).2 - 60 < t ∧
      t ≤ (enforceRPM 2 0 ⟨[10, 40], 40⟩ 41).2) ∧
    ((enforceRPM 2 0 ⟨[10, 40], 40⟩ 41).1.reqTimes.length ≤ 2) ∧
    (∀ t0 ts1,
      evictExpired (pacedClock 2 0 ⟨[10, 40], 40⟩ 41) (⟨[10, 40], 40⟩ : RLState).reqTimes
        = t0 :: ts1 →
      2 ≤ (t0 :: ts1).length →
      (enforceRPM 2 0 ⟨[10, 40], 40⟩ 41).2 = t0 + 60) ∧
    (2 ≤ (⟨[10, 40], 40⟩ : RLState).reqTimes.length →
      ∀ t0, (⟨[10, 40], 40⟩ : RLState).reqTimes.head? = some t0 →
        t0 + 60 ≤ (enforceRPM 2 0 ⟨[10, 40], 40⟩ 41).2) :=
  enforceRPM_paces_and_blocks 2 0 ⟨[10, 40], 40⟩ 41 (by decide)
    (by decide) (by decide) (by decide) (by decide)

/-! ## Claim C5: idle-timeout abort in the executor consumer loop
    (`OpenInterpreterAgent.run`, open_interpreter.py lines 806-846)

The async consumer loop pulls chunks from the queue with
`asyncio.wait_for(chunk_queue.get(), timeout=60.0)`:
* a received chunk resets `idle_timeouts` to 0 and is yielded;
* the `None` end signal breaks the loop;
* a `TimeoutError` increments `idle_timeouts`; if the worker future is done
  the loop breaks silently; if `idle_timeouts >= max_idle_timeouts` (10) the
  loop sets `self._stop_flag = True`, yields a terminal error chunk and
  breaks; otherwise it yields a heartbeat message.
The loop contains no overall timer, and the abort path does not call
`self._interpreter.reset()` (only the pre-run busy path and `stop()` do).
Each timed-out wait lasts exactly the 60-second idle timeout, so the
`stall` field tracks the wall time since the last received chunk. -/

/-- A chunk yielded to the caller of `run()` (the `type`/`content` fields of
the dict). -/
structure OutChunk where
  type : String
  content : String
deriving DecidableEq

/-- One observation of the consumer loop: the queue yields an item within
the idle timeout, the `None` end signal arrives, or the wait times out
(recording whether the worker future was already done). -/
inductive ConsEvent where
  | item (c : OutChunk)
  | endSignal
  | timeout (workerDone : Bool)
deriving DecidableEq

/-- The observable actions the consumer loop performs, in order. -/
inductive ConsAction where
  | yield (c : OutChunk)
  | setStopFlag
  | resetSession
deriving DecidableEq

/-- How the consumer loop ended. -/
inductive ConsExit where
  | ended
  | abortedIdle
deriving DecidableEq

/-- Consumer loop state: the consecutive idle-timeout count, the wall time
in seconds since the last received chunk (each timed-out wait lasts exactly
the 60-second idle timeout, so this clock is integral), the actions
performed so far and the cooperative stop flag. -/
structure ConsState where
  idleCount : Nat
  stall : Nat
  actions : List ConsAction
  stopFlag : Bool
deriving DecidableEq

/-- `max_idle_timeouts` of `run()`. -/
def maxIdleTimeouts : Nat := 10

/-- The heartbeat chunk yielded on a non-final idle timeout. -/
def stillProcessingChunk : OutChunk := ⟨"message", "⏳ Still processing..."⟩

/-- The terminal error chunk yielded on the idle abort. -/
def idleAbortChunk : OutChunk :=
  ⟨"error",
   "⚠️ Open Interpreter завис и не вернул ответ вовремя. Остановил текущий запуск. Проверьте модель/провайдер и повторите запрос."⟩

/-- The consumer loop of `run()` over a sequence of queue observations:
`Sum.inl` is the still-running state after consuming all events, `Sum.inr`
the exit and final state. -/
def runConsumer : ConsState → List ConsEvent → ConsState ⊕ (ConsExit × ConsState)
  | st, [] => .inl st
  | st, ev :: evs =>
      match ev with
      | .item c =>
          runConsumer
            { st with
              idleCount := 0
              stall := 0
              actions := st.actions ++ [.yield c] } evs
      | .endSignal => .inr (.ended, st)
      | .timeout workerDone =>
          let st1 := { st with idleCount := st.idleCount + 1, stall := st.stall + 60 }
          if workerDone then .inr (.ended, st1)
          else if maxIdleTimeouts ≤ st1.idleCount then
            .inr (.abortedIdle,
              { st1 with
                stopFlag := true
                actions := st1.actions ++ [.setStopFlag, .yield idleAbortChunk] })
          else
            runConsumer
              { st1 with actions := st1.actions ++ [.yield stillProcessingChunk] } evs

/-- The actions performed by a finished or still-running consumer loop. -/
def consActionsOf : ConsState ⊕ (ConsExit × ConsState) → List ConsAction
  | .inl st => st.actions
  | .inr (_, st) => st.actions

/-- Splitting a consumer run at an intermediate point. -/
theorem runConsumer_append (l1 l2 : List ConsEvent) (st : ConsState) :
    runConsumer st (l1 ++ l2)
      = match runConsumer st l1 with
        | .inl st' => runConsumer st' l2
        | .inr r => .inr r := by
  induction l1 generalizing st with
  | nil => simp [runConsumer]
  | cons ev evs ih =>
      cases ev with
      | item c => simpa [runConsumer] using ih _
      | endSignal => simp [runConsumer]
      | timeout workerDone =>
          cases workerDone with
          | true => simp [runConsumer]
          | false =>
              by_cases habort : maxIdleTimeouts ≤ st.idleCount + 1
              · simp [runConsumer, habort]
              · simpa [runConsumer, habort] using ih _

/-- Ten consecutive idle timeouts with the worker alive, starting from a
fresh stall, abort the run: the stop flag is set, nine heartbeats then the
terminal error are yielded, no session reset is requested, and the stall
time at abort is exactly `60 × 10 = 600` seconds. -/
theorem runConsumer_ten_timeouts (acts : List ConsAction) (flag : Bool) :
    runConsumer ⟨0, 0, acts, flag⟩ (List.replicate 10 (.timeout false))
      = .inr (.abortedIdle,
          ⟨10, 600,
           (acts ++ List.replicate 9 (.yield stillProcessingChunk))
             ++ [.setStopFlag, .yield idleAbortChunk], true⟩) := by
  norm_num [runConsumer, List.replicate_succ, maxIdleTimeouts, List.append_assoc]

/-- Claim C5 counterexample: a run that receives one chunk and then ten
consecutive idle timeouts with the worker alive aborts with the stop flag
set and a terminal error yielded, but never requests a provider-session
reset — the claim states the abort path asks the provider session to
reset. -/
theorem consumer_idle_abort_without_reset :
    runConsumer ⟨0, 0, [], false⟩
        (.item ⟨"message", "hi"⟩ :: List.replicate 10 (.timeout false))
      = .inr (.abortedIdle,
          ⟨10, 600,
           (([ConsAction.yield ⟨"message", "hi"⟩]
              ++ List.replicate 9 (.yield stillProcessingChunk))
             ++ [.setStopFlag, .yield idleAbortChunk]), true⟩) ∧
    ConsAction.resetSession ∉
      consActionsOf (runConsumer ⟨0, 0, [], false⟩
        (.item ⟨"message", "hi"⟩ :: List.replicate 10 (.timeout false))) := by
  constructor
  · decide
  · decide

/-- Claim C5 (amended): for every executor run in which ten consecutive
per-item idle-timeout breaches occur with the worker still alive (after any
prefix of activity that left the loop running with a fresh stall), the run
sets the cooperative stop flag and yields a terminal error event — but does
not request a provider-session reset — after a stall of exactly
`idle_timeout × max_idle_count = 60 × 10 = 600` seconds since the last
chunk; the loop has no overall timer, so this holds independently of any
overall timeout. -/
theorem runConsumer_idle_abort (pre : List ConsEvent) (st' : ConsState)
    (h1 : runConsumer ⟨0, 0, [], false⟩ pre = .inl st')
    (h2 : st'.idleCount = 0) (h3 : st'.stall = 0) (h4 : st'.stopFlag = false) :
    runConsumer ⟨0, 0, [], false⟩
        (pre ++ List.replicate maxIdleTimeouts (.timeout false))
      = .inr (.abortedIdle,
          ⟨10, 60 * 10,
           (st'.actions ++ List.replicate 9 (.yield stillProcessingChunk))
             ++ [.setStopFlag, .yield idleAbortChunk], true⟩) ∧
    (ConsAction.resetSession ∉ st'.actions →
      ConsAction.resetSession ∉
        consActionsOf (runConsumer ⟨0, 0, [], false⟩
          (pre ++ List.replicate maxIdleTimeouts (.timeout false)))) := by
  have hst : st' = ⟨0, 0, st'.actions, false⟩ := by
    cases st'
    simp_all
  have hrun : runConsumer ⟨0, 0, [], false⟩
      (pre ++ List.replicate maxIdleTimeouts (.timeout false))
      = .inr (.abortedIdle,
          ⟨10, 60 * 10,
           (st'.actions ++ List.replicate 9 (.yield stillProcessingChunk))
             ++ [.setStopFlag, .yield idleAbortChunk], true⟩) := by
    rw [runConsumer_append, h1]
    show runConsumer st' (List.replicate maxIdleTimeouts (.timeout false)) = _
    rw [hst]
    rw [show maxIdleTimeouts = 10 from rfl]
    rw [runConsumer_ten_timeouts st'.actions false]
  refine ⟨hrun, ?_⟩
  intro hres
  rw [hrun]
  unfold consActionsOf
  intro hmem
  rcases List.mem_append.mp hmem with h | h
  · rcases List.mem_append.mp h with h | h
    · exact hres h
    · exact absurd (List.mem_replicate.mp h).2 (by decide)
  · rcases List.mem_cons.mp h with h | h
    · exact absurd h (by decide)
    · rcases List.mem_cons.mp h with h | h
      · exact absurd h (by decide)
      · simp at h

/-- Witness for `runConsumer_idle_abort`: the prefix consists of a single
received chunk. -/
theorem runConsumer_idle_abort_witness :
    (runConsumer ⟨0, 0, [], false⟩ [.item ⟨"message", "hi"⟩]
      = .inl ⟨0, 0, [ConsAction.yield ⟨"message", "hi"⟩], false⟩) ∧
    (runConsumer ⟨0, 0, [], false⟩
        ([ConsEvent.item ⟨"message", "hi"⟩]
          ++ List.replicate maxIdleTimeouts (.timeout false))
      = .inr (.abortedIdle,
          ⟨10, 60 * 10,
           (([ConsAction.yield ⟨"message", "hi"⟩]
              ++ List.replicate 9 (.yield stillProcessingChunk)))
             ++ [.setStopFlag, .yield idleAbortChunk], true⟩) ∧
    (ConsAction.resetSession ∉ [ConsAction.yield ⟨"message", "hi"⟩] →
      ConsAction.resetSession ∉
        consActionsOf (runConsumer ⟨0, 0, [], false⟩
          ([ConsEvent.item ⟨"message", "hi"⟩]
            ++ List.replicate maxIdleTimeouts (.timeout false))))) :=
  ⟨by decide,
   runConsumer_idle_abort [.item ⟨"message", "hi"⟩]
     ⟨0, 0, [ConsAction.yield ⟨"message", "hi"⟩], false⟩
     (by decide) rfl rfl rfl⟩

/-! ## JSON core: values, Python `json.dumps`, Python `json.loads`

Shared by claims C3, C8 and C10.  `json.dumps` is modelled with its default
separators `", "` / `": "` and `ensure_ascii=False` (the planner calls it
with `ensure_ascii=False`; for the serializations quantified over in C3 the
two agree on the tame values used).  `json.loads` is modelled as a strict
recursive-descent reader of the JSON grammar with integer numbers; floats
do not occur in any input treated here.  Leading-zero number forms and
surrogate `\u` pairs are accepted leniently — neither occurs in any input
treated by the theorems. -/

/-- JSON values; numbers are integers. -/
inductive Json where
  | null
  | bool (b : Bool)
  | num (n : Int)
  | str (s : String)
  | arr (elems : List Json)
  | obj (fields : List (String × Json))

mutual

/-- Structural equality test; the nested `List` positions rule out the
derived instance, so the three tests are one mutual group. -/
def jsonBeq : Json → Json → Bool
  | .null, .null => true
  | .bool a, .bool b => a == b
  | .num a, .num b => a == b
  | .str a, .str b => a == b
  | .arr a, .arr b => jsonBeqList a b
  | .obj a, .obj b => jsonBeqFields a b
  | _, _ => false

/-- Elementwise equality of value lists. -/
def jsonBeqList : List Json → List Json → Bool
  | [], [] => true
  | a :: as1, b :: bs => jsonBeq a b && jsonBeqList as1 bs
  | _, _ => false

/-- Elementwise equality of field lists (name and value). -/
def jsonBeqFields : List (String × Json) → List (String × Json) → Bool
  | [], [] => true
  | (k1, v1) :: as1, (k2, v2) :: bs =>
      k1 == k2 && jsonBeq v1 v2 && jsonBeqFields as1 bs
  | _, _ => false

end

mutual

theorem jsonBeq_iff : ∀ a b : Json, jsonBeq a b = true ↔ a = b
  | .null, .null => by simp [jsonBeq]
  | .bool _, .bool _ => by simp [jsonBeq]
  | .num _, .num _ => by simp [jsonBeq]
  | .str _, .str _ => by simp [jsonBeq]
  | .arr a, .arr b => by simp [jsonBeq, jsonBeqList_iff a b]
  | .obj a, .obj b => by simp [jsonBeq, jsonBeqFields_iff a b]
  | .null, .bool _ | .null, .num _ | .null, .str _ | .null, .arr _ | .null, .obj _
  | .bool _, .null | .bool _, .num _ | .bool _, .str _ | .bool _, .arr _
  | .bool _, .obj _
  | .num _, .null | .num _, .bool _ | .num _, .str _ | .num _, .arr _
  | .num _, .obj _
  | .str _, .null | .str _, .bool _ | .str _, .num _ | .str _, .arr _
  | .str _, .obj _
  | .arr _, .null | .arr _, .bool _ | .arr _, .num _ | .arr _, .str _
  | .arr _, .obj _
  | .obj _, .null | .obj _, .bool _ | .obj _, .num _ | .obj _, .str _
  | .obj _, .arr _ => by simp [jsonBeq]

theorem jsonBeqList_iff : ∀ a b : List Json, jsonBeqList a b = true ↔ a = b
  | [], [] => by simp [jsonBeqList]
  | a :: as1, b :: bs => by
      simp [jsonBeqList, jsonBeq_iff a b, jsonBeqList_iff as1 bs]
  | [], _ :: _ => by simp [jsonBeqList]
  | _ :: _, [] => by simp [jsonBeqList]

theorem jsonBeqFields_iff :
    ∀ a b : List (String × Json), jsonBeqFields a b = true ↔ a = b
  | [], [] => by simp [jsonBeqFields]
  | (k1, v1) :: as1, (k2, v2) :: bs => by
      simp [jsonBeqFields, jsonBeq_iff v1 v2, jsonBeqFields_iff as1 bs, and_assoc]
  | [], _ :: _ => by simp [jsonBeqFields]
  | _ :: _, [] => by simp [jsonBeqFields]

end

instance : DecidableEq Json := fun a b => decidable_of_iff _ (jsonBeq_iff a b)

/-- The decimal digit character for `d < 10`. -/
def digitChar (d : Nat) : Char := Char.ofNat (48 + d)

/-- Lower-case hex digit character for `d < 16`. -/
def hexDigitChar (d : Nat) : Char :=
  if d < 10 then digitChar d else Char.ofNat (97 + (d - 10))

/-- Big-endian decimal digits of `n`, with explicit fuel (the digit count
of `n` is at most `n`, so `natCharsAux (n + 1) n` is exact). -/
def natCharsAux : Nat → Nat → List Char
  | 0, _ => []
  | fuel + 1, n =>
      if n < 10 then [digitChar n]
      else natCharsAux fuel (n / 10) ++ [digitChar (n % 10)]

/-- Python's `str(n)` for a natural number. -/
def natChars (n : Nat) : List Char := natCharsAux (n + 1) n

/-- Python's `str(i)` for an integer. -/
def intChars : Int → List Char
  | .ofNat n => natChars n
  | .negSucc n => '-' :: natChars (n + 1)

/-- The escape `json.dumps` applies to one character
(`ensure_ascii=False`): quote, backslash and control characters. -/
def escapeChar (c : Char) : List Char :=
  if c = '"' then ['\\', '"']
  else if c = '\\' then ['\\', '\\']
  else if c = '\n' then ['\\', 'n']
  else if c = '\t' then ['\\', 't']
  else if c = '\r' then ['\\', 'r']
  else if c = '\x08' then ['\\', 'b']
  else if c = '\x0c' then ['\\', 'f']
  else if c.toNat < 32 then
    ['\\', 'u', '\x30', '0', hexDigitChar (c.toNat / 16), hexDigitChar (c.toNat % 16)]
  else [c]

/-- A serialized JSON string literal: quote, escaped characters, quote. -/
def dumpsStr (s : String) : List Char :=
  '"' :: (s.data.flatMap escapeChar ++ ['"'])

mutual

/-- `json.dumps` (default separators, `ensure_ascii=False`), as characters. -/
def dumpsVal : Json → List Char
  | .null => ['n', 'u', 'l', '\x6c']
  | .bool true => ['t', 'r', '\x75', 'e']
  | .bool false => ['f', 'a', '\x6c', 's', 'e']
  | .num i => intChars i
  | .str s => dumpsStr s
  | .arr es => '[' :: (dumpsElems es ++ [']'])
  | .obj fs => '{' :: (dumpsFields fs ++ ['}'])

/-- Array elements joined by `", "`. -/
def dumpsElems : List Json → List Char
  | [] => []
  | [e] => dumpsVal e
  | e :: e2 :: es => dumpsVal e ++ (',' :: ' ' :: dumpsElems (e2 :: es))

/-- Object members `"key": value` joined by `", "`. -/
def dumpsFields : List (String × Json) → List Char
  | [] => []
  | [(k, v)] => dumpsStr k ++ (':' :: ' ' :: dumpsVal v)
  | (k, v) :: f2 :: fs =>
      (dumpsStr k ++ (':' :: ' ' :: dumpsVal v)) ++ (',' :: ' ' :: dumpsFields (f2 :: fs))

end

/-- `json.dumps` as a string. -/
def dumps (v : Json) : String := String.mk (dumpsVal v)

/-- The whitespace characters `json.loads` skips between tokens. -/
def jsonWsChar (c : Char) : Bool :=
  c == ' ' || c == '\t' || c == '\n' || c == '\r'

/-- Skip inter-token whitespace. -/
def skipWs (cs : List Char) : List Char := cs.dropWhile jsonWsChar

/-- Decimal digit test (`'0' <= c <= '9'`). -/
def isDigitChar (c : Char) : Bool := 48 ≤ c.toNat && c.toNat ≤ 57

/-- Hex digit value, both cases. -/
def hexVal (c : Char) : Option Nat :=
  if 48 ≤ c.toNat ∧ c.toNat ≤ 57 then some (c.toNat - 48)
  else if 97 ≤ c.toNat ∧ c.toNat ≤ 102 then some (c.toNat - 87)
  else if 65 ≤ c.toNat ∧ c.toNat ≤ 70 then some (c.toNat - 55)
  else none

/-- Read a JSON string body after the opening quote: returns the decoded
characters and the input after the closing quote.  Strict mode: raw
control characters are rejected; `\uXXXX` is decoded without surrogate
pairing (no input treated here contains one). -/
def parseStringBody : List Char → Option (List Char × List Char)
  | [] => none
  | c :: cs =>
      if c = '"' then some ([], cs)
      else if c = '\\' then
        match cs with
        | [] => none
        | e :: cs2 =>
            if e = '"' then (fun p => ('"' :: p.1, p.2)) <$> parseStringBody cs2
            else if e = '\\' then (fun p => ('\\' :: p.1, p.2)) <$> parseStringBody cs2
            else if e = '/' then (fun p => ('/' :: p.1, p.2)) <$> parseStringBody cs2
            else if e = 'b' then (fun p => ('\x08' :: p.1, p.2)) <$> parseStringBody cs2
            else if e = 'f' then (fun p => ('\x0c' :: p.1, p.2)) <$> parseStringBody cs2
            else if e = 'n' then (fun p => ('\n' :: p.1, p.2)) <$> parseStringBody cs2
            else if e = 'r' then (fun p => ('\r' :: p.1, p.2)) <$> parseStringBody cs2
            else if e = 't' then (fun p => ('\t' :: p.1, p.2)) <$> parseStringBody cs2
            else if e = 'u' then
              match cs2 with
              | h1 :: h2 :: h3 :: h4 :: cs3 =>
                  match hexVal h1, hexVal h2, hexVal h3, hexVal h4 with
                  | some a, some b, some c2, some d =>
                      (fun p => (Char.ofNat (((a * 16 + b) * 16 + c2) * 16 + d) :: p.1, p.2))
                        <$> parseStringBody cs3
                  | _, _, _, _ => none
              | _ => none
            else none
      else if c.toNat < 32 then none
      else (fun p => (c :: p.1, p.2)) <$> parseStringBody cs

/-- Accumulate decimal digits. -/
def parseDigitsAcc : Nat → List Char → Nat × List Char
  | acc, [] => (acc, [])
  | acc, c :: cs =>
      if isDigitChar c then parseDigitsAcc (acc * 10 + (c.toNat - 48)) cs
      else (acc, c :: cs)

/-- Read an integer token (optional minus sign, one or more digits). -/
def parseIntToken : List Char → Option (Int × List Char)
  | [] => none
  | c :: cs1 =>
      if c = '-' then
        match cs1 with
        | [] => none
        | c2 :: _ =>
            if isDigitChar c2 then
              let p := parseDigitsAcc 0 cs1
              some (-(p.1 : Int), p.2)
            else none
      else if isDigitChar c then
        let p := parseDigitsAcc 0 (c :: cs1)
        some ((p.1 : Int), p.2)
      else none

mutual

/-- Read one JSON value at the head of the (whitespace-free) input. -/
def parseVal : Nat → List Char → Option (Json × List Char)
  | 0, _ => none
  | fuel + 1, cs =>
      match cs with
      | [] => none
      | c :: cs1 =>
          if c = '"' then
            (fun p => (Json.str (String.mk p.1), p.2)) <$> parseStringBody cs1
          else if c = '[' then parseArrBody fuel (skipWs cs1)
          else if c = '{' then parseObjBody fuel (skipWs cs1)
          else if c = 't' then
            if listStartsWith cs1 ['r', 'u', 'e'] then some (.bool true, cs1.drop 3)
            else none
          else if c = 'f' then
            if listStartsWith cs1 ['a', 'l', 's', 'e'] then some (.bool false, cs1.drop 4)
            else none
          else if c = 'n' then
            if listStartsWith cs1 ['u', 'l', 'l'] then some (.null, cs1.drop 3)
            else none
          else if c = '-' || isDigitChar c then
            (fun p => (Json.num p.1, p.2)) <$> parseIntToken (c :: cs1)
          else none

/-- Read an array body after `[` (whitespace skipped). -/
def parseArrBody : Nat → List Char → Option (Json × List Char)
  | 0, _ => none
  | fuel + 1, cs =>
      match cs with
      | ']' :: r => some (.arr [], r)
      | _ => (fun p => (Json.arr p.1, p.2)) <$> parseElems fuel cs

/-- Read one or more `value (, value)*` then `]`. -/
def parseElems : Nat → List Char → Option (List Json × List Char)
  | 0, _ => none
  | fuel + 1, cs => do
      let p ← parseVal fuel cs
      match skipWs p.2 with
      | ',' :: r2 => do
          let q ← parseElems fuel (skipWs r2)
          some (p.1 :: q.1, q.2)
      | ']' :: r2 => some ([p.1], r2)
      | _ => none

/-- Read an object body after `{` (whitespace skipped). -/
def parseObjBody : Nat → List Char → Option (Json × List Char)
  | 0, _ => none
  | fuel + 1, cs =>
      match cs with
      | '}' :: r => some (.obj [], r)
      | _ => (fun p => (Json.obj p.1, p.2)) <$> parseMembers fuel cs

/-- Read one or more `"key": value (, "key": value)*` then `}`. -/
def parseMembers : Nat → List Char → Option (List (String × Json) × List Char)
  | 0, _ => none
  | fuel + 1, cs =>
      match cs with
      | '"' :: cs1 => do
          let k ← parseStringBody cs1
          match skipWs k.2 with
          | ':' :: r2 => do
              let v ← parseVal fuel (skipWs r2)
              match skipWs v.2 with
              | ',' :: r4 => do
                  let q ← parseMembers fuel (skipWs r4)
                  some ((String.mk k.1, v.1) :: q.1, q.2)
              | '}' :: r4 => some ([(String.mk k.1, v.1)], r4)
              | _ => none
          | _ => none
      | _ => none

end

/-- `json.loads`: parse a complete document, requiring only whitespace
after the value.  The fuel `2 × length + 2` exceeds the parser's maximal
recursion depth on any input it accepts. -/
def jsonLoads (s : String) : Option Json :=
  let cs := skipWs s.data
  match parseVal (2 * cs.length + 2) cs with
  | some p => if (skipWs p.2).isEmpty then some p.1 else none
  | none => none

/-! ### Round trip: `jsonLoads (dumps v) = some v` for tame values

A character is tame when it is not a control character, or is one of the
three common escapes; a value is tame when every string and key in it is.
`dumps` escapes tame strings using only the two-character escapes, which
the reader inverts exactly. -/

/-- Not a control character, or one of `\n`, `\t`, `\r`. -/
def tameChar (c : Char) : Bool :=
  32 ≤ c.toNat || c == '\n' || c == '\t' || c == '\r'

/-- Every character of the string is tame. -/
def tameStr (s : String) : Bool := s.data.all tameChar

mutual

/-- Every string and key inside the value is tame. -/
def tameV : Json → Bool
  | .str s => tameStr s
  | .arr es => tameElems es
  | .obj fs => tameFields fs
  | _ => true

/-- Tameness of an element list. -/
def tameElems : List Json → Bool
  | [] => true
  | e :: es => tameV e && tameElems es

/-- Tameness of a field list. -/
def tameFields : List (String × Json) → Bool
  | [] => true
  | (k, v) :: fs => tameStr k && tameV v && tameFields fs

end

mutual

/-- Fuel sufficient for `parseVal` to read the value back. -/
def boundV : Json → Nat
  | .arr es => boundElems es + 2
  | .obj fs => boundMembers fs + 2
  | _ => 1

/-- Fuel sufficient for `parseElems`. -/
def boundElems : List Json → Nat
  | [] => 1
  | e :: es => max (boundV e) (boundElems es) + 1

/-- Fuel sufficient for `parseMembers`. -/
def boundMembers : List (String × Json) → Nat
  | [] => 1
  | (_, v) :: fs => max (boundV v) (boundMembers fs) + 1

end

theorem toNat_ofNat_small (n : Nat) (h : n < 55296) : (Char.ofNat n).toNat = n := by
  unfold Char.ofNat
  split
  · rfl
  · next hv => exact absurd (Or.inl h) hv

theorem char_ne_of_toNat_ne {c d : Char} (h : c.toNat ≠ d.toNat) : c ≠ d :=
  fun he => h (he ▸ rfl)

theorem char_eq_of_toNat_eq {c d : Char} (h : c.toNat = d.toNat) : c = d := by
  by_contra hne
  cases c with
  | mk cv hcv =>
      cases d with
      | mk dv hdv =>
          simp only [Char.toNat] at h
          have : cv = dv := by
            cases cv; cases dv
            simp only [UInt32.toNat, BitVec.toNat] at h
            congr 1
            exact BitVec.eq_of_toNat_eq h
          subst this
          exact hne rfl

theorem digitChar_toNat (d : Nat) (h : d < 10) : (digitChar d).toNat = 48 + d :=
  toNat_ofNat_small (48 + d) (by omega)

theorem isDigitChar_digitChar (d : Nat) (h : d < 10) :
    isDigitChar (digitChar d) = true := by
  simp [isDigitChar, digitChar_toNat d h]
  omega

theorem jsonWsChar_eq_false (c : Char)
    (h : c.toNat ≠ 32 ∧ c.toNat ≠ 9 ∧ c.toNat ≠ 10 ∧ c.toNat ≠ 13) :
    jsonWsChar c = false := by
  simp only [jsonWsChar, Bool.or_eq_false_iff, beq_eq_false_iff_ne]
  refine ⟨⟨⟨char_ne_of_toNat_ne ?_, char_ne_of_toNat_ne ?_⟩,
    char_ne_of_toNat_ne ?_⟩, char_ne_of_toNat_ne ?_⟩ <;> simp_all

theorem skipWs_cons_of (c : Char) (cs : List Char) (h : jsonWsChar c = false) :
    skipWs (c :: cs) = c :: cs := by
  simp [skipWs, List.dropWhile, h]

theorem listStartsWith_append_self (xs rest : List Char) :
    listStartsWith (xs ++ rest) xs = true := by
  induction xs with
  | nil => cases rest <;> simp [listStartsWith]
  | cons c cs ih => simp [listStartsWith, ih]

/-- Head of the remaining input is not a digit (so a number token stops
exactly at the serialized digits). -/
def noDigitHead : List Char → Bool
  | [] => true
  | c :: _ => !isDigitChar c

theorem parseDigitsAcc_spec (ds : List Char) :
    ∀ (acc : Nat) (rest : List Char),
      (∀ c ∈ ds, isDigitChar c = true) → noDigitHead rest = true →
      parseDigitsAcc acc (ds ++ rest)
        = (ds.foldl (fun a c => a * 10 + (c.toNat - 48)) acc, rest) := by
  induction ds with
  | nil =>
      intro acc rest _ hrest
      cases rest with
      | nil => simp [parseDigitsAcc]
      | cons c cs =>
          simp only [noDigitHead, Bool.not_eq_true'] at hrest
          simp [parseDigitsAcc, hrest]
  | cons d ds ih =>
      intro acc rest hds hrest
      have hd : isDigitChar d = true := hds d (List.mem_cons_self d ds)
      simp only [List.cons_append, parseDigitsAcc, hd, if_pos, List.append_eq]
      rw [ih _ rest (fun c hc => hds c (List.mem_cons_of_mem d hc)) hrest]
      simp

theorem natCharsAux_spec (fuel : Nat) :
    ∀ n : Nat, n < 10 ^ (fuel + 1) →
      (∀ c ∈ natCharsAux (fuel + 1) n, isDigitChar c = true) ∧
      natCharsAux (fuel + 1) n ≠ [] ∧
      (natCharsAux (fuel + 1) n).foldl (fun a c => a * 10 + (c.toNat - 48)) 0 = n := by
  induction fuel with
  | zero =>
      intro n hn
      have h10 : n < 10 := by simpa using hn
      simp only [natCharsAux, if_pos h10]
      refine ⟨?_, by simp, ?_⟩
      · intro c hc
        rcases List.mem_singleton.mp hc with rfl
        exact isDigitChar_digitChar n h10
      · simp [digitChar_toNat n h10]
  | succ f ih =>
      intro n hn
      by_cases h10 : n < 10
      · simp only [natCharsAux, if_pos h10]
        refine ⟨?_, by simp, ?_⟩
        · intro c hc
          rcases List.mem_singleton.mp hc with rfl
          exact isDigitChar_digitChar n h10
        · simp [digitChar_toNat n h10]
      · have hdiv : n / 10 < 10 ^ (f + 1) := by
          rw [Nat.div_lt_iff_lt_mul (by norm_num)]
          calc n < 10 ^ (f + 1 + 1) := hn
          _ = 10 ^ (f + 1) * 10 := by ring
        obtain ⟨hdig, hne, hval⟩ := ih (n / 10) hdiv
        have hstep : natCharsAux (f + 1 + 1) n
            = natCharsAux (f + 1) (n / 10) ++ [digitChar (n % 10)] := by
          rw [natCharsAux, if_neg h10]
        rw [hstep]
        have hmod : n % 10 < 10 := Nat.mod_lt n (by norm_num)
        refine ⟨?_, by simp, ?_⟩
        · intro c hc
          rcases List.mem_append.mp hc with hc | hc
          · exact hdig c hc
          · rcases List.mem_singleton.mp hc with rfl
            exact isDigitChar_digitChar _ hmod
        · rw [List.foldl_append, hval]
          simp only [List.foldl]
          rw [digitChar_toNat _ hmod]
          omega

theorem natChars_spec (n : Nat) :
    (∀ c ∈ natChars n, isDigitChar c = true) ∧
    natChars n ≠ [] ∧
    (natChars n).foldl (fun a c => a * 10 + (c.toNat - 48)) 0 = n := by
  have h : n < 10 ^ (n + 1) :=
    lt_of_lt_of_le (Nat.lt_pow_self (by norm_num) n)
      (Nat.pow_le_pow_right (by norm_num) (Nat.le_succ n))
  exact natCharsAux_spec n n h

theorem parseDigitsAcc_natChars (n : Nat) (rest : List Char)
    (hrest : noDigitHead rest = true) :
    parseDigitsAcc 0 (natChars n ++ rest) = (n, rest) := by
  obtain ⟨hdig, _, hval⟩ := natChars_spec n
  rw [parseDigitsAcc_spec (natChars n) 0 rest hdig hrest, hval]

theorem natChars_head (n : Nat) :
    ∃ d tail, d < 10 ∧ natChars n = digitChar d :: tail := by
  obtain ⟨hdig, hne, _⟩ := natChars_spec n
  cases hnc : natChars n with
  | nil => exact absurd hnc hne
  | cons c tail =>
      have hc : isDigitChar c = true := by
        apply hdig
        rw [hnc]
        exact List.mem_cons_self c tail
      simp only [isDigitChar, Bool.and_eq_true, decide_eq_true_eq] at hc
      refine ⟨c.toNat - 48, tail, by omega, ?_⟩
      have hchar : digitChar (c.toNat - 48) = c := by
        apply char_eq_of_toNat_eq
        rw [digitChar_toNat _ (by omega)]
        omega
      rw [hchar]

theorem parseIntToken_intChars (i : Int) (rest : List Char)
    (hrest : noDigitHead rest = true) :
    parseIntToken (intChars i ++ rest) = some (i, rest) := by
  cases i with
  | ofNat n =>
      obtain ⟨d, tail, hd, hnc⟩ := natChars_head n
      simp only [intChars, hnc, List.cons_append, parseIntToken]
      have hne : ¬ (digitChar d = '-') := by
        apply char_ne_of_toNat_ne
        rw [digitChar_toNat d hd]
        simp
        omega
      rw [if_neg hne, if_pos (isDigitChar_digitChar d hd)]
      have := parseDigitsAcc_natChars n rest hrest
      rw [hnc] at this
      simp only [List.cons_append] at this
      simp [this]
  | negSucc n =>
      simp only [intChars, List.cons_append, parseIntToken, if_pos rfl]
      obtain ⟨d, tail, hd, hnc⟩ := natChars_head (n + 1)
      rw [hnc]
      simp only [List.cons_append]
      rw [if_pos (isDigitChar_digitChar d hd)]
      have := parseDigitsAcc_natChars (n + 1) rest hrest
      rw [hnc] at this
      simp only [List.cons_append] at this
      simp only [this, if_true]
      rfl

theorem parseStringBody_closeQuote (rest : List Char) :
    parseStringBody ('"' :: rest) = some ([], rest) := by
  rw [parseStringBody.eq_def]
  simp

theorem parseStringBody_escQuote (x : List Char) :
    parseStringBody ('\\' :: '"' :: x)
      = (fun p => ('"' :: p.1, p.2)) <$> parseStringBody x := by
  rw [parseStringBody.eq_def]
  simp

theorem parseStringBody_escBackslash (x : List Char) :
    parseStringBody ('\\' :: '\\' :: x)
      = (fun p => ('\\' :: p.1, p.2)) <$> parseStringBody x := by
  rw [parseStringBody.eq_def]
  simp

theorem parseStringBody_escN (x : List Char) :
    parseStringBody ('\\' :: 'n' :: x)
      = (fun p => ('\n' :: p.1, p.2)) <$> parseStringBody x := by
  rw [parseStringBody.eq_def]
  simp

theorem parseStringBody_escT (x : List Char) :
    parseStringBody ('\\' :: 't' :: x)
      = (fun p => ('\t' :: p.1, p.2)) <$> parseStringBody x := by
  rw [parseStringBody.eq_def]
  simp

theorem parseStringBody_escR (x : List Char) :
    parseStringBody ('\\' :: 'r' :: x)
      = (fun p => ('\r' :: p.1, p.2)) <$> parseStringBody x := by
  rw [parseStringBody.eq_def]
  simp

theorem parseStringBody_raw (c : Char) (x : List Char)
    (h1 : ¬ c = '"') (h2 : ¬ c = '\\') (h8 : ¬ c.toNat < 32) :
    parseStringBody (c :: x) = (fun p => (c :: p.1, p.2)) <$> parseStringBody x := by
  rw [parseStringBody.eq_def]
  simp [h1, h2, h8]

theorem parseStringBody_escaped (cs : List Char) :
    ∀ rest : List Char, cs.all tameChar = true →
      parseStringBody (cs.flatMap escapeChar ++ ('"' :: rest)) = some (cs, rest) := by
  induction cs with
  | nil =>
      intro rest _
      simp only [List.flatMap_nil, List.nil_append]
      exact parseStringBody_closeQuote rest
  | cons c cs ih =>
      intro rest hall
      have hc : tameChar c = true :=
        List.all_eq_true.mp hall c (List.mem_cons_self c cs)
      have hcs : cs.all tameChar = true := by
        rw [List.all_eq_true]
        intro x hx
        exact List.all_eq_true.mp hall x (List.mem_cons_of_mem c hx)
      have ihr := ih rest hcs
      simp only [List.flatMap_cons, List.append_assoc]
      by_cases h1 : c = '"'
      · subst h1
        rw [show escapeChar '"' = ['\\', '"'] from by simp [escapeChar]]
        simp only [List.cons_append, List.nil_append]
        rw [parseStringBody_escQuote, ihr]
        rfl
      · by_cases h2 : c = '\\'
        · subst h2
          rw [show escapeChar '\\' = ['\\', '\\'] from by simp [escapeChar]]
          simp only [List.cons_append, List.nil_append]
          rw [parseStringBody_escBackslash, ihr]
          rfl
        · by_cases h3 : c = '\n'
          · subst h3
            rw [show escapeChar '\n' = ['\\', 'n'] from by simp [escapeChar]]
            simp only [List.cons_append, List.nil_append]
            rw [parseStringBody_escN, ihr]
            rfl
          · by_cases h4 : c = '\t'
            · subst h4
              rw [show escapeChar '\t' = ['\\', 't'] from by simp [escapeChar]]
              simp only [List.cons_append, List.nil_append]
              rw [parseStringBody_escT, ihr]
              rfl
            · by_cases h5 : c = '\r'
              · subst h5
                rw [show escapeChar '\r' = ['\\', 'r'] from by simp [escapeChar]]
                simp only [List.cons_append, List.nil_append]
                rw [parseStringBody_escR, ihr]
                rfl
              · have hge : 32 ≤ c.toNat := by
                  simp only [tameChar, Bool.or_eq_true, decide_eq_true_eq,
                    beq_iff_eq] at hc
                  rcases hc with ((h | h) | h) | h
                  · exact h
                  · exact absurd h h3
                  · exact absurd h h4
                  · exact absurd h h5
                have h6 : ¬ c = '\x08' :=
                  char_ne_of_toNat_ne (by intro h; rw [h] at hge; simp at hge)
                have h7 : ¬ c = '\x0c' :=
                  char_ne_of_toNat_ne (by intro h; rw [h] at hge; simp at hge)
                have h8 : ¬ c.toNat < 32 := by omega
                rw [show escapeChar c = [c] from by
                  simp only [escapeChar, if_neg h1, if_neg h2, if_neg h3,
                    if_neg h4, if_neg h5, if_neg h6, if_neg h7, if_neg h8]]
                simp only [List.singleton_append]
                rw [parseStringBody_raw c _ h1 h2 h8, ihr]
                rfl

/-- The first character a serialized value starts with: never whitespace
and never a closing delimiter. -/
theorem dumpsVal_head (v : Json) :
    ∃ c cs', dumpsVal v = c :: cs' ∧ jsonWsChar c = false ∧
      ¬ c = ']' ∧ ¬ c = '}' ∧ ¬ c = ',' := by
  cases v with
  | null => exact ⟨'n', _, rfl, by decide, by decide, by decide, by decide⟩
  | bool b =>
      cases b with
      | true => exact ⟨'t', _, rfl, by decide, by decide, by decide, by decide⟩
      | false => exact ⟨'f', _, rfl, by decide, by decide, by decide, by decide⟩
  | num i =>
      cases i with
      | ofNat n =>
          obtain ⟨d, tail, hd, hnc⟩ := natChars_head n
          have ht : (digitChar d).toNat = 48 + d := digitChar_toNat d hd
          refine ⟨digitChar d, tail, ?_, ?_, ?_, ?_, ?_⟩
          · simpa [dumpsVal, intChars] using hnc
          · exact jsonWsChar_eq_false _ (by omega)
          · exact char_ne_of_toNat_ne (by simp [ht]; omega)
          · exact char_ne_of_toNat_ne (by simp [ht]; omega)
          · exact char_ne_of_toNat_ne (by simp [ht]; omega)
      | negSucc n =>
          exact ⟨'-', _, rfl, by decide, by decide, by decide, by decide⟩
  | str s => exact ⟨'"', _, rfl, by decide, by decide, by decide, by decide⟩
  | arr es => exact ⟨'[', _, rfl, by decide, by decide, by decide, by decide⟩
  | obj fs => exact ⟨'{', _, rfl, by decide, by decide, by decide, by decide⟩

theorem dumpsVal_ne_nil (v : Json) : dumpsVal v ≠ [] := by
  obtain ⟨c, cs', h, -⟩ := dumpsVal_head v
  rw [h]
  simp

theorem string_mk_data (s : String) : String.mk s.data = s := by
  cases s
  rfl

theorem parseVal_null_step (f : Nat) (cs1 : List Char) :
    parseVal (f + 1) ('n' :: cs1)
      = if listStartsWith cs1 ['u', 'l', 'l'] then some (.null, cs1.drop 3) else none := by
  rw [parseVal.eq_def]
  simp

theorem parseVal_true_step (f : Nat) (cs1 : List Char) :
    parseVal (f + 1) ('t' :: cs1)
      = if listStartsWith cs1 ['r', 'u', 'e'] then some (.bool true, cs1.drop 3) else none := by
  rw [parseVal.eq_def]
  simp

theorem parseVal_false_step (f : Nat) (cs1 : List Char) :
    parseVal (f + 1) ('f' :: cs1)
      = if listStartsWith cs1 ['a', 'l', 's', 'e'] then some (.bool false, cs1.drop 4)
        else none := by
  rw [parseVal.eq_def]
  simp

theorem parseVal_str_step (f : Nat) (cs1 : List Char) :
    parseVal (f + 1) ('"' :: cs1)
      = (fun p => (Json.str (String.mk p.1), p.2)) <$> parseStringBody cs1 := by
  rw [parseVal.eq_def]
  simp

theorem parseVal_arr_step (f : Nat) (cs1 : List Char) :
    parseVal (f + 1) ('[' :: cs1) = parseArrBody f (skipWs cs1) := by
  rw [parseVal.eq_def]
  simp

theorem parseVal_obj_step (f : Nat) (cs1 : List Char) :
    parseVal (f + 1) ('{' :: cs1) = parseObjBody f (skipWs cs1) := by
  rw [parseVal.eq_def]
  simp

theorem parseArrBody_close (f : Nat) (r : List Char) :
    parseArrBody (f + 1) (']' :: r) = some (.arr [], r) := by
  rw [parseArrBody.eq_def]
  simp

theorem parseObjBody_close (f : Nat) (r : List Char) :
    parseObjBody (f + 1) ('}' :: r) = some (.obj [], r) := by
  rw [parseObjBody.eq_def]
  simp

theorem noDigitHead_cons (c : Char) (rest : List Char)
    (h : isDigitChar c = false) : noDigitHead (c :: rest) = true := by
  simp [noDigitHead, h]

theorem parseArrBody_cons (f : Nat) (c : Char) (cs1 : List Char) (h : ¬ c = ']') :
    parseArrBody (f + 1) (c :: cs1)
      = (fun p => (Json.arr p.1, p.2)) <$> parseElems f (c :: cs1) := by
  rw [parseArrBody.eq_def]
  split
  · next heq => exact absurd heq (by omega)
  · next fuel heq =>
      injection heq with h2
      subst h2
      split
      · next heq2 =>
          rw [List.cons.injEq] at heq2
          exact absurd heq2.1 h
      · rfl

theorem parseObjBody_cons (f : Nat) (c : Char) (cs1 : List Char) (h : ¬ c = '}') :
    parseObjBody (f + 1) (c :: cs1)
      = (fun p => (Json.obj p.1, p.2)) <$> parseMembers f (c :: cs1) := by
  rw [parseObjBody.eq_def]
  split
  · next heq => exact absurd heq (by omega)
  · next fuel heq =>
      injection heq with h2
      subst h2
      split
      · next heq2 =>
          rw [List.cons.injEq] at heq2
          exact absurd heq2.1 h
      · rfl

/-- A serialized null parses back. -/
theorem parseVal_nullLit (f : Nat) (rest : List Char) :
    parseVal (f + 1) (dumpsVal .null ++ rest) = some (.null, rest) := by
  show parseVal (f + 1) ('n' :: (['u', 'l', 'l'] ++ rest)) = some (.null, rest)
  rw [parseVal_null_step, if_pos (listStartsWith_append_self _ _)]
  simp

theorem parseVal_boolLit (f : Nat) (b : Bool) (rest : List Char) :
    parseVal (f + 1) (dumpsVal (.bool b) ++ rest) = some (.bool b, rest) := by
  cases b with
  | true =>
      show parseVal (f + 1) ('t' :: (['r', 'u', 'e'] ++ rest)) = some (.bool true, rest)
      rw [parseVal_true_step, if_pos (listStartsWith_append_self _ _)]
      simp
  | false =>
      show parseVal (f + 1) ('f' :: (['a', 'l', 's', 'e'] ++ rest))
        = some (.bool false, rest)
      rw [parseVal_false_step, if_pos (listStartsWith_append_self _ _)]
      simp

theorem parseVal_numLit (f : Nat) (i : Int) (rest : List Char)
    (hrest : noDigitHead rest = true) :
    parseVal (f + 1) (dumpsVal (.num i) ++ rest) = some (.num i, rest) := by
  have htok := parseIntToken_intChars i rest hrest
  cases i with
  | ofNat n =>
      obtain ⟨d, tail, hd, hnc⟩ := natChars_head n
      have ht : (digitChar d).toNat = 48 + d := digitChar_toNat d hd
      show parseVal (f + 1) (intChars (Int.ofNat n) ++ rest) = _
      rw [show intChars (Int.ofNat n) = digitChar d :: tail from by
        simpa [intChars] using hnc]
      simp only [List.cons_append]
      rw [parseVal.eq_def]
      have h1 : ¬ digitChar d = '"' := char_ne_of_toNat_ne (by rw [ht]; simp; omega)
      have h2 : ¬ digitChar d = '[' := char_ne_of_toNat_ne (by rw [ht]; simp; omega)
      have h3 : ¬ digitChar d = '{' := char_ne_of_toNat_ne (by rw [ht]; simp; omega)
      have h4 : ¬ digitChar d = 't' := char_ne_of_toNat_ne (by rw [ht]; simp; omega)
      have h5 : ¬ digitChar d = 'f' := char_ne_of_toNat_ne (by rw [ht]; simp; omega)
      have h6 : ¬ digitChar d = 'n' := char_ne_of_toNat_ne (by rw [ht]; simp; omega)
      simp only [h1, h2, h3, h4, h5, h6, if_false, reduceIte,
        isDigitChar_digitChar d hd, Bool.or_true, if_true]
      rw [show digitChar d :: (tail ++ rest) = intChars (Int.ofNat n) ++ rest from by
        simp [intChars]
        rw [hnc]
        simp]
      rw [htok]
      rfl
  | negSucc n =>
      show parseVal (f + 1) ('-' :: (natChars (n + 1) ++ rest)) = _
      rw [parseVal.eq_def]
      simp only [reduceIte, reduceCtorEq]
      rw [show ('-' :: (natChars (n + 1) ++ rest)) = intChars (Int.negSucc n) ++ rest from by
        simp [intChars]]
      rw [htok]
      rfl

theorem parseVal_strLit (f : Nat) (s : String) (rest : List Char)
    (h : tameStr s = true) :
    parseVal (f + 1) (dumpsVal (.str s) ++ rest) = some (.str s, rest) := by
  show parseVal (f + 1) (('"' :: (s.data.flatMap escapeChar ++ ['"'])) ++ rest) = _
  rw [show ('"' :: (s.data.flatMap escapeChar ++ ['"'])) ++ rest
      = '"' :: (s.data.flatMap escapeChar ++ ('"' :: rest)) from by simp]
  rw [parseVal_str_step, parseStringBody_escaped s.data rest h]
  simp [string_mk_data]

theorem skipWs_dumpsVal_append (e : Json) (t : List Char) :
    skipWs (dumpsVal e ++ t) = dumpsVal e ++ t := by
  obtain ⟨c, cs', heq, hws, -⟩ := dumpsVal_head e
  rw [heq, List.cons_append, skipWs_cons_of c _ hws]

theorem dumpsElems_cons_eq (e : Json) (es : List Json) :
    ∃ t, dumpsElems (e :: es) = dumpsVal e ++ t := by
  cases es with
  | nil => exact ⟨[], by simp [dumpsElems]⟩
  | cons e2 es => exact ⟨',' :: ' ' :: dumpsElems (e2 :: es), by simp [dumpsElems]⟩

theorem boundV_pos (v : Json) : 1 ≤ boundV v := by
  cases v <;> simp [boundV]

theorem dumpsFields_cons_head (k : String) (v : Json) (fs : List (String × Json)) :
    ∃ u, dumpsFields ((k, v) :: fs) = '"' :: u := by
  cases fs with
  | nil =>
      exact ⟨(k.data.flatMap escapeChar ++ ['"']) ++ (':' :: ' ' :: dumpsVal v), by
        simp [dumpsFields, dumpsStr]⟩
  | cons f2 fs =>
      cases f2 with
      | mk k2 v2 =>
          exact ⟨((k.data.flatMap escapeChar ++ ['"']) ++ (':' :: ' ' :: dumpsVal v))
            ++ (',' :: ' ' :: dumpsFields ((k2, v2) :: fs)), by
            simp [dumpsFields, dumpsStr]⟩

mutual

/-- A serialized tame value parses back, leaving exactly `rest`. -/
theorem parseVal_dumps : ∀ (v : Json) (fuel : Nat) (rest : List Char),
    tameV v = true → boundV v ≤ fuel → noDigitHead rest = true →
    parseVal fuel (dumpsVal v ++ rest) = some (v, rest)
  | .null, fuel, rest, _, hb, _ => by
      obtain ⟨f, rfl⟩ : ∃ f, fuel = f + 1 := ⟨fuel - 1, by simp [boundV] at hb; omega⟩
      exact parseVal_nullLit f rest
  | .bool b, fuel, rest, _, hb, _ => by
      obtain ⟨f, rfl⟩ : ∃ f, fuel = f + 1 := ⟨fuel - 1, by simp [boundV] at hb; omega⟩
      exact parseVal_boolLit f b rest
  | .num i, fuel, rest, _, hb, hrest => by
      obtain ⟨f, rfl⟩ : ∃ f, fuel = f + 1 := ⟨fuel - 1, by simp [boundV] at hb; omega⟩
      exact parseVal_numLit f i rest hrest
  | .str s, fuel, rest, ht, hb, _ => by
      obtain ⟨f, rfl⟩ : ∃ f, fuel = f + 1 := ⟨fuel - 1, by simp [boundV] at hb; omega⟩
      exact parseVal_strLit f s rest (by simpa [tameV] using ht)
  | .arr [], fuel, rest, _, hb, _ => by
      simp only [boundV, boundElems] at hb
      obtain ⟨f, rfl⟩ : ∃ f, fuel = f + 2 := ⟨fuel - 2, by omega⟩
      show parseVal (f + 1 + 1) ('[' :: (([] ++ [']']) ++ rest)) = _
      rw [parseVal_arr_step]
      simp only [List.nil_append, List.cons_append]
      rw [skipWs_cons_of ']' rest (by decide)]
      exact parseArrBody_close f rest
  | .arr (e :: es), fuel, rest, ht, hb, _ => by
      simp only [boundV] at hb
      obtain ⟨f, rfl⟩ : ∃ f, fuel = f + 2 := ⟨fuel - 2, by omega⟩
      have htame : tameElems (e :: es) = true := by simpa [tameV] using ht
      have hte : tameV e = true := by
        simp only [tameElems, Bool.and_eq_true] at htame
        exact htame.1
      have htes : tameElems es = true := by
        simp only [tameElems, Bool.and_eq_true] at htame
        exact htame.2
      show parseVal (f + 1 + 1) ('[' :: ((dumpsElems (e :: es) ++ [']']) ++ rest)) = _
      rw [parseVal_arr_step]
      rw [show (dumpsElems (e :: es) ++ [']']) ++ rest
          = dumpsElems (e :: es) ++ (']' :: rest) from by simp]
      obtain ⟨t, hde⟩ := dumpsElems_cons_eq e es
      rw [hde, List.append_assoc, skipWs_dumpsVal_append, ← List.append_assoc, ← hde]
      obtain ⟨c, cs', hdh, -, hnb, -, -⟩ := dumpsVal_head e
      have hdec : ∃ u, dumpsElems (e :: es) ++ (']' :: rest) = c :: u := by
        refine ⟨cs' ++ t ++ (']' :: rest), ?_⟩
        rw [hde, hdh]
        simp
      obtain ⟨u, hu⟩ := hdec
      rw [hu, parseArrBody_cons f c u hnb, ← hu]
      rw [parseElems_dumps e es f rest hte htes (by omega)]
      rfl
  | .obj [], fuel, rest, _, hb, _ => by
      simp only [boundV, boundMembers] at hb
      obtain ⟨f, rfl⟩ : ∃ f, fuel = f + 2 := ⟨fuel - 2, by omega⟩
      show parseVal (f + 1 + 1) ('{' :: (([] ++ ['}']) ++ rest)) = _
      rw [parseVal_obj_step]
      simp only [List.nil_append, List.cons_append]
      rw [skipWs_cons_of '}' rest (by decide)]
      exact parseObjBody_close f rest
  | .obj ((k, v) :: fs), fuel, rest, ht, hb, _ => by
      simp only [boundV] at hb
      obtain ⟨f, rfl⟩ : ∃ f, fuel = f + 2 := ⟨fuel - 2, by omega⟩
      have htame : tameFields ((k, v) :: fs) = true := by simpa [tameV] using ht
      simp only [tameFields, Bool.and_eq_true] at htame
      show parseVal (f + 1 + 1) ('{' :: ((dumpsFields ((k, v) :: fs) ++ ['}']) ++ rest)) = _
      rw [parseVal_obj_step]
      rw [show (dumpsFields ((k, v) :: fs) ++ ['}']) ++ rest
          = dumpsFields ((k, v) :: fs) ++ ('}' :: rest) from by simp]
      obtain ⟨u, hu⟩ := dumpsFields_cons_head k v fs
      rw [hu, List.cons_append, skipWs_cons_of '"' _ (by decide), ← List.cons_append, ← hu]
      have hud : ∃ u2, dumpsFields ((k, v) :: fs) ++ ('}' :: rest) = '"' :: u2 := by
        refine ⟨u ++ ('}' :: rest), ?_⟩
        rw [hu]
        simp
      obtain ⟨u2, hu2⟩ := hud
      rw [hu2, parseObjBody_cons f '"' u2 (by decide), ← hu2]
      rw [parseMembers_dumps k v fs f rest htame.1.1 htame.1.2 htame.2 (by omega)]
      rfl
termination_by v _ _ _ _ _ => sizeOf v

theorem parseElems_dumps : ∀ (e : Json) (es : List Json) (fuel : Nat) (rest : List Char),
    tameV e = true → tameElems es = true → boundElems (e :: es) ≤ fuel →
    parseElems fuel (dumpsElems (e :: es) ++ (']' :: rest)) = some (e :: es, rest)
  | e, [], fuel, rest, hte, _, hb => by
      simp only [boundElems] at hb
      obtain ⟨f, rfl⟩ : ∃ f, fuel = f + 1 := ⟨fuel - 1, by omega⟩
      rw [parseElems.eq_def]
      show (do
        let p ← parseVal f (dumpsElems [e] ++ (']' :: rest))
        match skipWs p.2 with
        | ',' :: r2 => do
            let q ← parseElems f (skipWs r2)
            some (p.1 :: q.1, q.2)
        | ']' :: r2 => some ([p.1], r2)
        | _ => none) = some ([e], rest)
      rw [show dumpsElems [e] = dumpsVal e from rfl]
      rw [parseVal_dumps e f (']' :: rest) hte (by
        have := le_max_left (boundV e) (boundElems ([] : List Json))
        omega) (noDigitHead_cons _ _ (by decide))]
      show (match skipWs (']' :: rest) with
        | ',' :: r2 => do
            let q ← parseElems f (skipWs r2)
            some (e :: q.1, q.2)
        | ']' :: r2 => some ([e], r2)
        | _ => none) = some ([e], rest)
      rw [skipWs_cons_of ']' rest (by decide)]
      rfl
  | e, e2 :: es, fuel, rest, hte, htes, hb => by
      simp only [boundElems] at hb
      obtain ⟨f, rfl⟩ : ∃ f, fuel = f + 1 := ⟨fuel - 1, by omega⟩
      simp only [tameElems, Bool.and_eq_true] at htes
      rw [parseElems.eq_def]
      show (do
        let p ← parseVal f (dumpsElems (e :: e2 :: es) ++ (']' :: rest))
        match skipWs p.2 with
        | ',' :: r2 => do
            let q ← parseElems f (skipWs r2)
            some (p.1 :: q.1, q.2)
        | ']' :: r2 => some ([p.1], r2)
        | _ => none) = some (e :: e2 :: es, rest)
      rw [show dumpsElems (e :: e2 :: es) ++ (']' :: rest)
          = dumpsVal e ++ (',' :: ' ' :: (dumpsElems (e2 :: es) ++ (']' :: rest))) from by
        simp [dumpsElems]]
      rw [parseVal_dumps e f _ hte (by
        have := le_max_left (boundV e) (boundElems (e2 :: es))
        omega) (noDigitHead_cons _ _ (by decide))]
      show (match skipWs (',' :: ' ' :: (dumpsElems (e2 :: es) ++ (']' :: rest))) with
        | ',' :: r2 => do
            let q ← parseElems f (skipWs r2)
            some (e :: q.1, q.2)
        | ']' :: r2 => some ([e], r2)
        | _ => none) = some (e :: e2 :: es, rest)
      rw [skipWs_cons_of ',' _ (by decide)]
      show (do
        let q ← parseElems f (skipWs (' ' :: (dumpsElems (e2 :: es) ++ (']' :: rest))))
        some (e :: q.1, q.2)) = some (e :: e2 :: es, rest)
      rw [show skipWs (' ' :: (dumpsElems (e2 :: es) ++ (']' :: rest)))
          = skipWs (dumpsElems (e2 :: es) ++ (']' :: rest)) from by
        simp [skipWs, List.dropWhile, jsonWsChar]]
      obtain ⟨t, hde⟩ := dumpsElems_cons_eq e2 es
      rw [hde, List.append_assoc, skipWs_dumpsVal_append, ← List.append_assoc, ← hde]
      rw [parseElems_dumps e2 es f rest htes.1 htes.2 (by
        rw [boundElems]
        omega)]
      rfl
termination_by e es _ _ _ _ _ => sizeOf e + sizeOf es + 1

theorem parseMembers_dumps : ∀ (k : String) (v : Json) (fs : List (String × Json))
    (fuel : Nat) (rest : List Char),
    tameStr k = true → tameV v = true → tameFields fs = true →
    boundMembers ((k, v) :: fs) ≤ fuel →
    parseMembers fuel (dumpsFields ((k, v) :: fs) ++ ('}' :: rest))
      = some ((k, v) :: fs, rest)
  | k, v, [], fuel, rest, htk, htv, _, hb => by
      simp only [boundMembers] at hb
      obtain ⟨f, rfl⟩ : ∃ f, fuel = f + 1 := ⟨fuel - 1, by omega⟩
      rw [show dumpsFields [(k, v)] ++ ('}' :: rest)
          = '"' :: (k.data.flatMap escapeChar
              ++ ('"' :: (':' :: ' ' :: (dumpsVal v ++ ('}' :: rest))))) from by
        simp [dumpsFields, dumpsStr]]
      rw [parseMembers.eq_def]
      show (do
        let p ← parseStringBody (k.data.flatMap escapeChar
          ++ ('"' :: (':' :: ' ' :: (dumpsVal v ++ ('}' :: rest)))))
        match skipWs p.2 with
        | ':' :: r2 => do
            let q ← parseVal f (skipWs r2)
            match skipWs q.2 with
            | ',' :: r4 => do
                let w ← parseMembers f (skipWs r4)
                some ((String.mk p.1, q.1) :: w.1, w.2)
            | '}' :: r4 => some ([(String.mk p.1, q.1)], r4)
            | _ => none
        | _ => none) = some ([(k, v)], rest)
      rw [parseStringBody_escaped k.data _ htk]
      show (match skipWs (':' :: ' ' :: (dumpsVal v ++ ('}' :: rest))) with
        | ':' :: r2 => do
            let q ← parseVal f (skipWs r2)
            match skipWs q.2 with
            | ',' :: r4 => do
                let w ← parseMembers f (skipWs r4)
                some ((String.mk k.data, q.1) :: w.1, w.2)
            | '}' :: r4 => some ([(String.mk k.data, q.1)], r4)
            | _ => none
        | _ => none) = some ([(k, v)], rest)
      rw [skipWs_cons_of ':' _ (by decide)]
      show (do
        let q ← parseVal f (skipWs (' ' :: (dumpsVal v ++ ('}' :: rest))))
        match skipWs q.2 with
        | ',' :: r4 => do
            let w ← parseMembers f (skipWs r4)
            some ((String.mk k.data, q.1) :: w.1, w.2)
        | '}' :: r4 => some ([(String.mk k.data, q.1)], r4)
        | _ => none) = some ([(k, v)], rest)
      rw [show skipWs (' ' :: (dumpsVal v ++ ('}' :: rest)))
          = skipWs (dumpsVal v ++ ('}' :: rest)) from by
        simp [skipWs, List.dropWhile, jsonWsChar]]
      rw [skipWs_dumpsVal_append]
      rw [parseVal_dumps v f ('}' :: rest) htv (by
        have := le_max_left (boundV v) (boundMembers ([] : List (String × Json)))
        omega) (noDigitHead_cons _ _ (by decide))]
      show (match skipWs ('}' :: rest) with
        | ',' :: r4 => do
            let w ← parseMembers f (skipWs r4)
            some ((String.mk k.data, v) :: w.1, w.2)
        | '}' :: r4 => some ([(String.mk k.data, v)], r4)
        | _ => none) = some ([(k, v)], rest)
      rw [skipWs_cons_of '}' _ (by decide)]
      rw [string_mk_data]
      rfl
  | k, v, (k2, v2) :: fs, fuel, rest, htk, htv, htf, hb => by
      simp only [boundMembers] at hb
      obtain ⟨f, rfl⟩ : ∃ f, fuel = f + 1 := ⟨fuel - 1, by omega⟩
      simp only [tameFields, Bool.and_eq_true] at htf
      rw [show dumpsFields ((k, v) :: (k2, v2) :: fs) ++ ('}' :: rest)
          = '"' :: (k.data.flatMap escapeChar
              ++ ('"' :: (':' :: ' ' :: (dumpsVal v
                ++ (',' :: ' ' :: (dumpsFields ((k2, v2) :: fs) ++ ('}' :: rest))))))) from by
        simp [dumpsFields, dumpsStr]]
      rw [parseMembers.eq_def]
      show (do
        let p ← parseStringBody (k.data.flatMap escapeChar
          ++ ('"' :: (':' :: ' ' :: (dumpsVal v
            ++ (',' :: ' ' :: (dumpsFields ((k2, v2) :: fs) ++ ('}' :: rest)))))))
        match skipWs p.2 with
        | ':' :: r2 => do
            let q ← parseVal f (skipWs r2)
            match skipWs q.2 with
            | ',' :: r4 => do
                let w ← parseMembers f (skipWs r4)
                some ((String.mk p.1, q.1) :: w.1, w.2)
            | '}' :: r4 => some ([(String.mk p.1, q.1)], r4)
            | _ => none
        | _ => none) = some ((k, v) :: (k2, v2) :: fs, rest)
      rw [parseStringBody_escaped k.data _ htk]
      show (match skipWs (':' :: ' ' :: (dumpsVal v
          ++ (',' :: ' ' :: (dumpsFields ((k2, v2) :: fs) ++ ('}' :: rest))))) with
        | ':' :: r2 => do
            let q ← parseVal f (skipWs r2)
            match skipWs q.2 with
            | ',' :: r4 => do
                let w ← parseMembers f (skipWs r4)
                some ((String.mk k.data, q.1) :: w.1, w.2)
            | '}' :: r4 => some ([(String.mk k.data, q.1)], r4)
            | _ => none
        | _ => none) = some ((k, v) :: (k2, v2) :: fs, rest)
      rw [skipWs_cons_of ':' _ (by decide)]
      show (do
        let q ← parseVal f (skipWs (' ' :: (dumpsVal v
          ++ (',' :: ' ' :: (dumpsFields ((k2, v2) :: fs) ++ ('}' :: rest))))))
        match skipWs q.2 with
        | ',' :: r4 => do
            let w ← parseMembers f (skipWs r4)
            some ((String.mk k.data, q.1) :: w.1, w.2)
        | '}' :: r4 => some ([(String.mk k.data, q.1)], r4)
        | _ => none) = some ((k, v) :: (k2, v2) :: fs, rest)
      rw [show skipWs (' ' :: (dumpsVal v
          ++ (',' :: ' ' :: (dumpsFields ((k2, v2) :: fs) ++ ('}' :: rest)))))
          = skipWs (dumpsVal v
            ++ (',' :: ' ' :: (dumpsFields ((k2, v2) :: fs) ++ ('}' :: rest)))) from by
        simp [skipWs, List.dropWhile, jsonWsChar]]
      rw [skipWs_dumpsVal_append]
      rw [parseVal_dumps v f _ htv (by
        have := le_max_left (boundV v) (boundMembers ((k2, v2) :: fs))
        omega) (noDigitHead_cons _ _ (by decide))]
      show (match skipWs (',' :: ' ' :: (dumpsFields ((k2, v2) :: fs) ++ ('}' :: rest))) with
        | ',' :: r4 => do
            let w ← parseMembers f (skipWs r4)
            some ((String.mk k.data, v) :: w.1, w.2)
        | '}' :: r4 => some ([(String.mk k.data, v)], r4)
        | _ => none) = some ((k, v) :: (k2, v2) :: fs, rest)
      rw [skipWs_cons_of ',' _ (by decide)]
      show (do
        let w ← parseMembers f (skipWs (' ' :: (dumpsFields ((k2, v2) :: fs) ++ ('}' :: rest))))
        some ((String.mk k.data, v) :: w.1, w.2)) = some ((k, v) :: (k2, v2) :: fs, rest)
      rw [show skipWs (' ' :: (dumpsFields ((k2, v2) :: fs) ++ ('}' :: rest)))
          = skipWs (dumpsFields ((k2, v2) :: fs) ++ ('}' :: rest)) from by
        simp [skipWs, List.dropWhile, jsonWsChar]]
      obtain ⟨u, hu⟩ := dumpsFields_cons_head k2 v2 fs
      rw [show skipWs (dumpsFields ((k2, v2) :: fs) ++ ('}' :: rest))
          = dumpsFields ((k2, v2) :: fs) ++ ('}' :: rest) from by
        rw [hu, List.cons_append]
        exact skipWs_cons_of '"' _ (by decide)]
      rw [parseMembers_dumps k2 v2 fs f rest htf.1.1 htf.1.2 htf.2 (by
        rw [boundMembers]
        omega)]
      rw [string_mk_data]
      rfl
termination_by k v fs _ _ _ _ _ _ => sizeOf v + sizeOf fs + 1

end

theorem dumpsVal_length_pos (v : Json) : 1 ≤ (dumpsVal v).length := by
  obtain ⟨c, cs', heq, -⟩ := dumpsVal_head v
  rw [heq]
  simp

mutual

/-- The parser bound is dominated by twice the serialized length, so the
fuel `jsonLoads` supplies is always sufficient for a serialized value. -/
theorem boundV_le : ∀ v : Json, boundV v ≤ 2 * (dumpsVal v).length
  | .null => by simp [boundV, dumpsVal]
  | .bool b => by cases b <;> simp [boundV, dumpsVal]
  | .num i => by
      have := dumpsVal_length_pos (.num i)
      simp only [boundV]
      omega
  | .str s => by
      have := dumpsVal_length_pos (.str s)
      simp only [boundV]
      omega
  | .arr es => by
      have h := boundElems_le es
      show boundElems es + 2 ≤ 2 * (dumpsVal (.arr es)).length
      have hlen : (dumpsVal (.arr es)).length = (dumpsElems es).length + 2 := by
        simp [dumpsVal]
      omega
  | .obj fs => by
      have h := boundMembers_le fs
      show boundMembers fs + 2 ≤ 2 * (dumpsVal (.obj fs)).length
      have hlen : (dumpsVal (.obj fs)).length = (dumpsFields fs).length + 2 := by
        simp [dumpsVal]
      omega

theorem boundElems_le : ∀ es : List Json, boundElems es ≤ 2 * (dumpsElems es).length + 2
  | [] => by simp [boundElems, dumpsElems]
  | [e] => by
      have h := boundV_le e
      have hp := dumpsVal_length_pos e
      show max (boundV e) (boundElems []) + 1 ≤ 2 * (dumpsElems [e]).length + 2
      rw [show dumpsElems [e] = dumpsVal e from rfl]
      simp only [boundElems]
      omega
  | e :: e2 :: es => by
      have h1 := boundV_le e
      have h2 := boundElems_le (e2 :: es)
      show max (boundV e) (boundElems (e2 :: es)) + 1
        ≤ 2 * (dumpsElems (e :: e2 :: es)).length + 2
      have hlen : (dumpsElems (e :: e2 :: es)).length
          = (dumpsVal e).length + 2 + (dumpsElems (e2 :: es)).length := by
        simp [dumpsElems]
        omega
      omega

theorem boundMembers_le :
    ∀ fs : List (String × Json), boundMembers fs ≤ 2 * (dumpsFields fs).length + 2
  | [] => by simp [boundMembers, dumpsFields]
  | [(k, v)] => by
      have h := boundV_le v
      show max (boundV v) (boundMembers []) + 1 ≤ 2 * (dumpsFields [(k, v)]).length + 2
      have hlen : (dumpsFields [(k, v)]).length
          = (dumpsStr k).length + 2 + (dumpsVal v).length := by
        simp [dumpsFields]
        omega
      simp only [boundMembers]
      omega
  | (k, v) :: (k2, v2) :: fs => by
      have h1 := boundV_le v
      have h2 := boundMembers_le ((k2, v2) :: fs)
      show max (boundV v) (boundMembers ((k2, v2) :: fs)) + 1
        ≤ 2 * (dumpsFields ((k, v) :: (k2, v2) :: fs)).length + 2
      have hlen : (dumpsFields ((k, v) :: (k2, v2) :: fs)).length
          = (dumpsStr k).length + 2 + (dumpsVal v).length + 2
            + (dumpsFields ((k2, v2) :: fs)).length := by
        simp [dumpsFields]
        omega
      omega

end

/-- Round trip of the JSON model: parsing a serialized tame value yields the
value back. -/
theorem jsonLoads_dumps (v : Json) (h : tameV v = true) :
    jsonLoads (dumps v) = some v := by
  unfold jsonLoads dumps
  show (match parseVal (2 * (skipWs (String.mk (dumpsVal v)).data).length + 2)
      (skipWs (String.mk (dumpsVal v)).data) with
    | some p => if (skipWs p.2).isEmpty then some p.1 else none
    | none => none) = some v
  have hdata : (String.mk (dumpsVal v)).data = dumpsVal v := rfl
  obtain ⟨c, cs', heq, hws, -, -, -⟩ := dumpsVal_head v
  have hskip : skipWs (dumpsVal v) = dumpsVal v := by
    rw [heq]
    exact skipWs_cons_of c cs' hws
  rw [hdata, hskip]
  have hbound : boundV v ≤ 2 * (dumpsVal v).length + 2 := by
    have := boundV_le v
    omega
  have hparse := parseVal_dumps v (2 * (dumpsVal v).length + 2) [] h hbound (by decide)
  rw [List.append_nil] at hparse
  rw [hparse]
  rfl

/-! ## Claim C3: the tolerant JSON-list parse cascade
    (`_parse_json_list` and helpers, planner.py lines 276-423 and 943-1201)

The planner recovers a `list[dict]` from raw model output through a cascade:
normalize provider stream envelopes (`_unwrap_provider_stream_payload`),
strip markdown code fences (`_strip_code_fences`, regex
`` ```(?:json)?\s*\n?(.*?)\n?\s*``` `` with DOTALL), then strict
`json.loads`, first-balanced-array scan, object unwrap, and permissive
literal parse.  The model below translates each helper.  Model conventions:
JSON documents live in the `Json` universe above (no floats), `json.loads`
is `jsonLoads`, and Python dict iteration order is field order (the
theorems only use objects with distinct keys). -/

/-- The backquote character. -/
def backquote : Char := Char.ofNat 96

/-- The three-character markdown fence. -/
def fenceChars : List Char := [backquote, backquote, backquote]

/-- Split at the first occurrence of `needle`: returns the part before it and
the part after it (Python `text.find(needle)` plus slicing). -/
def splitAtSub : List Char → List Char → Option (List Char × List Char)
  | [], needle => if needle.isEmpty then some ([], []) else none
  | c :: cs, needle =>
      if listStartsWith (c :: cs) needle then some ([], (c :: cs).drop needle.length)
      else (fun p => (c :: p.1, p.2)) <$> splitAtSub cs needle

/-- `_strip_code_fences`: the regex `` ```(?:json)?\s*\n?(.*?)\n?\s*``` ``
(DOTALL, `re.search`) matches iff a second fence follows the first one; the
lazy group is the text between the opening fence (plus an optional literal
`json` tag and whitespace) and the next fence, and `.strip()` is applied to
it.  Without a match the whole text is stripped. -/
def stripCodeFences (text : String) : String :=
  match splitAtSub text.data fenceChars with
  | none => pyStrip text
  | some (_, afterOpen) =>
      let body := if listStartsWith afterOpen ['j', 's', 'o', 'n'] then afterOpen.drop 4
        else afterOpen
      match splitAtSub body fenceChars with
      | none => pyStrip text
      | some (content, _) => String.mk (pyStripList content)

/-- Index of the first occurrence of `target` at a position `≥ start`
(Python `text.find(target, start)`). -/
def findCharFrom (cs : List Char) (target : Char) (start : Nat) : Option Nat :=
  match (cs.drop start).findIdx? (fun c => c = target) with
  | none => none
  | some j => some (start + j)

/-- The string-aware bracket scan shared by `_extract_first_json_array` and
`_extract_first_json_object`: walk the characters tracking `depth`,
`in_string` and `escaped`, and return the index of the closing bracket that
brings `depth` back to zero. -/
def scanBal (oc cc : Char) : List Char → Int → Bool → Bool → Nat → Option Nat
  | [], _, _, _, _ => none
  | ch :: rest, depth, inStr, esc, idx =>
      if inStr then
        if esc then scanBal oc cc rest depth true false (idx + 1)
        else if ch = '\\' then scanBal oc cc rest depth true true (idx + 1)
        else if ch = '"' then scanBal oc cc rest depth false false (idx + 1)
        else scanBal oc cc rest depth true false (idx + 1)
      else if ch = '"' then scanBal oc cc rest depth true false (idx + 1)
      else if ch = oc then scanBal oc cc rest (depth + 1) false false (idx + 1)
      else if ch = cc then
        if depth - 1 = 0 then some idx
        else scanBal oc cc rest (depth - 1) false false (idx + 1)
      else scanBal oc cc rest depth false false (idx + 1)

/-- Outer loop of `_extract_first_json_array`: for each `[` from left to
right, scan for its balanced close; a candidate that loads as a list is
returned, any other outcome advances to the next `[`. -/
def extractFirstJsonArrayAux : Nat → List Char → Nat → Option (List Json)
  | 0, _, _ => none
  | fuel + 1, cs, start =>
      match findCharFrom cs '[' start with
      | none => none
      | some s =>
          match scanBal '[' ']' (cs.drop s) 0 false false 0 with
          | none => extractFirstJsonArrayAux fuel cs (s + 1)
          | some e =>
              match jsonLoads (String.mk ((cs.drop s).take (e + 1))) with
              | some (Json.arr xs) => some xs
              | _ => extractFirstJsonArrayAux fuel cs (s + 1)

/-- `_extract_first_json_array`. -/
def extractFirstJsonArray (text : String) : Option (List Json) :=
  if text.data.isEmpty then none
  else extractFirstJsonArrayAux (text.data.length + 1) text.data 0

/-- Outer loop of `_extract_first_json_object` (same shape over `\x7b`/`\x7d`,
keeping candidates that load as a dict). -/
def extractFirstJsonObjectAux : Nat → List Char → Nat → Option (List (String × Json))
  | 0, _, _ => none
  | fuel + 1, cs, start =>
      match findCharFrom cs '{' start with
      | none => none
      | some s =>
          match scanBal '{' '}' (cs.drop s) 0 false false 0 with
          | none => extractFirstJsonObjectAux fuel cs (s + 1)
          | some e =>
              match jsonLoads (String.mk ((cs.drop s).take (e + 1))) with
              | some (Json.obj fs) => some fs
              | _ => extractFirstJsonObjectAux fuel cs (s + 1)

/-- `_extract_first_json_object`. -/
def extractFirstJsonObject (text : String) : Option (List (String × Json)) :=
  if text.data.isEmpty then none
  else extractFirstJsonObjectAux (text.data.length + 1) text.data 0

/-- Python `dict.get` on the field list of a parsed object (with duplicate
keys `json.loads` keeps the last binding, so lookup is right-biased). -/
def jsonGet (fields : List (String × Json)) (key : String) : Option Json :=
  match fields with
  | [] => none
  | (k, v) :: rest =>
      match jsonGet rest key with
      | some r => some r
      | none => if k = key then some v else none

/-- `isinstance(value, str) and value`: a non-empty string field. -/
def nonemptyStr : Option Json → Option String
  | some (Json.str s) => if s = "" then none else some s
  | _ => none

/-- One item of a content-block list in `_text_from_content_block`: plain
non-empty strings are kept, dict items contribute their non-empty `text`,
`content` and `output_text` string fields. -/
def contentItemParts (item : Json) : List String :=
  match item with
  | Json.str s => if s = "" then [] else [s]
  | Json.obj fs =>
      (match nonemptyStr (jsonGet fs "text") with | some s => [s] | none => [])
        ++ (match nonemptyStr (jsonGet fs "content") with | some s => [s] | none => [])
        ++ (match nonemptyStr (jsonGet fs "output_text") with | some s => [s] | none => [])
  | _ => []

/-- `_text_from_content_block`: a plain string is returned as is; a list is
joined from its parts; anything else gives the empty string. -/
def textFromContentBlock : Option Json → String
  | some (Json.str s) => s
  | some (Json.arr items) =>
      let parts := items.flatMap contentItemParts
      if parts.isEmpty then "" else String.join parts
  | _ => ""

/-- The parts one `choices[]` entry contributes in `_extract_text`:
`delta.content`, `message.content` and the plain `text` field. -/
def choicePartsOf (choice : Json) : List String :=
  match choice with
  | Json.obj cfs =>
      (match jsonGet cfs "delta" with
        | some (Json.obj dfs) =>
            let t := textFromContentBlock (jsonGet dfs "content")
            if t = "" then [] else [t]
        | _ => [])
        ++ (match jsonGet cfs "message" with
          | some (Json.obj mfs) =>
              let t := textFromContentBlock (jsonGet mfs "content")
              if t = "" then [] else [t]
          | _ => [])
        ++ (match nonemptyStr (jsonGet cfs "text") with | some s => [s] | none => [])
  | _ => []

mutual

/-- `_extract_text` of `_unwrap_provider_stream_payload`: pull assistant text
out of one parsed chunk payload.  The Python recursion (through the nested
`data` / `result` / `output` wrappers) is structurally bounded by the value;
the fuel argument is always called with enough (`boundV`). -/
def extractText : Nat → Json → String
  | 0, _ => ""
  | fuel + 1, payload =>
      match payload with
      | Json.obj fs =>
          match nonemptyStr (jsonGet fs "response") with
          | some s => s
          | none =>
          match nonemptyStr (jsonGet fs "output_text") with
          | some s => s
          | none =>
          match nonemptyStr (jsonGet fs "generated_text") with
          | some s => s
          | none =>
          match nonemptyStr (jsonGet fs "text") with
          | some s => s
          | none =>
            let msgText :=
              match jsonGet fs "message" with
              | some (Json.obj mfs) => textFromContentBlock (jsonGet mfs "content")
              | _ => ""
            if msgText ≠ "" then msgText
            else
              let choiceParts :=
                match jsonGet fs "choices" with
                | some (Json.arr cs) => cs.flatMap choicePartsOf
                | _ => []
              if choiceParts ≠ [] then String.join choiceParts
              else
                match extractNested fuel fs "data" with
                | some t => t
                | none =>
                match extractNested fuel fs "result" with
                | some t => t
                | none =>
                match extractNested fuel fs "output" with
                | some t => t
                | none => ""
      | _ => ""
termination_by f _ => (f, 0)

/-- One iteration of the `for key in ("data", "result", "output")` loop of
`_extract_text`: a dict recurses, a list joins the non-empty texts of its
dict items, a string with non-blank content is returned verbatim. -/
def extractNested (fuel : Nat) (fs : List (String × Json)) (key : String) : Option String :=
  match jsonGet fs key with
  | some (Json.obj nfs) =>
      let t := extractText fuel (Json.obj nfs)
      if t ≠ "" then some t else none
  | some (Json.arr items) =>
      let parts := items.flatMap (fun it =>
        match it with
        | Json.obj ifs =>
            let t := extractText fuel (Json.obj ifs)
            if t ≠ "" then [t] else []
        | _ => [])
      if parts ≠ [] then some (String.join parts) else none
  | some (Json.str s) => if pyStrip s ≠ "" then some s else none
  | _ => none
termination_by (fuel, 1)

end

/-- `str.splitlines` restricted to `'\n'` separators (the only line break
the planner's own handling can produce; callers filter blank lines, so
trailing-newline behaviour is immaterial). -/
def splitOnNl : List Char → List (List Char)
  | [] => [[]]
  | c :: cs =>
      if c = '\n' then [] :: splitOnNl cs
      else
        match splitOnNl cs with
        | [] => [[c]]
        | l :: ls => (c :: l) :: ls

/-- The per-line loop of `_unwrap_provider_stream_payload`: strip `data:`
prefixes, skip `[DONE]` markers, and give up (returning the stripped raw
text) on any line that is not a JSON object; text extracted from the
object lines is concatenated. -/
def unwrapLines (stripped : String) : List (List Char) → Bool → List String → String
  | [], seen, parts =>
      if seen && !parts.isEmpty then String.join parts.reverse else stripped
  | line :: rest, seen, parts =>
      let candidate :=
        if listStartsWith line ['d', 'a', 't', 'a', ':'] then pyStripList (line.drop 5)
        else line
      if candidate = ['[', 'D', 'O', 'N', 'E', ']'] ∨ candidate = ['D', 'O', 'N', 'E'] then
        unwrapLines stripped rest seen parts
      else if ¬ (candidate.head? = some '{' ∧ candidate.getLast? = some '}') then stripped
      else
        match jsonLoads (String.mk candidate) with
        | some (Json.obj fs) =>
            let extracted := extractText (boundV (Json.obj fs)) (Json.obj fs)
            unwrapLines stripped rest true
              (if extracted = "" then parts else extracted :: parts)
        | _ => stripped

/-- `_unwrap_provider_stream_payload`: a single JSON-object payload yields
its extracted text when non-blank; otherwise the non-blank stripped lines
are treated as a structured stream envelope when every one of them is a
JSON object (modulo `data:` prefixes and `[DONE]` markers), and the raw
stripped text is returned in every other case. -/
def unwrapProviderStreamPayload (raw : String) : String :=
  if raw.data.isEmpty then ""
  else
    let stripped := pyStrip raw
    if stripped.data.isEmpty then ""
    else
      let single : Option String :=
        match jsonLoads stripped with
        | some (Json.obj fs) =>
            let extracted := extractText (boundV (Json.obj fs)) (Json.obj fs)
            if (pyStrip extracted).data.isEmpty then none else some extracted
        | _ => none
      match single with
      | some t => t
      | none =>
          let lines := ((splitOnNl stripped.data).map pyStripList).filter
            (fun l => !l.isEmpty)
          if lines.isEmpty then stripped
          else unwrapLines stripped lines false []

/-- `_try_parse_json_like`: strip fences, then strict parse, then the
first-array and first-object scanners. -/
def tryParseJsonLike (text : String) : Option Json :=
  let candidate := stripCodeFences text
  if candidate.data.isEmpty then none
  else
    match jsonLoads candidate with
    | some v => some v
    | none =>
        match extractFirstJsonArray candidate with
        | some xs => some (Json.arr xs)
        | none =>
            match extractFirstJsonObject candidate with
            | some fs => some (Json.obj fs)
            | none => none

/-- The `candidate_keys` table of `_extract_list_from_json_object`. -/
def candidateKeysFor (label : String) : List String :=
  if label = "task breakdown" then
    ["tasks", "task_breakdown", "taskBreakdown", "work_items", "items", "data", "result"]
  else if label = "team assembly" then
    ["team", "agents", "team_recommendation", "team_recommendations", "crew", "items",
     "data", "result"]
  else ["items", "data", "result"]

/-- `isinstance(x, dict)`. -/
def isObjJson : Json → Bool
  | Json.obj _ => true
  | _ => false

mutual

/-- `_walk` of `_extract_list_from_json_object`.  The Python depth counter
(`return None` once `depth > 5`) is mirrored by a countdown fuel
`6 - depth`; `none` stands for a non-JSON node (e.g. a failed nested
parse). -/
def walkNode (keys : List String) : Nat → Option Json → Option (List Json)
  | 0, _ => none
  | _ + 1, none => none
  | _ + 1, some (Json.arr xs) =>
      if !xs.isEmpty && xs.all isObjJson then some xs else none
  | fuel + 1, some (Json.obj fs) =>
      match walkKeys keys fuel fs keys with
      | some r => some r
      | none => walkVals keys fuel fs
  | _ + 1, some _ => none
termination_by f _ => (f, 0)

/-- The `for key in candidate_keys` loop of `_walk`: a list-valued candidate
field is returned as is; a string-valued one is parsed JSON-like and
walked one level deeper. -/
def walkKeys (keys : List String) (fuel : Nat) (fs : List (String × Json)) :
    List String → Option (List Json)
  | [] => none
  | key :: krest =>
      let hit : Option (List Json) :=
        match jsonGet fs key with
        | some (Json.arr xs) => some xs
        | some (Json.str s) => walkNode keys fuel (tryParseJsonLike s)
        | _ => none
      match hit with
      | some r => some r
      | none => walkKeys keys fuel fs krest
termination_by ks => (fuel, ks.length + 1)

/-- The `for value in node.values()` loop of `_walk`: strings are parsed
JSON-like and walked deeper, dicts and lists are walked deeper directly. -/
def walkVals (keys : List String) (fuel : Nat) :
    List (String × Json) → Option (List Json)
  | [] => none
  | (_, v) :: rest =>
      let hit : Option (List Json) :=
        match v with
        | Json.str s => walkNode keys fuel (tryParseJsonLike s)
        | Json.obj _ => walkNode keys fuel (some v)
        | Json.arr _ => walkNode keys fuel (some v)
        | _ => none
      match hit with
      | some r => some r
      | none => walkVals keys fuel rest
termination_by l => (fuel, l.length + 1)

end

/-- `_extract_list_from_json_object`: parse the fence-stripped text
JSON-like (falling back to the first balanced object in it) and walk the
result for candidate list payloads. -/
def extractListFromJsonObject (raw label : String) : Option (List Json) :=
  if raw.data.isEmpty then none
  else
    let cleaned := stripCodeFences raw
    let root : Option Json :=
      match tryParseJsonLike cleaned with
      | some (Json.obj fs) => some (Json.obj fs)
      | _ =>
          match extractFirstJsonObject cleaned with
          | some fs => some (Json.obj fs)
          | none => none
    match root with
    | none => none
    | some r => walkNode (candidateKeysFor label) 6 (some r)

/-! ### Python literals: `repr` and `ast.literal_eval`

Stage 4 of the cascade feeds the cleaned text to `ast.literal_eval`
(`_try_literal_eval_list`), and its dict branch re-enters
`_extract_list_from_json_object` on `str(value)`, i.e. on the `repr` of
the dict.  The model covers the literal syntax these values use:
single- or double-quoted strings with the common backslash escapes,
decimal integers, `True` / `False` / `None`, lists and dicts (CPython
additionally `\x`-escapes control characters and chooses printable
representations for exotic code points; the theorems below stay inside
the modelled character range). -/

/-- The quote `repr` picks for a string: `'` unless the string contains a
single quote and no double quote. -/
def pyReprStrQuote (s : String) : Char :=
  if containsSub s "'" && !containsSub s "\"" then '"' else '\''

/-- `repr` escaping of one character under the chosen quote. -/
def reprEscapeChar (q c : Char) : List Char :=
  if c = '\\' then ['\\', '\\']
  else if c = q then ['\\', q]
  else if c = '\n' then ['\\', 'n']
  else if c = '\r' then ['\\', 'r']
  else if c = '\t' then ['\\', 't']
  else if c.toNat < 32 ∨ c.toNat = 127 then
    ['\\', 'x', hexDigitChar (c.toNat / 16), hexDigitChar (c.toNat % 16)]
  else [c]

/-- `repr` of a Python string. -/
def pyReprStr (s : String) : List Char :=
  let q := pyReprStrQuote s
  q :: (s.data.flatMap (reprEscapeChar q) ++ [q])

mutual

/-- `repr` (= `str`) of a JSON-shaped Python value: `None` / `True` /
`False`, decimal integers, quoted strings, and `[...]` / `\x7b...\x7d`
containers with `", "` and `": "` separators. -/
def pyReprVal : Json → List Char
  | .null => ['N', 'o', 'n', 'e']
  | .bool true => ['T', 'r', 'u', 'e']
  | .bool false => ['F', 'a', 'l', 's', 'e']
  | .num i => intChars i
  | .str s => pyReprStr s
  | .arr es => '[' :: (pyReprElems es ++ [']'])
  | .obj fs => '{' :: (pyReprFields fs ++ ['}'])

/-- List elements joined by `", "`. -/
def pyReprElems : List Json → List Char
  | [] => []
  | [e] => pyReprVal e
  | e :: e2 :: es => pyReprVal e ++ (',' :: ' ' :: pyReprElems (e2 :: es))

/-- Dict entries `key: value` joined by `", "`. -/
def pyReprFields : List (String × Json) → List Char
  | [] => []
  | [(k, v)] => pyReprStr k ++ (':' :: ' ' :: pyReprVal v)
  | (k, v) :: f2 :: fs =>
      (pyReprStr k ++ (':' :: ' ' :: pyReprVal v)) ++ (',' :: ' ' :: pyReprFields (f2 :: fs))

end

/-- Body of a Python string literal opened with quote `q`: plain characters
up to the closing quote, with the backslash escapes `repr` emits for the
modelled range. -/
def parseLitStringBody (q : Char) : List Char → Option (List Char × List Char)
  | [] => none
  | c :: cs =>
      if c = q then some ([], cs)
      else if c = '\\' then
        match cs with
        | [] => none
        | e :: cs2 =>
            if e = '\'' then (fun p => ('\'' :: p.1, p.2)) <$> parseLitStringBody q cs2
            else if e = '"' then (fun p => ('"' :: p.1, p.2)) <$> parseLitStringBody q cs2
            else if e = '\\' then (fun p => ('\\' :: p.1, p.2)) <$> parseLitStringBody q cs2
            else if e = 'n' then (fun p => ('\n' :: p.1, p.2)) <$> parseLitStringBody q cs2
            else if e = 'r' then (fun p => ('\r' :: p.1, p.2)) <$> parseLitStringBody q cs2
            else if e = 't' then (fun p => ('\t' :: p.1, p.2)) <$> parseLitStringBody q cs2
            else none
      else if c.toNat < 32 then none
      else (fun p => (c :: p.1, p.2)) <$> parseLitStringBody q cs

mutual

/-- Read one Python literal value at the head of the input. -/
def litParseVal : Nat → List Char → Option (Json × List Char)
  | 0, _ => none
  | fuel + 1, cs =>
      match cs with
      | [] => none
      | c :: cs1 =>
          if c = '\'' then
            (fun p => (Json.str (String.mk p.1), p.2)) <$> parseLitStringBody '\'' cs1
          else if c = '"' then
            (fun p => (Json.str (String.mk p.1), p.2)) <$> parseLitStringBody '"' cs1
          else if c = '[' then litParseArrBody fuel (skipWs cs1)
          else if c = '{' then litParseObjBody fuel (skipWs cs1)
          else if c = 'T' then
            if listStartsWith cs1 ['r', 'u', 'e'] then some (.bool true, cs1.drop 3)
            else none
          else if c = 'F' then
            if listStartsWith cs1 ['a', 'l', 's', 'e'] then some (.bool false, cs1.drop 4)
            else none
          else if c = 'N' then
            if listStartsWith cs1 ['o', 'n', 'e'] then some (.null, cs1.drop 3)
            else none
          else if c = '-' || isDigitChar c then
            (fun p => (Json.num p.1, p.2)) <$> parseIntToken (c :: cs1)
          else none

/-- Read a list body after `[` (whitespace skipped). -/
def litParseArrBody : Nat → List Char → Option (Json × List Char)
  | 0, _ => none
  | fuel + 1, cs =>
      match cs with
      | ']' :: r => some (.arr [], r)
      | _ => (fun p => (Json.arr p.1, p.2)) <$> litParseElems fuel cs

/-- Read one or more `value (, value)*` then `]`. -/
def litParseElems : Nat → List Char → Option (List Json × List Char)
  | 0, _ => none
  | fuel + 1, cs => do
      let p ← litParseVal fuel cs
      match skipWs p.2 with
      | ',' :: r2 => do
          let q ← litParseElems fuel (skipWs r2)
          some (p.1 :: q.1, q.2)
      | ']' :: r2 => some ([p.1], r2)
      | _ => none

/-- Read a dict body after `\x7b` (whitespace skipped). -/
def litParseObjBody : Nat → List Char → Option (Json × List Char)
  | 0, _ => none
  | fuel + 1, cs =>
      match cs with
      | '}' :: r => some (.obj [], r)
      | _ => (fun p => (Json.obj p.1, p.2)) <$> litParseMembers fuel cs

/-- Read one or more `key: value (, key: value)*` then `\x7d`, with
string keys in either quote style. -/
def litParseMembers : Nat → List Char → Option (List (String × Json) × List Char)
  | 0, _ => none
  | fuel + 1, cs =>
      match cs with
      | c :: cs1 =>
          if c = '\'' ∨ c = '"' then do
            let k ← parseLitStringBody c cs1
            match skipWs k.2 with
            | ':' :: r2 => do
                let v ← litParseVal fuel (skipWs r2)
                match skipWs v.2 with
                | ',' :: r4 => do
                    let q ← litParseMembers fuel (skipWs r4)
                    some ((String.mk k.1, v.1) :: q.1, q.2)
                | '}' :: r4 => some ([(String.mk k.1, v.1)], r4)
                | _ => none
            | _ => none
          else none
      | _ => none

end

/-- `ast.literal_eval` on the modelled literal syntax: parse a complete
document, allowing surrounding whitespace only. -/
def literalEval (s : String) : Option Json :=
  let cs := skipWs s.data
  match litParseVal (2 * cs.length + 2) cs with
  | some p => if (skipWs p.2).isEmpty then some p.1 else none
  | none => none

/-- `_try_literal_eval_list`: evaluate the text as a Python literal; a list
keeps only its dict items, a dict re-enters the object extractor on its
`str(...)` form. -/
def tryLiteralEvalList (text label : String) : Option (List Json) :=
  match literalEval text with
  | some (Json.arr xs) => some (xs.filter isObjJson)
  | some (Json.obj fs) =>
      extractListFromJsonObject (String.mk (pyReprVal (Json.obj fs))) label
  | _ => none

/-- `_parse_json_list`: stream-envelope normalization, fence stripping, then
the four-stage recovery cascade (strict parse with object unwrap, first
balanced array, object unwrap of the normalized raw text, literal parse). -/
def parseJsonList (raw label : String) : Option (List Json) :=
  let normalizedRaw0 := unwrapProviderStreamPayload raw
  let normalizedRaw :=
    if (pyStrip normalizedRaw0).data.isEmpty ∧ ¬ (pyStrip raw).data.isEmpty then raw
    else normalizedRaw0
  let cleaned := stripCodeFences normalizedRaw
  if cleaned.data.isEmpty then none
  else
    match jsonLoads cleaned with
    | some (Json.arr xs) => some xs
    | some (Json.obj _) => extractListFromJsonObject cleaned label
    | some _ => none
    | none =>
        match extractFirstJsonArray cleaned with
        | some xs => some xs
        | none =>
            match extractListFromJsonObject normalizedRaw label with
            | some l => some l
            | none => tryLiteralEvalList cleaned label

/-! ### C3 analysis: characters and value shapes the amended statement uses

`litChar` captures string content that keeps the literal representation
unambiguous for the cascade: printable (or one of the three common
escapes), and free of quotes, brackets, braces and backquotes, which
would otherwise interact with the fence regex and the balanced-bracket
scanners.  `litV` additionally rules out nested lists (whose `repr` can
itself load as JSON, letting stage 2 capture a sublist) and empty nested
dicts (whose `repr` loads as JSON on the object scanner). -/

/-- String content that keeps a Python literal inert for the earlier
cascade stages. -/
def litChar (c : Char) : Bool :=
  (c = '\n' || c = '\t' || c = '\r'
      || (decide (32 ≤ c.toNat) && decide (c.toNat ≠ 127)))
    && !(c = '\'') && !(c = '"') && !(c = '[') && !(c = ']')
    && !(c = '{') && !(c = '}') && !(c = backquote)

mutual

/-- Values allowed inside the literal-representation items: scalars,
`litChar` strings, and non-empty dicts of such values (no nested lists). -/
def litV : Json → Bool
  | .null => true
  | .bool _ => true
  | .num _ => true
  | .str s => s.data.all litChar
  | .arr _ => false
  | .obj fs => !fs.isEmpty && litFields fs

/-- Fields of a `litV` dict: `litChar` keys, `litV` values. -/
def litFields : List (String × Json) → Bool
  | [] => true
  | (k, v) :: fs => k.data.all litChar && litV v && litFields fs

end

theorem listContainsSub_singleton_false (q : Char) (cs : List Char)
    (h : ∀ c ∈ cs, ¬ c = q) : listContainsSub cs [q] = false := by
  induction cs with
  | nil => rfl
  | cons c cs ih =>
      rw [listContainsSub]
      have hc : ¬ c = q := h c (List.mem_cons_self c cs)
      rw [listStartsWith]
      simp only [listStartsWith, Bool.and_true, Bool.or_eq_false_iff, beq_eq_false_iff_ne,
        ne_eq]
      exact ⟨hc, ih (fun x hx => h x (List.mem_cons_of_mem c hx))⟩

/-- Quote-free strings get the single quote from `repr`. -/
theorem pyReprStrQuote_lit (s : String) (h : s.data.all litChar = true) :
    pyReprStrQuote s = '\'' := by
  have hq : ∀ c ∈ s.data, ¬ c = '\'' := by
    intro c hc
    have := List.all_eq_true.mp h c hc
    simp only [litChar, Bool.and_eq_true, Bool.not_eq_true', decide_eq_false_iff_not,
      beq_eq_false_iff_ne, ne_eq] at this
    exact this.1.1.1.1.1.1.2
  rw [pyReprStrQuote, containsSub]
  rw [show ("'" : String).data = ['\''] from rfl]
  rw [listContainsSub_singleton_false _ _ hq]
  rfl

theorem parseLitStringBody_closeQuote (q : Char) (rest : List Char) :
    parseLitStringBody q (q :: rest) = some ([], rest) := by
  rw [parseLitStringBody.eq_def]
  simp

theorem parseLitStringBody_escQuote (x : List Char) :
    parseLitStringBody '\'' ('\\' :: '\'' :: x)
      = (fun p => ('\'' :: p.1, p.2)) <$> parseLitStringBody '\'' x := by
  rw [parseLitStringBody.eq_def]
  simp

theorem parseLitStringBody_escBackslash (q : Char) (x : List Char)
    (h1 : ¬ q = '\\') :
    parseLitStringBody q ('\\' :: '\\' :: x)
      = (fun p => ('\\' :: p.1, p.2)) <$> parseLitStringBody q x := by
  rw [parseLitStringBody.eq_def]
  have h1s : ¬ '\\' = q := fun h => h1 h.symm
  simp [h1s]

theorem parseLitStringBody_escN (q : Char) (x : List Char) (h1 : ¬ q = '\\') :
    parseLitStringBody q ('\\' :: 'n' :: x)
      = (fun p => ('\n' :: p.1, p.2)) <$> parseLitStringBody q x := by
  rw [parseLitStringBody.eq_def]
  have h1s : ¬ '\\' = q := fun h => h1 h.symm
  simp [h1s]

theorem parseLitStringBody_escR (q : Char) (x : List Char) (h1 : ¬ q = '\\') :
    parseLitStringBody q ('\\' :: 'r' :: x)
      = (fun p => ('\r' :: p.1, p.2)) <$> parseLitStringBody q x := by
  rw [parseLitStringBody.eq_def]
  have h1s : ¬ '\\' = q := fun h => h1 h.symm
  simp [h1s]

theorem parseLitStringBody_escT (q : Char) (x : List Char) (h1 : ¬ q = '\\') :
    parseLitStringBody q ('\\' :: 't' :: x)
      = (fun p => ('\t' :: p.1, p.2)) <$> parseLitStringBody q x := by
  rw [parseLitStringBody.eq_def]
  have h1s : ¬ '\\' = q := fun h => h1 h.symm
  simp [h1s]

theorem parseLitStringBody_raw (q c : Char) (x : List Char)
    (h1 : ¬ c = q) (h2 : ¬ c = '\\') (h3 : ¬ c.toNat < 32) :
    parseLitStringBody q (c :: x)
      = (fun p => (c :: p.1, p.2)) <$> parseLitStringBody q x := by
  rw [parseLitStringBody.eq_def]
  simp [h1, h2, h3]

/-- `repr`-escaped `litChar` content parses back under the single quote. -/
theorem parseLitStringBody_escaped (cs : List Char) :
    ∀ rest : List Char, cs.all litChar = true →
      parseLitStringBody '\'' (cs.flatMap (reprEscapeChar '\'') ++ ('\'' :: rest))
        = some (cs, rest) := by
  induction cs with
  | nil =>
      intro rest _
      simp only [List.flatMap_nil, List.nil_append]
      exact parseLitStringBody_closeQuote '\'' rest
  | cons c cs ih =>
      intro rest hall
      have hc : litChar c = true :=
        List.all_eq_true.mp hall c (List.mem_cons_self c cs)
      have hcs : cs.all litChar = true := by
        rw [List.all_eq_true]
        intro x hx
        exact List.all_eq_true.mp hall x (List.mem_cons_of_mem c hx)
      have ihr := ih rest hcs
      simp only [litChar, Bool.and_eq_true, Bool.not_eq_true', decide_eq_false_iff_not,
        beq_eq_false_iff_ne, ne_eq, Bool.or_eq_true, decide_eq_true_eq,
        beq_iff_eq] at hc
      have hnq : ¬ c = '\'' := hc.1.1.1.1.1.1.2
      simp only [List.flatMap_cons, List.append_assoc]
      by_cases h2 : c = '\\'
      · subst h2
        rw [show reprEscapeChar '\'' '\\' = ['\\', '\\'] from by simp [reprEscapeChar]]
        simp only [List.cons_append, List.nil_append]
        rw [parseLitStringBody_escBackslash '\'' _ (by decide), ihr]
        rfl
      · by_cases h3 : c = '\n'
        · subst h3
          rw [show reprEscapeChar '\'' '\n' = ['\\', 'n'] from by simp [reprEscapeChar]]
          simp only [List.cons_append, List.nil_append]
          rw [parseLitStringBody_escN '\'' _ (by decide), ihr]
          rfl
        · by_cases h4 : c = '\r'
          · subst h4
            rw [show reprEscapeChar '\'' '\r' = ['\\', 'r'] from by simp [reprEscapeChar]]
            simp only [List.cons_append, List.nil_append]
            rw [parseLitStringBody_escR '\'' _ (by decide), ihr]
            rfl
          · by_cases h5 : c = '\t'
            · subst h5
              rw [show reprEscapeChar '\'' '\t' = ['\\', 't'] from by simp [reprEscapeChar]]
              simp only [List.cons_append, List.nil_append]
              rw [parseLitStringBody_escT '\'' _ (by decide), ihr]
              rfl
            · have hge : 32 ≤ c.toNat ∧ c.toNat ≠ 127 := by
                rcases hc.1.1.1.1.1.1.1 with ((h | h) | h) | h
                · exact absurd h h3
                · exact absurd h h5
                · exact absurd h h4
                · exact h
              have h8 : ¬ (c.toNat < 32 ∨ c.toNat = 127) := by omega
              rw [show reprEscapeChar '\'' c = [c] from by
                simp only [reprEscapeChar, if_neg h2, if_neg hnq, if_neg h3,
                  if_neg h4, if_neg h5, if_neg h8]]
              simp only [List.singleton_append]
              rw [parseLitStringBody_raw '\'' c _ hnq h2 (by omega), ihr]
              rfl

theorem litParseVal_none_step (f : Nat) (cs1 : List Char) :
    litParseVal (f + 1) ('N' :: cs1)
      = if listStartsWith cs1 ['o', 'n', 'e'] then some (.null, cs1.drop 3) else none := by
  rw [litParseVal.eq_def]
  simp

theorem litParseVal_true_step (f : Nat) (cs1 : List Char) :
    litParseVal (f + 1) ('T' :: cs1)
      = if listStartsWith cs1 ['r', 'u', 'e'] then some (.bool true, cs1.drop 3)
        else none := by
  rw [litParseVal.eq_def]
  simp

theorem litParseVal_false_step (f : Nat) (cs1 : List Char) :
    litParseVal (f + 1) ('F' :: cs1)
      = if listStartsWith cs1 ['a', 'l', 's', 'e'] then some (.bool false, cs1.drop 4)
        else none := by
  rw [litParseVal.eq_def]
  simp

theorem litParseVal_squote_step (f : Nat) (cs1 : List Char) :
    litParseVal (f + 1) ('\'' :: cs1)
      = (fun p => (Json.str (String.mk p.1), p.2)) <$> parseLitStringBody '\'' cs1 := by
  rw [litParseVal.eq_def]
  simp

theorem litParseVal_arr_step (f : Nat) (cs1 : List Char) :
    litParseVal (f + 1) ('[' :: cs1) = litParseArrBody f (skipWs cs1) := by
  rw [litParseVal.eq_def]
  simp

theorem litParseVal_obj_step (f : Nat) (cs1 : List Char) :
    litParseVal (f + 1) ('{' :: cs1) = litParseObjBody f (skipWs cs1) := by
  rw [litParseVal.eq_def]
  simp

theorem litParseArrBody_close (f : Nat) (r : List Char) :
    litParseArrBody (f + 1) (']' :: r) = some (.arr [], r) := by
  rw [litParseArrBody.eq_def]
  simp

theorem litParseObjBody_close (f : Nat) (r : List Char) :
    litParseObjBody (f + 1) ('}' :: r) = some (.obj [], r) := by
  rw [litParseObjBody.eq_def]
  simp

theorem litParseArrBody_cons (f : Nat) (c : Char) (cs1 : List Char) (h : ¬ c = ']') :
    litParseArrBody (f + 1) (c :: cs1)
      = (fun p => (Json.arr p.1, p.2)) <$> litParseElems f (c :: cs1) := by
  rw [litParseArrBody.eq_def]
  split
  · next heq => exact absurd heq (by omega)
  · next fuel heq =>
      injection heq with h2
      subst h2
      split
      · next heq2 =>
          rw [List.cons.injEq] at heq2
          exact absurd heq2.1 h
      · rfl

theorem litParseObjBody_cons (f : Nat) (c : Char) (cs1 : List Char) (h : ¬ c = '}') :
    litParseObjBody (f + 1) (c :: cs1)
      = (fun p => (Json.obj p.1, p.2)) <$> litParseMembers f (c :: cs1) := by
  rw [litParseObjBody.eq_def]
  split
  · next heq => exact absurd heq (by omega)
  · next fuel heq =>
      injection heq with h2
      subst h2
      split
      · next heq2 =>
          rw [List.cons.injEq] at heq2
          exact absurd heq2.1 h
      · rfl

/-- A `repr` null parses back. -/
theorem litParseVal_nullLit (f : Nat) (rest : List Char) :
    litParseVal (f + 1) (pyReprVal .null ++ rest) = some (.null, rest) := by
  show litParseVal (f + 1) ('N' :: (['o', 'n', 'e'] ++ rest)) = some (.null, rest)
  rw [litParseVal_none_step, if_pos (listStartsWith_append_self _ _)]
  simp

theorem litParseVal_boolLit (f : Nat) (b : Bool) (rest : List Char) :
    litParseVal (f + 1) (pyReprVal (.bool b) ++ rest) = some (.bool b, rest) := by
  cases b with
  | true =>
      show litParseVal (f + 1) ('T' :: (['r', 'u', 'e'] ++ rest)) = some (.bool true, rest)
      rw [litParseVal_true_step, if_pos (listStartsWith_append_self _ _)]
      simp
  | false =>
      show litParseVal (f + 1) ('F' :: (['a', 'l', 's', 'e'] ++ rest))
        = some (.bool false, rest)
      rw [litParseVal_false_step, if_pos (listStartsWith_append_self _ _)]
      simp

theorem litParseVal_numLit (f : Nat) (i : Int) (rest : List Char)
    (hrest : noDigitHead rest = true) :
    litParseVal (f + 1) (pyReprVal (.num i) ++ rest) = some (.num i, rest) := by
  have htok := parseIntToken_intChars i rest hrest
  cases i with
  | ofNat n =>
      obtain ⟨d, tail, hd, hnc⟩ := natChars_head n
      have ht : (digitChar d).toNat = 48 + d := digitChar_toNat d hd
      show litParseVal (f + 1) (intChars (Int.ofNat n) ++ rest) = _
      rw [show intChars (Int.ofNat n) = digitChar d :: tail from by
        simpa [intChars] using hnc]
      simp only [List.cons_append]
      rw [litParseVal.eq_def]
      have h1 : ¬ digitChar d = '\'' := char_ne_of_toNat_ne (by rw [ht]; simp; omega)
      have h1b : ¬ digitChar d = '"' := char_ne_of_toNat_ne (by rw [ht]; simp; omega)
      have h2 : ¬ digitChar d = '[' := char_ne_of_toNat_ne (by rw [ht]; simp; omega)
      have h3 : ¬ digitChar d = '{' := char_ne_of_toNat_ne (by rw [ht]; simp; omega)
      have h4 : ¬ digitChar d = 'T' := char_ne_of_toNat_ne (by rw [ht]; simp; omega)
      have h5 : ¬ digitChar d = 'F' := char_ne_of_toNat_ne (by rw [ht]; simp; omega)
      have h6 : ¬ digitChar d = 'N' := char_ne_of_toNat_ne (by rw [ht]; simp; omega)
      simp only [h1, h1b, h2, h3, h4, h5, h6, if_false, reduceIte,
        isDigitChar_digitChar d hd, Bool.or_true, if_true]
      rw [show digitChar d :: (tail ++ rest) = intChars (Int.ofNat n) ++ rest from by
        simp [intChars]
        rw [hnc]
        simp]
      rw [htok]
      rfl
  | negSucc n =>
      show litParseVal (f + 1) ('-' :: (natChars (n + 1) ++ rest)) = _
      rw [litParseVal.eq_def]
      simp only [reduceIte, reduceCtorEq]
      rw [show ('-' :: (natChars (n + 1) ++ rest)) = intChars (Int.negSucc n) ++ rest from by
        simp [intChars]]
      rw [htok]
      rfl

/-- A `repr` string of `litChar` content parses back. -/
theorem litParseVal_strLit (f : Nat) (s : String) (rest : List Char)
    (h : s.data.all litChar = true) :
    litParseVal (f + 1) (pyReprVal (.str s) ++ rest) = some (.str s, rest) := by
  have hq := pyReprStrQuote_lit s h
  show litParseVal (f + 1) (pyReprStr s ++ rest) = _
  rw [show pyReprStr s
      = '\'' :: (s.data.flatMap (reprEscapeChar '\'') ++ ['\'']) from by
    rw [pyReprStr, hq]]
  rw [show ('\'' :: (s.data.flatMap (reprEscapeChar '\'') ++ ['\''])) ++ rest
      = '\'' :: (s.data.flatMap (reprEscapeChar '\'') ++ ('\'' :: rest)) from by simp]
  rw [litParseVal_squote_step, parseLitStringBody_escaped s.data rest h]
  simp [string_mk_data]

mutual

/-- Values whose `repr` round-trips through the literal parser: every
string and key is `litChar` content (nested lists and dicts allowed). -/
def reprOkV : Json → Bool
  | .null => true
  | .bool _ => true
  | .num _ => true
  | .str s => s.data.all litChar
  | .arr es => reprOkElems es
  | .obj fs => reprOkFields fs

def reprOkElems : List Json → Bool
  | [] => true
  | e :: es => reprOkV e && reprOkElems es

def reprOkFields : List (String × Json) → Bool
  | [] => true
  | (k, v) :: fs => k.data.all litChar && reprOkV v && reprOkFields fs

end

/-- The first character of a `repr` value: never whitespace, never a
closing delimiter. -/
theorem pyReprVal_head (v : Json) :
    ∃ c cs', pyReprVal v = c :: cs' ∧ jsonWsChar c = false ∧
      ¬ c = ']' ∧ ¬ c = '}' ∧ ¬ c = ',' := by
  cases v with
  | null => exact ⟨'N', _, rfl, by decide, by decide, by decide, by decide⟩
  | bool b =>
      cases b with
      | true => exact ⟨'T', _, rfl, by decide, by decide, by decide, by decide⟩
      | false => exact ⟨'F', _, rfl, by decide, by decide, by decide, by decide⟩
  | num i =>
      cases i with
      | ofNat n =>
          obtain ⟨d, tail, hd, hnc⟩ := natChars_head n
          have ht : (digitChar d).toNat = 48 + d := digitChar_toNat d hd
          refine ⟨digitChar d, tail, ?_, ?_, ?_, ?_, ?_⟩
          · simpa [pyReprVal, intChars] using hnc
          · exact jsonWsChar_eq_false _ (by omega)
          · exact char_ne_of_toNat_ne (by simp [ht]; omega)
          · exact char_ne_of_toNat_ne (by simp [ht]; omega)
          · exact char_ne_of_toNat_ne (by simp [ht]; omega)
      | negSucc n =>
          exact ⟨'-', _, rfl, by decide, by decide, by decide, by decide⟩
  | str s =>
      refine ⟨pyReprStrQuote s, _, rfl, ?_, ?_, ?_, ?_⟩ <;>
        (rw [pyReprStrQuote]; split <;> decide)
  | arr es => exact ⟨'[', _, rfl, by decide, by decide, by decide, by decide⟩
  | obj fs => exact ⟨'{', _, rfl, by decide, by decide, by decide, by decide⟩

theorem pyReprVal_ne_nil (v : Json) : pyReprVal v ≠ [] := by
  obtain ⟨c, cs', h, -⟩ := pyReprVal_head v
  rw [h]
  simp

theorem skipWs_pyReprVal_append (e : Json) (t : List Char) :
    skipWs (pyReprVal e ++ t) = pyReprVal e ++ t := by
  obtain ⟨c, cs', heq, hws, -⟩ := pyReprVal_head e
  rw [heq, List.cons_append, skipWs_cons_of c _ hws]

theorem pyReprElems_cons_eq (e : Json) (es : List Json) :
    ∃ t, pyReprElems (e :: es) = pyReprVal e ++ t := by
  cases es with
  | nil => exact ⟨[], by simp [pyReprElems]⟩
  | cons e2 es => exact ⟨',' :: ' ' :: pyReprElems (e2 :: es), by simp [pyReprElems]⟩

theorem pyReprFields_cons_head (k : String) (v : Json) (fs : List (String × Json))
    (hk : k.data.all litChar = true) :
    ∃ u, pyReprFields ((k, v) :: fs) = '\'' :: u := by
  have hq := pyReprStrQuote_lit k hk
  cases fs with
  | nil =>
      exact ⟨(k.data.flatMap (reprEscapeChar '\'') ++ ['\''])
        ++ (':' :: ' ' :: pyReprVal v), by
        simp [pyReprFields, pyReprStr, hq]⟩
  | cons f2 fs =>
      cases f2 with
      | mk k2 v2 =>
          exact ⟨((k.data.flatMap (reprEscapeChar '\'') ++ ['\''])
            ++ (':' :: ' ' :: pyReprVal v))
            ++ (',' :: ' ' :: pyReprFields ((k2, v2) :: fs)), by
            simp [pyReprFields, pyReprStr, hq]⟩

theorem litParseMembers_quote_step (f : Nat) (cs1 : List Char) :
    litParseMembers (f + 1) ('\'' :: cs1) = (do
      let k ← parseLitStringBody '\'' cs1
      match skipWs k.2 with
      | ':' :: r2 => do
          let v ← litParseVal f (skipWs r2)
          match skipWs v.2 with
          | ',' :: r4 => do
              let q ← litParseMembers f (skipWs r4)
              some ((String.mk k.1, v.1) :: q.1, q.2)
          | '}' :: r4 => some ([(String.mk k.1, v.1)], r4)
          | _ => none
      | _ => none) := by
  rw [litParseMembers.eq_def]
  simp

mutual

/-- The `repr` of a value with `litChar` string content parses back through
the literal parser, leaving exactly `rest`. -/
theorem litParseVal_repr : ∀ (v : Json) (fuel : Nat) (rest : List Char),
    reprOkV v = true → boundV v ≤ fuel → noDigitHead rest = true →
    litParseVal fuel (pyReprVal v ++ rest) = some (v, rest)
  | .null, fuel, rest, _, hb, _ => by
      obtain ⟨f, rfl⟩ : ∃ f, fuel = f + 1 := ⟨fuel - 1, by simp [boundV] at hb; omega⟩
      exact litParseVal_nullLit f rest
  | .bool b, fuel, rest, _, hb, _ => by
      obtain ⟨f, rfl⟩ : ∃ f, fuel = f + 1 := ⟨fuel - 1, by simp [boundV] at hb; omega⟩
      exact litParseVal_boolLit f b rest
  | .num i, fuel, rest, _, hb, hrest => by
      obtain ⟨f, rfl⟩ : ∃ f, fuel = f + 1 := ⟨fuel - 1, by simp [boundV] at hb; omega⟩
      exact litParseVal_numLit f i rest hrest
  | .str s, fuel, rest, ht, hb, _ => by
      obtain ⟨f, rfl⟩ : ∃ f, fuel = f + 1 := ⟨fuel - 1, by simp [boundV] at hb; omega⟩
      exact litParseVal_strLit f s rest (by simpa [reprOkV] using ht)
  | .arr [], fuel, rest, _, hb, _ => by
      simp only [boundV, boundElems] at hb
      obtain ⟨f, rfl⟩ : ∃ f, fuel = f + 2 := ⟨fuel - 2, by omega⟩
      show litParseVal (f + 1 + 1) ('[' :: (([] ++ [']']) ++ rest)) = _
      rw [litParseVal_arr_step]
      simp only [List.nil_append, List.cons_append]
      rw [skipWs_cons_of ']' rest (by decide)]
      exact litParseArrBody_close f rest
  | .arr (e :: es), fuel, rest, ht, hb, _ => by
      simp only [boundV] at hb
      obtain ⟨f, rfl⟩ : ∃ f, fuel = f + 2 := ⟨fuel - 2, by omega⟩
      have htame : reprOkElems (e :: es) = true := by simpa [reprOkV] using ht
      have hte : reprOkV e = true := by
        simp only [reprOkElems, Bool.and_eq_true] at htame
        exact htame.1
      have htes : reprOkElems es = true := by
        simp only [reprOkElems, Bool.and_eq_true] at htame
        exact htame.2
      show litParseVal (f + 1 + 1) ('[' :: ((pyReprElems (e :: es) ++ [']']) ++ rest)) = _
      rw [litParseVal_arr_step]
      rw [show (pyReprElems (e :: es) ++ [']']) ++ rest
          = pyReprElems (e :: es) ++ (']' :: rest) from by simp]
      obtain ⟨t, hde⟩ := pyReprElems_cons_eq e es
      rw [hde, List.append_assoc, skipWs_pyReprVal_append, ← List.append_assoc, ← hde]
      obtain ⟨c, cs', hdh, -, hnb, -, -⟩ := pyReprVal_head e
      have hdec : ∃ u, pyReprElems (e :: es) ++ (']' :: rest) = c :: u := by
        refine ⟨cs' ++ t ++ (']' :: rest), ?_⟩
        rw [hde, hdh]
        simp
      obtain ⟨u, hu⟩ := hdec
      rw [hu, litParseArrBody_cons f c u hnb, ← hu]
      rw [litParseElems_repr e es f rest hte htes (by omega)]
      rfl
  | .obj [], fuel, rest, _, hb, _ => by
      simp only [boundV, boundMembers] at hb
      obtain ⟨f, rfl⟩ : ∃ f, fuel = f + 2 := ⟨fuel - 2, by omega⟩
      show litParseVal (f + 1 + 1) ('{' :: (([] ++ ['}']) ++ rest)) = _
      rw [litParseVal_obj_step]
      simp only [List.nil_append, List.cons_append]
      rw [skipWs_cons_of '}' rest (by decide)]
      exact litParseObjBody_close f rest
  | .obj ((k, v) :: fs), fuel, rest, ht, hb, _ => by
      simp only [boundV] at hb
      obtain ⟨f, rfl⟩ : ∃ f, fuel = f + 2 := ⟨fuel - 2, by omega⟩
      have htame : reprOkFields ((k, v) :: fs) = true := by simpa [reprOkV] using ht
      simp only [reprOkFields, Bool.and_eq_true] at htame
      show litParseVal (f + 1 + 1) ('{' :: ((pyReprFields ((k, v) :: fs) ++ ['}']) ++ rest))
        = _
      rw [litParseVal_obj_step]
      rw [show (pyReprFields ((k, v) :: fs) ++ ['}']) ++ rest
          = pyReprFields ((k, v) :: fs) ++ ('}' :: rest) from by simp]
      obtain ⟨u, hu⟩ := pyReprFields_cons_head k v fs htame.1.1
      rw [hu, List.cons_append, skipWs_cons_of '\'' _ (by decide), ← List.cons_append, ← hu]
      have hud : ∃ u2, pyReprFields ((k, v) :: fs) ++ ('}' :: rest) = '\'' :: u2 := by
        refine ⟨u ++ ('}' :: rest), ?_⟩
        rw [hu]
        simp
      obtain ⟨u2, hu2⟩ := hud
      rw [hu2, litParseObjBody_cons f '\'' u2 (by decide), ← hu2]
      rw [litParseMembers_repr k v fs f rest htame.1.1 htame.1.2 htame.2 (by omega)]
      rfl
termination_by v _ _ _ _ _ => sizeOf v

theorem litParseElems_repr : ∀ (e : Json) (es : List Json) (fuel : Nat) (rest : List Char),
    reprOkV e = true → reprOkElems es = true → boundElems (e :: es) ≤ fuel →
    litParseElems fuel (pyReprElems (e :: es) ++ (']' :: rest)) = some (e :: es, rest)
  | e, [], fuel, rest, hte, _, hb => by
      simp only [boundElems] at hb
      obtain ⟨f, rfl⟩ : ∃ f, fuel = f + 1 := ⟨fuel - 1, by omega⟩
      rw [litParseElems.eq_def]
      show (do
        let p ← litParseVal f (pyReprElems [e] ++ (']' :: rest))
        match skipWs p.2 with
        | ',' :: r2 => do
            let q ← litParseElems f (skipWs r2)
            some (p.1 :: q.1, q.2)
        | ']' :: r2 => some ([p.1], r2)
        | _ => none) = some ([e], rest)
      rw [show pyReprElems [e] = pyReprVal e from rfl]
      rw [litParseVal_repr e f (']' :: rest) hte (by
        have := le_max_left (boundV e) (boundElems ([] : List Json))
        omega) (noDigitHead_cons _ _ (by decide))]
      show (match skipWs (']' :: rest) with
        | ',' :: r2 => do
            let q ← litParseElems f (skipWs r2)
            some (e :: q.1, q.2)
        | ']' :: r2 => some ([e], r2)
        | _ => none) = some ([e], rest)
      rw [skipWs_cons_of ']' rest (by decide)]
      rfl
  | e, e2 :: es, fuel, rest, hte, htes, hb => by
      simp only [boundElems] at hb
      obtain ⟨f, rfl⟩ : ∃ f, fuel = f + 1 := ⟨fuel - 1, by omega⟩
      simp only [reprOkElems, Bool.and_eq_true] at htes
      rw [litParseElems.eq_def]
      show (do
        let p ← litParseVal f (pyReprElems (e :: e2 :: es) ++ (']' :: rest))
        match skipWs p.2 with
        | ',' :: r2 => do
            let q ← litParseElems f (skipWs r2)
            some (p.1 :: q.1, q.2)
        | ']' :: r2 => some ([p.1], r2)
        | _ => none) = some (e :: e2 :: es, rest)
      rw [show pyReprElems (e :: e2 :: es) ++ (']' :: rest)
          = pyReprVal e ++ (',' :: ' ' :: (pyReprElems (e2 :: es) ++ (']' :: rest))) from by
        simp [pyReprElems]]
      rw [litParseVal_repr e f _ hte (by
        have := le_max_left (boundV e) (boundElems (e2 :: es))
        omega) (noDigitHead_cons _ _ (by decide))]
      show (match skipWs (',' :: ' ' :: (pyReprElems (e2 :: es) ++ (']' :: rest))) with
        | ',' :: r2 => do
            let q ← litParseElems f (skipWs r2)
            some (e :: q.1, q.2)
        | ']' :: r2 => some ([e], r2)
        | _ => none) = some (e :: e2 :: es, rest)
      rw [skipWs_cons_of ',' _ (by decide)]
      show (do
        let q ← litParseElems f (skipWs (' ' :: (pyReprElems (e2 :: es) ++ (']' :: rest))))
        some (e :: q.1, q.2)) = some (e :: e2 :: es, rest)
      rw [show skipWs (' ' :: (pyReprElems (e2 :: es) ++ (']' :: rest)))
          = skipWs (pyReprElems (e2 :: es) ++ (']' :: rest)) from by
        simp [skipWs, List.dropWhile, jsonWsChar]]
      obtain ⟨t, hde⟩ := pyReprElems_cons_eq e2 es
      rw [hde, List.append_assoc, skipWs_pyReprVal_append, ← List.append_assoc, ← hde]
      rw [litParseElems_repr e2 es f rest htes.1 htes.2 (by
        rw [boundElems]
        omega)]
      rfl
termination_by e es _ _ _ _ _ => sizeOf e + sizeOf es + 1

theorem litParseMembers_repr : ∀ (k : String) (v : Json) (fs : List (String × Json))
    (fuel : Nat) (rest : List Char),
    k.data.all litChar = true → reprOkV v = true → reprOkFields fs = true →
    boundMembers ((k, v) :: fs) ≤ fuel →
    litParseMembers fuel (pyReprFields ((k, v) :: fs) ++ ('}' :: rest))
      = some ((k, v) :: fs, rest)
  | k, v, [], fuel, rest, htk, htv, _, hb => by
      simp only [boundMembers] at hb
      obtain ⟨f, rfl⟩ : ∃ f, fuel = f + 1 := ⟨fuel - 1, by omega⟩
      have hq := pyReprStrQuote_lit k htk
      rw [show pyReprFields [(k, v)] ++ ('}' :: rest)
          = '\'' :: (k.data.flatMap (reprEscapeChar '\'')
              ++ ('\'' :: (':' :: ' ' :: (pyReprVal v ++ ('}' :: rest))))) from by
        simp [pyReprFields, pyReprStr, hq]]
      rw [litParseMembers_quote_step]
      rw [parseLitStringBody_escaped k.data _ htk]
      show (match skipWs (':' :: ' ' :: (pyReprVal v ++ ('}' :: rest))) with
        | ':' :: r2 => do
            let q ← litParseVal f (skipWs r2)
            match skipWs q.2 with
            | ',' :: r4 => do
                let w ← litParseMembers f (skipWs r4)
                some ((String.mk k.data, q.1) :: w.1, w.2)
            | '}' :: r4 => some ([(String.mk k.data, q.1)], r4)
            | _ => none
        | _ => none) = some ([(k, v)], rest)
      rw [skipWs_cons_of ':' _ (by decide)]
      show (do
        let q ← litParseVal f (skipWs (' ' :: (pyReprVal v ++ ('}' :: rest))))
        match skipWs q.2 with
        | ',' :: r4 => do
            let w ← litParseMembers f (skipWs r4)
            some ((String.mk k.data, q.1) :: w.1, w.2)
        | '}' :: r4 => some ([(String.mk k.data, q.1)], r4)
        | _ => none) = some ([(k, v)], rest)
      rw [show skipWs (' ' :: (pyReprVal v ++ ('}' :: rest)))
          = skipWs (pyReprVal v ++ ('}' :: rest)) from by
        simp [skipWs, List.dropWhile, jsonWsChar]]
      rw [skipWs_pyReprVal_append]
      rw [litParseVal_repr v f ('}' :: rest) htv (by
        have := le_max_left (boundV v) (boundMembers ([] : List (String × Json)))
        omega) (noDigitHead_cons _ _ (by decide))]
      show (match skipWs ('}' :: rest) with
        | ',' :: r4 => do
            let w ← litParseMembers f (skipWs r4)
            some ((String.mk k.data, v) :: w.1, w.2)
        | '}' :: r4 => some ([(String.mk k.data, v)], r4)
        | _ => none) = some ([(k, v)], rest)
      rw [skipWs_cons_of '}' _ (by decide)]
      rw [string_mk_data]
      rfl
  | k, v, (k2, v2) :: fs, fuel, rest, htk, htv, htf, hb => by
      simp only [boundMembers] at hb
      obtain ⟨f, rfl⟩ : ∃ f, fuel = f + 1 := ⟨fuel - 1, by omega⟩
      simp only [reprOkFields, Bool.and_eq_true] at htf
      have hq := pyReprStrQuote_lit k htk
      rw [show pyReprFields ((k, v) :: (k2, v2) :: fs) ++ ('}' :: rest)
          = '\'' :: (k.data.flatMap (reprEscapeChar '\'')
              ++ ('\'' :: (':' :: ' ' :: (pyReprVal v
                ++ (',' :: ' ' :: (pyReprFields ((k2, v2) :: fs)
                  ++ ('}' :: rest))))))) from by
        simp [pyReprFields, pyReprStr, hq]]
      rw [litParseMembers_quote_step]
      rw [parseLitStringBody_escaped k.data _ htk]
      show (match skipWs (':' :: ' ' :: (pyReprVal v
          ++ (',' :: ' ' :: (pyReprFields ((k2, v2) :: fs) ++ ('}' :: rest))))) with
        | ':' :: r2 => do
            let q ← litParseVal f (skipWs r2)
            match skipWs q.2 with
            | ',' :: r4 => do
                let w ← litParseMembers f (skipWs r4)
                some ((String.mk k.data, q.1) :: w.1, w.2)
            | '}' :: r4 => some ([(String.mk k.data, q.1)], r4)
            | _ => none
        | _ => none) = some ((k, v) :: (k2, v2) :: fs, rest)
      rw [skipWs_cons_of ':' _ (by decide)]
      show (do
        let q ← litParseVal f (skipWs (' ' :: (pyReprVal v
          ++ (',' :: ' ' :: (pyReprFields ((k2, v2) :: fs) ++ ('}' :: rest))))))
        match skipWs q.2 with
        | ',' :: r4 => do
            let w ← litParseMembers f (skipWs r4)
            some ((String.mk k.data, q.1) :: w.1, w.2)
        | '}' :: r4 => some ([(String.mk k.data, q.1)], r4)
        | _ => none) = some ((k, v) :: (k2, v2) :: fs, rest)
      rw [show skipWs (' ' :: (pyReprVal v
          ++ (',' :: ' ' :: (pyReprFields ((k2, v2) :: fs) ++ ('}' :: rest)))))
          = skipWs (pyReprVal v
            ++ (',' :: ' ' :: (pyReprFields ((k2, v2) :: fs) ++ ('}' :: rest)))) from by
        simp [skipWs, List.dropWhile, jsonWsChar]]
      rw [skipWs_pyReprVal_append]
      rw [litParseVal_repr v f _ htv (by
        have := le_max_left (boundV v) (boundMembers ((k2, v2) :: fs))
        omega) (noDigitHead_cons _ _ (by decide))]
      show (match skipWs (',' :: ' ' :: (pyReprFields ((k2, v2) :: fs)
          ++ ('}' :: rest))) with
        | ',' :: r4 => do
            let w ← litParseMembers f (skipWs r4)
            some ((String.mk k.data, v) :: w.1, w.2)
        | '}' :: r4 => some ([(String.mk k.data, v)], r4)
        | _ => none) = some ((k, v) :: (k2, v2) :: fs, rest)
      rw [skipWs_cons_of ',' _ (by decide)]
      show (do
        let w ← litParseMembers f (skipWs (' ' :: (pyReprFields ((k2, v2) :: fs)
          ++ ('}' :: rest))))
        some ((String.mk k.data, v) :: w.1, w.2)) = some ((k, v) :: (k2, v2) :: fs, rest)
      rw [show skipWs (' ' :: (pyReprFields ((k2, v2) :: fs) ++ ('}' :: rest)))
          = skipWs (pyReprFields ((k2, v2) :: fs) ++ ('}' :: rest)) from by
        simp [skipWs, List.dropWhile, jsonWsChar]]
      obtain ⟨u, hu⟩ := pyReprFields_cons_head k2 v2 fs htf.1.1
      rw [show skipWs (pyReprFields ((k2, v2) :: fs) ++ ('}' :: rest))
          = pyReprFields ((k2, v2) :: fs) ++ ('}' :: rest) from by
        rw [hu, List.cons_append]
        exact skipWs_cons_of '\'' _ (by decide)]
      rw [litParseMembers_repr k2 v2 fs f rest htf.1.1 htf.1.2 htf.2 (by
        rw [boundMembers]
        omega)]
      rw [string_mk_data]
      rfl
termination_by k v fs _ _ _ _ _ _ => sizeOf v + sizeOf fs + 1

end

theorem pyReprVal_length_pos (v : Json) : 1 ≤ (pyReprVal v).length := by
  obtain ⟨c, cs', heq, -⟩ := pyReprVal_head v
  rw [heq]
  simp

mutual

/-- The parser bound is dominated by twice the `repr` length, so
`literalEval` always supplies sufficient fuel for a `repr` document. -/
theorem boundV_le_repr : ∀ v : Json, boundV v ≤ 2 * (pyReprVal v).length
  | .null => by simp [boundV, pyReprVal]
  | .bool b => by cases b <;> simp [boundV, pyReprVal]
  | .num i => by
      have := pyReprVal_length_pos (.num i)
      simp only [boundV]
      omega
  | .str s => by
      have := pyReprVal_length_pos (.str s)
      simp only [boundV]
      omega
  | .arr es => by
      have h := boundElems_le_repr es
      show boundElems es + 2 ≤ 2 * (pyReprVal (.arr es)).length
      have hlen : (pyReprVal (.arr es)).length = (pyReprElems es).length + 2 := by
        simp [pyReprVal]
      omega
  | .obj fs => by
      have h := boundMembers_le_repr fs
      show boundMembers fs + 2 ≤ 2 * (pyReprVal (.obj fs)).length
      have hlen : (pyReprVal (.obj fs)).length = (pyReprFields fs).length + 2 := by
        simp [pyReprVal]
      omega

theorem boundElems_le_repr :
    ∀ es : List Json, boundElems es ≤ 2 * (pyReprElems es).length + 2
  | [] => by simp [boundElems, pyReprElems]
  | [e] => by
      have h := boundV_le_repr e
      have hp := pyReprVal_length_pos e
      show max (boundV e) (boundElems []) + 1 ≤ 2 * (pyReprElems [e]).length + 2
      rw [show pyReprElems [e] = pyReprVal e from rfl]
      simp only [boundElems]
      omega
  | e :: e2 :: es => by
      have h1 := boundV_le_repr e
      have h2 := boundElems_le_repr (e2 :: es)
      show max (boundV e) (boundElems (e2 :: es)) + 1
        ≤ 2 * (pyReprElems (e :: e2 :: es)).length + 2
      have hlen : (pyReprElems (e :: e2 :: es)).length
          = (pyReprVal e).length + 2 + (pyReprElems (e2 :: es)).length := by
        simp [pyReprElems]
        omega
      omega

theorem boundMembers_le_repr :
    ∀ fs : List (String × Json), boundMembers fs ≤ 2 * (pyReprFields fs).length + 2
  | [] => by simp [boundMembers, pyReprFields]
  | [(k, v)] => by
      have h := boundV_le_repr v
      show max (boundV v) (boundMembers []) + 1 ≤ 2 * (pyReprFields [(k, v)]).length + 2
      have hlen : (pyReprFields [(k, v)]).length
          = (pyReprStr k).length + 2 + (pyReprVal v).length := by
        simp [pyReprFields]
        omega
      simp only [boundMembers]
      omega
  | (k, v) :: (k2, v2) :: fs => by
      have h1 := boundV_le_repr v
      have h2 := boundMembers_le_repr ((k2, v2) :: fs)
      show max (boundV v) (boundMembers ((k2, v2) :: fs)) + 1
        ≤ 2 * (pyReprFields ((k, v) :: (k2, v2) :: fs)).length + 2
      have hlen : (pyReprFields ((k, v) :: (k2, v2) :: fs)).length
          = (pyReprStr k).length + 2 + (pyReprVal v).length + 2
            + (pyReprFields ((k2, v2) :: fs)).length := by
        simp [pyReprFields]
        omega
      omega

end

/-- Round trip of the literal model: `ast.literal_eval` on the `repr` of a
value with `litChar` strings yields the value back. -/
theorem literalEval_pyRepr (v : Json) (h : reprOkV v = true) :
    literalEval (String.mk (pyReprVal v)) = some v := by
  unfold literalEval
  show (match litParseVal (2 * (skipWs (String.mk (pyReprVal v)).data).length + 2)
      (skipWs (String.mk (pyReprVal v)).data) with
    | some p => if (skipWs p.2).isEmpty then some p.1 else none
    | none => none) = some v
  have hdata : (String.mk (pyReprVal v)).data = pyReprVal v := rfl
  obtain ⟨c, cs', heq, hws, -, -, -⟩ := pyReprVal_head v
  have hskip : skipWs (pyReprVal v) = pyReprVal v := by
    rw [heq]
    exact skipWs_cons_of c cs' hws
  rw [hdata, hskip]
  have hbound : boundV v ≤ 2 * (pyReprVal v).length + 2 := by
    have := boundV_le_repr v
    omega
  have hparse := litParseVal_repr v (2 * (pyReprVal v).length + 2) [] h hbound (by decide)
  rw [List.append_nil] at hparse
  rw [hparse]
  rfl

/-! ### C3 analysis: character ranges of the serialized forms

`dumps` and `repr` both emit only characters with code point `≥ 32`
(newlines and control characters inside strings are escaped), which
settles how `strip`, `splitlines` and the fence regex act on them. -/

theorem natCharsAux_mem : ∀ (f n : Nat) (c : Char), c ∈ natCharsAux f n →
    ∃ d, d < 10 ∧ c = digitChar d := by
  intro f
  induction f with
  | zero => intro n c h; simp [natCharsAux] at h
  | succ f ih =>
      intro n c h
      rw [natCharsAux] at h
      by_cases h10 : n < 10
      · rw [if_pos h10] at h
        simp only [List.mem_singleton] at h
        exact ⟨n, h10, h⟩
      · rw [if_neg h10] at h
        rcases List.mem_append.mp h with h1 | h1
        · exact ih _ c h1
        · simp only [List.mem_singleton] at h1
          exact ⟨n % 10, Nat.mod_lt _ (by omega), h1⟩

theorem digitChar_ge32 (d : Nat) (hd : d < 10) : 32 ≤ (digitChar d).toNat := by
  rw [digitChar_toNat d hd]
  omega

theorem intChars_mem (i : Int) (c : Char) (h : c ∈ intChars i) : 32 ≤ c.toNat := by
  cases i with
  | ofNat n =>
      obtain ⟨d, hd, rfl⟩ := natCharsAux_mem _ _ c (by simpa [intChars, natChars] using h)
      exact digitChar_ge32 d hd
  | negSucc n =>
      rcases List.mem_cons.mp (by simpa [intChars] using h) with h1 | h1
      · subst h1; decide
      · obtain ⟨d, hd, rfl⟩ := natCharsAux_mem _ _ c (by simpa [natChars] using h1)
        exact digitChar_ge32 d hd

theorem hexDigitChar_ge32 (d : Nat) (hd : d < 16) : 32 ≤ (hexDigitChar d).toNat := by
  rw [hexDigitChar]
  by_cases h10 : d < 10
  · rw [if_pos h10]
    exact digitChar_ge32 d h10
  · rw [if_neg h10, toNat_ofNat_small _ (by omega)]
    omega

theorem escapeChar_ge32 (c d : Char) (hd : d ∈ escapeChar c) : 32 ≤ d.toNat := by
  by_cases hlow : c.toNat < 32
  · rw [escapeChar] at hd
    have h1 : ¬ c = '"' := char_ne_of_toNat_ne (by intro h; rw [h] at hlow; simp at hlow)
    have h2 : ¬ c = '\\' := char_ne_of_toNat_ne (by intro h; rw [h] at hlow; simp at hlow)
    rw [if_neg h1, if_neg h2] at hd
    by_cases h3 : c = '\n'
    · rw [if_pos h3] at hd
      rcases List.mem_cons.mp hd with rfl | h4
      · decide
      · simp only [List.mem_singleton] at h4; subst h4; decide
    · rw [if_neg h3] at hd
      by_cases h4 : c = '\t'
      · rw [if_pos h4] at hd
        rcases List.mem_cons.mp hd with rfl | h5
        · decide
        · simp only [List.mem_singleton] at h5; subst h5; decide
      · rw [if_neg h4] at hd
        by_cases h5 : c = '\r'
        · rw [if_pos h5] at hd
          rcases List.mem_cons.mp hd with rfl | h6
          · decide
          · simp only [List.mem_singleton] at h6; subst h6; decide
        · rw [if_neg h5] at hd
          by_cases h6 : c = '\x08'
          · rw [if_pos h6] at hd
            rcases List.mem_cons.mp hd with rfl | h7
            · decide
            · simp only [List.mem_singleton] at h7; subst h7; decide
          · rw [if_neg h6] at hd
            by_cases h7 : c = '\x0c'
            · rw [if_pos h7] at hd
              rcases List.mem_cons.mp hd with rfl | h8
              · decide
              · simp only [List.mem_singleton] at h8; subst h8; decide
            · rw [if_neg h7, if_pos hlow] at hd
              rcases List.mem_cons.mp hd with rfl | h8
              · decide
              rcases List.mem_cons.mp h8 with rfl | h9
              · decide
              rcases List.mem_cons.mp h9 with rfl | h10
              · decide
              rcases List.mem_cons.mp h10 with rfl | h11
              · decide
              rcases List.mem_cons.mp h11 with rfl | h12
              · exact hexDigitChar_ge32 _ (by omega)
              simp only [List.mem_singleton] at h12
              subst h12
              exact hexDigitChar_ge32 _ (by omega)
  · rw [escapeChar] at hd
    by_cases h1 : c = '"'
    · rw [if_pos h1] at hd
      rcases List.mem_cons.mp hd with rfl | h2
      · decide
      · simp only [List.mem_singleton] at h2; subst h2; decide
    · rw [if_neg h1] at hd
      by_cases h2 : c = '\\'
      · rw [if_pos h2] at hd
        rcases List.mem_cons.mp hd with rfl | h3
        · decide
        · simp only [List.mem_singleton] at h3; subst h3; decide
      · rw [if_neg h2] at hd
        have h3 : ¬ c = '\n' := char_ne_of_toNat_ne (by intro h; rw [h] at hlow; simp at hlow)
        have h4 : ¬ c = '\t' := char_ne_of_toNat_ne (by intro h; rw [h] at hlow; simp at hlow)
        have h5 : ¬ c = '\r' := char_ne_of_toNat_ne (by intro h; rw [h] at hlow; simp at hlow)
        have h6 : ¬ c = '\x08' :=
          char_ne_of_toNat_ne (by intro h; rw [h] at hlow; simp at hlow)
        have h7 : ¬ c = '\x0c' :=
          char_ne_of_toNat_ne (by intro h; rw [h] at hlow; simp at hlow)
        rw [if_neg h3, if_neg h4, if_neg h5, if_neg h6, if_neg h7, if_neg hlow] at hd
        simp only [List.mem_singleton] at hd
        subst hd
        omega

theorem dumpsStr_ge32 (s : String) (c : Char) (h : c ∈ dumpsStr s) : 32 ≤ c.toNat := by
  rw [dumpsStr] at h
  rcases List.mem_cons.mp h with rfl | h1
  · decide
  rcases List.mem_append.mp h1 with h2 | h2
  · obtain ⟨x, -, hx⟩ := List.mem_flatMap.mp h2
    exact escapeChar_ge32 x c hx
  · simp only [List.mem_singleton] at h2; subst h2; decide

mutual

theorem dumpsVal_ge32 : ∀ (v : Json) (c : Char), c ∈ dumpsVal v → 32 ≤ c.toNat
  | .null, c, h => by
      simp only [dumpsVal, List.mem_cons, List.not_mem_nil, or_false] at h
      rcases h with rfl | rfl | rfl | rfl <;> decide
  | .bool true, c, h => by
      simp only [dumpsVal, List.mem_cons, List.not_mem_nil, or_false] at h
      rcases h with rfl | rfl | rfl | rfl <;> decide
  | .bool false, c, h => by
      simp only [dumpsVal, List.mem_cons, List.not_mem_nil, or_false] at h
      rcases h with rfl | rfl | rfl | rfl | rfl <;> decide
  | .num i, c, h => intChars_mem i c (by simpa [dumpsVal] using h)
  | .str s, c, h => dumpsStr_ge32 s c (by simpa [dumpsVal] using h)
  | .arr es, c, h => by
      rw [show dumpsVal (.arr es) = '[' :: (dumpsElems es ++ [']']) from rfl] at h
      rcases List.mem_cons.mp h with rfl | h1
      · decide
      rcases List.mem_append.mp h1 with h2 | h2
      · exact dumpsElems_ge32 es c h2
      · simp only [List.mem_singleton] at h2; subst h2; decide
  | .obj fs, c, h => by
      rw [show dumpsVal (.obj fs) = '{' :: (dumpsFields fs ++ ['}']) from rfl] at h
      rcases List.mem_cons.mp h with rfl | h1
      · decide
      rcases List.mem_append.mp h1 with h2 | h2
      · exact dumpsFields_ge32 fs c h2
      · simp only [List.mem_singleton] at h2; subst h2; decide
termination_by v _ _ => sizeOf v

theorem dumpsElems_ge32 : ∀ (es : List Json) (c : Char), c ∈ dumpsElems es → 32 ≤ c.toNat
  | [], c, h => by simp [dumpsElems] at h
  | [e], c, h => dumpsVal_ge32 e c (by simpa [dumpsElems] using h)
  | e :: e2 :: es, c, h => by
      rw [show dumpsElems (e :: e2 :: es)
          = dumpsVal e ++ (',' :: ' ' :: dumpsElems (e2 :: es)) from rfl] at h
      rcases List.mem_append.mp h with h1 | h1
      · exact dumpsVal_ge32 e c h1
      rcases List.mem_cons.mp h1 with rfl | h2
      · decide
      rcases List.mem_cons.mp h2 with rfl | h3
      · decide
      · exact dumpsElems_ge32 (e2 :: es) c h3
termination_by es _ _ => sizeOf es

theorem dumpsFields_ge32 :
    ∀ (fs : List (String × Json)) (c : Char), c ∈ dumpsFields fs → 32 ≤ c.toNat
  | [], c, h => by simp [dumpsFields] at h
  | [(k, v)], c, h => by
      rw [show dumpsFields [(k, v)] = dumpsStr k ++ (':' :: ' ' :: dumpsVal v) from rfl] at h
      rcases List.mem_append.mp h with h1 | h1
      · exact dumpsStr_ge32 k c h1
      rcases List.mem_cons.mp h1 with rfl | h2
      · decide
      rcases List.mem_cons.mp h2 with rfl | h3
      · decide
      · exact dumpsVal_ge32 v c h3
  | (k, v) :: (k2, v2) :: fs, c, h => by
      rw [show dumpsFields ((k, v) :: (k2, v2) :: fs)
          = (dumpsStr k ++ (':' :: ' ' :: dumpsVal v))
            ++ (',' :: ' ' :: dumpsFields ((k2, v2) :: fs)) from rfl] at h
      rcases List.mem_append.mp h with h1 | h1
      · rcases List.mem_append.mp h1 with h2 | h2
        · exact dumpsStr_ge32 k c h2
        rcases List.mem_cons.mp h2 with rfl | h3
        · decide
        rcases List.mem_cons.mp h3 with rfl | h4
        · decide
        · exact dumpsVal_ge32 v c h4
      rcases List.mem_cons.mp h1 with rfl | h2
      · decide
      rcases List.mem_cons.mp h2 with rfl | h3
      · decide
      · exact dumpsFields_ge32 ((k2, v2) :: fs) c h3
termination_by fs _ _ => sizeOf fs

end

theorem reprEscapeChar_ge32 (q c d : Char) (hq : 32 ≤ q.toNat)
    (hd : d ∈ reprEscapeChar q c) : 32 ≤ d.toNat := by
  rw [reprEscapeChar] at hd
  by_cases h1 : c = '\\'
  · rw [if_pos h1] at hd
    rcases List.mem_cons.mp hd with rfl | h2
    · decide
    · simp only [List.mem_singleton] at h2; subst h2; decide
  · rw [if_neg h1] at hd
    by_cases h2 : c = q
    · rw [if_pos h2] at hd
      rcases List.mem_cons.mp hd with rfl | h3
      · decide
      · simp only [List.mem_singleton] at h3; subst h3; exact hq
    · rw [if_neg h2] at hd
      by_cases h3 : c = '\n'
      · rw [if_pos h3] at hd
        rcases List.mem_cons.mp hd with rfl | h4
        · decide
        · simp only [List.mem_singleton] at h4; subst h4; decide
      · rw [if_neg h3] at hd
        by_cases h4 : c = '\r'
        · rw [if_pos h4] at hd
          rcases List.mem_cons.mp hd with rfl | h5
          · decide
          · simp only [List.mem_singleton] at h5; subst h5; decide
        · rw [if_neg h4] at hd
          by_cases h5 : c = '\t'
          · rw [if_pos h5] at hd
            rcases List.mem_cons.mp hd with rfl | h6
            · decide
            · simp only [List.mem_singleton] at h6; subst h6; decide
          · rw [if_neg h5] at hd
            by_cases h6 : c.toNat < 32 ∨ c.toNat = 127
            · rw [if_pos h6] at hd
              rcases List.mem_cons.mp hd with rfl | h7
              · decide
              rcases List.mem_cons.mp h7 with rfl | h8
              · decide
              rcases List.mem_cons.mp h8 with rfl | h9
              · exact hexDigitChar_ge32 _ (by omega)
              simp only [List.mem_singleton] at h9
              subst h9
              exact hexDigitChar_ge32 _ (by omega)
            · rw [if_neg h6] at hd
              simp only [List.mem_singleton] at hd
              subst hd
              omega

theorem pyReprStrQuote_ge32 (s : String) : 32 ≤ (pyReprStrQuote s).toNat := by
  rw [pyReprStrQuote]
  split <;> decide

theorem pyReprStr_ge32 (s : String) (c : Char) (h : c ∈ pyReprStr s) : 32 ≤ c.toNat := by
  rw [pyReprStr] at h
  rcases List.mem_cons.mp h with rfl | h1
  · exact pyReprStrQuote_ge32 s
  rcases List.mem_append.mp h1 with h2 | h2
  · obtain ⟨x, -, hx⟩ := List.mem_flatMap.mp h2
    exact reprEscapeChar_ge32 _ x c (pyReprStrQuote_ge32 s) hx
  · simp only [List.mem_singleton] at h2
    subst h2
    exact pyReprStrQuote_ge32 s

mutual

theorem pyReprVal_ge32 : ∀ (v : Json) (c : Char), c ∈ pyReprVal v → 32 ≤ c.toNat
  | .null, c, h => by
      simp only [pyReprVal, List.mem_cons, List.not_mem_nil, or_false] at h
      rcases h with rfl | rfl | rfl | rfl <;> decide
  | .bool true, c, h => by
      simp only [pyReprVal, List.mem_cons, List.not_mem_nil, or_false] at h
      rcases h with rfl | rfl | rfl | rfl <;> decide
  | .bool false, c, h => by
      simp only [pyReprVal, List.mem_cons, List.not_mem_nil, or_false] at h
      rcases h with rfl | rfl | rfl | rfl | rfl <;> decide
  | .num i, c, h => intChars_mem i c (by simpa [pyReprVal] using h)
  | .str s, c, h => pyReprStr_ge32 s c (by simpa [pyReprVal] using h)
  | .arr es, c, h => by
      rw [show pyReprVal (.arr es) = '[' :: (pyReprElems es ++ [']']) from rfl] at h
      rcases List.mem_cons.mp h with rfl | h1
      · decide
      rcases List.mem_append.mp h1 with h2 | h2
      · exact pyReprElems_ge32 es c h2
      · simp only [List.mem_singleton] at h2; subst h2; decide
  | .obj fs, c, h => by
      rw [show pyReprVal (.obj fs) = '{' :: (pyReprFields fs ++ ['}']) from rfl] at h
      rcases List.mem_cons.mp h with rfl | h1
      · decide
      rcases List.mem_append.mp h1 with h2 | h2
      · exact pyReprFields_ge32 fs c h2
      · simp only [List.mem_singleton] at h2; subst h2; decide
termination_by v _ _ => sizeOf v

theorem pyReprElems_ge32 : ∀ (es : List Json) (c : Char), c ∈ pyReprElems es → 32 ≤ c.toNat
  | [], c, h => by simp [pyReprElems] at h
  | [e], c, h => pyReprVal_ge32 e c (by simpa [pyReprElems] using h)
  | e :: e2 :: es, c, h => by
      rw [show pyReprElems (e :: e2 :: es)
          = pyReprVal e ++ (',' :: ' ' :: pyReprElems (e2 :: es)) from rfl] at h
      rcases List.mem_append.mp h with h1 | h1
      · exact pyReprVal_ge32 e c h1
      rcases List.mem_cons.mp h1 with rfl | h2
      · decide
      rcases List.mem_cons.mp h2 with rfl | h3
      · decide
      · exact pyReprElems_ge32 (e2 :: es) c h3
termination_by es _ _ => sizeOf es

theorem pyReprFields_ge32 :
    ∀ (fs : List (String × Json)) (c : Char), c ∈ pyReprFields fs → 32 ≤ c.toNat
  | [], c, h => by simp [pyReprFields] at h
  | [(k, v)], c, h => by
      rw [show pyReprFields [(k, v)]
          = pyReprStr k ++ (':' :: ' ' :: pyReprVal v) from rfl] at h
      rcases List.mem_append.mp h with h1 | h1
      · exact pyReprStr_ge32 k c h1
      rcases List.mem_cons.mp h1 with rfl | h2
      · decide
      rcases List.mem_cons.mp h2 with rfl | h3
      · decide
      · exact pyReprVal_ge32 v c h3
  | (k, v) :: (k2, v2) :: fs, c, h => by
      rw [show pyReprFields ((k, v) :: (k2, v2) :: fs)
          = (pyReprStr k ++ (':' :: ' ' :: pyReprVal v))
            ++ (',' :: ' ' :: pyReprFields ((k2, v2) :: fs)) from rfl] at h
      rcases List.mem_append.mp h with h1 | h1
      · rcases List.mem_append.mp h1 with h2 | h2
        · exact pyReprStr_ge32 k c h2
        rcases List.mem_cons.mp h2 with rfl | h3
        · decide
        rcases List.mem_cons.mp h3 with rfl | h4
        · decide
        · exact pyReprVal_ge32 v c h4
      rcases List.mem_cons.mp h1 with rfl | h2
      · decide
      rcases List.mem_cons.mp h2 with rfl | h3
      · decide
      · exact pyReprFields_ge32 ((k2, v2) :: fs) c h3
termination_by fs _ _ => sizeOf fs

end

/-! ### C3 analysis: last characters, `strip` and `splitlines` identities -/

theorem pyIsSpace_eq_false_of_ge33 (c : Char) (h : 33 ≤ c.toNat) :
    pyIsSpace c = false := by
  simp only [pyIsSpace, Bool.or_eq_false_iff, beq_eq_false_iff_ne, ne_eq]
  refine ⟨⟨⟨⟨⟨?_, ?_⟩, ?_⟩, ?_⟩, ?_⟩, ?_⟩ <;>
    exact char_ne_of_toNat_ne (by simp; omega)

theorem natChars_last (n : Nat) :
    ∃ d, d < 10 ∧ (natChars n).getLast? = some (digitChar d) := by
  rw [natChars, natCharsAux]
  by_cases h10 : n < 10
  · rw [if_pos h10]
    exact ⟨n, h10, rfl⟩
  · rw [if_neg h10]
    exact ⟨n % 10, Nat.mod_lt _ (by omega), List.getLast?_concat _⟩

theorem dumpsVal_last (v : Json) :
    ∃ c, (dumpsVal v).getLast? = some c ∧ pyIsSpace c = false := by
  cases v with
  | null => exact ⟨'l', rfl, by decide⟩
  | bool b => cases b with
      | true => exact ⟨'e', rfl, by decide⟩
      | false => exact ⟨'e', rfl, by decide⟩
  | num i =>
      cases i with
      | ofNat n =>
          obtain ⟨d, hd, hl⟩ := natChars_last n
          refine ⟨digitChar d, by simpa [dumpsVal, intChars] using hl, ?_⟩
          exact pyIsSpace_eq_false_of_ge33 _ (by rw [digitChar_toNat d hd]; omega)
      | negSucc n =>
          obtain ⟨d, hd, hl⟩ := natChars_last (n + 1)
          obtain ⟨d0, tail, hd0, hnc⟩ := natChars_head (n + 1)
          refine ⟨digitChar d, ?_, ?_⟩
          · show (('-' :: natChars (n + 1)).getLast? = some (digitChar d))
            rw [show ('-' :: natChars (n + 1)) = ['-'] ++ natChars (n + 1) from rfl]
            rw [List.getLast?_append, hl]
            rfl
          · exact pyIsSpace_eq_false_of_ge33 _ (by rw [digitChar_toNat d hd]; omega)
  | str s =>
      refine ⟨'"', ?_, by decide⟩
      show (('"' :: (s.data.flatMap escapeChar ++ ['"'])).getLast? = some '"')
      rw [show '"' :: (s.data.flatMap escapeChar ++ ['"'])
          = ('"' :: s.data.flatMap escapeChar) ++ ['"'] from by simp]
      exact List.getLast?_concat _
  | arr es =>
      refine ⟨']', ?_, by decide⟩
      show (('[' :: (dumpsElems es ++ [']'])).getLast? = some ']')
      rw [show '[' :: (dumpsElems es ++ [']']) = ('[' :: dumpsElems es) ++ [']'] from by simp]
      exact List.getLast?_concat _
  | obj fs =>
      refine ⟨'}', ?_, by decide⟩
      show (('{' :: (dumpsFields fs ++ ['}'])).getLast? = some '}')
      rw [show '{' :: (dumpsFields fs ++ ['}']) = ('{' :: dumpsFields fs) ++ ['}'] from by simp]
      exact List.getLast?_concat _

theorem pyReprVal_last (v : Json) :
    ∃ c, (pyReprVal v).getLast? = some c ∧ pyIsSpace c = false ∧ ¬ c = '{' := by
  cases v with
  | null => exact ⟨'e', rfl, by decide, by decide⟩
  | bool b => cases b with
      | true => exact ⟨'e', rfl, by decide, by decide⟩
      | false => exact ⟨'e', rfl, by decide, by decide⟩
  | num i =>
      cases i with
      | ofNat n =>
          obtain ⟨d, hd, hl⟩ := natChars_last n
          refine ⟨digitChar d, by simpa [pyReprVal, intChars] using hl, ?_, ?_⟩
          · exact pyIsSpace_eq_false_of_ge33 _ (by rw [digitChar_toNat d hd]; omega)
          · exact char_ne_of_toNat_ne (by rw [digitChar_toNat d hd]; simp; omega)
      | negSucc n =>
          obtain ⟨d, hd, hl⟩ := natChars_last (n + 1)
          obtain ⟨d0, tail, hd0, hnc⟩ := natChars_head (n + 1)
          refine ⟨digitChar d, ?_, ?_, ?_⟩
          · show (('-' :: natChars (n + 1)).getLast? = some (digitChar d))
            rw [show ('-' :: natChars (n + 1)) = ['-'] ++ natChars (n + 1) from rfl]
            rw [List.getLast?_append, hl]
            rfl
          · exact pyIsSpace_eq_false_of_ge33 _ (by rw [digitChar_toNat d hd]; omega)
          · exact char_ne_of_toNat_ne (by rw [digitChar_toNat d hd]; simp; omega)
  | str s =>
      refine ⟨pyReprStrQuote s, ?_, ?_, ?_⟩
      · show ((pyReprStrQuote s
            :: (s.data.flatMap (reprEscapeChar (pyReprStrQuote s)) ++ [pyReprStrQuote s])).getLast?
          = some (pyReprStrQuote s))
        rw [show pyReprStrQuote s
              :: (s.data.flatMap (reprEscapeChar (pyReprStrQuote s)) ++ [pyReprStrQuote s])
            = (pyReprStrQuote s :: s.data.flatMap (reprEscapeChar (pyReprStrQuote s)))
              ++ [pyReprStrQuote s] from by simp]
        exact List.getLast?_concat _
      · rw [pyReprStrQuote]; split <;> decide
      · rw [pyReprStrQuote]; split <;> decide
  | arr es =>
      refine ⟨']', ?_, by decide, by decide⟩
      show (('[' :: (pyReprElems es ++ [']'])).getLast? = some ']')
      rw [show '[' :: (pyReprElems es ++ [']'])
          = ('[' :: pyReprElems es) ++ [']'] from by simp]
      exact List.getLast?_concat _
  | obj fs =>
      refine ⟨'}', ?_, by decide, by decide⟩
      show (('{' :: (pyReprFields fs ++ ['}'])).getLast? = some '}')
      rw [show '{' :: (pyReprFields fs ++ ['}'])
          = ('{' :: pyReprFields fs) ++ ['}'] from by simp]
      exact List.getLast?_concat _

/-- `strip` is the identity on a list with non-space first and last
characters. -/
theorem pyStripList_id (cs : List Char) (a b : Char)
    (ha : cs.head? = some a) (hpa : pyIsSpace a = false)
    (hb : cs.getLast? = some b) (hpb : pyIsSpace b = false) :
    pyStripList cs = cs := by
  cases cs with
  | nil => simp at ha
  | cons c t =>
      have hac : c = a := by simpa using ha
      subst hac
      rw [pyStripList]
      rw [show (c :: t).dropWhile pyIsSpace = c :: t from by
        rw [List.dropWhile_cons, hpa]
        simp]
      have hrev : (c :: t).reverse.head? = some b := by
        rw [List.head?_reverse]
        exact hb
      cases hrv : (c :: t).reverse with
      | nil => rw [hrv] at hrev; simp at hrev
      | cons b' u =>
          rw [hrv] at hrev
          have hbc : b' = b := by simpa using hrev
          subst hbc
          rw [show (b' :: u).dropWhile pyIsSpace = b' :: u from by
            rw [List.dropWhile_cons, hpb]
            simp]
          rw [← hrv, List.reverse_reverse]

theorem pyStrip_dumps (v : Json) : pyStrip (dumps v) = dumps v := by
  obtain ⟨c, cs', hh, hws, -⟩ := dumpsVal_head v
  obtain ⟨b, hbl, hbs⟩ := dumpsVal_last v
  have hph : pyIsSpace c = false := by
    have h32 : 32 ≤ c.toNat := dumpsVal_ge32 v c (by rw [hh]; exact List.mem_cons_self _ _)
    by_cases h33 : 33 ≤ c.toNat
    · exact pyIsSpace_eq_false_of_ge33 c h33
    · have : c = ' ' := char_eq_of_toNat_eq (by simp; omega)
      subst this
      exact absurd hws (by decide)
  show String.mk (pyStripList (dumpsVal v)) = String.mk (dumpsVal v)
  rw [pyStripList_id (dumpsVal v) c b (by rw [hh]; rfl) hph hbl hbs]

theorem splitAtSub_fence_none (cs : List Char) (h : ∀ c ∈ cs, ¬ c = backquote) :
    splitAtSub cs fenceChars = none := by
  induction cs with
  | nil => simp [splitAtSub, fenceChars]
  | cons c cs ih =>
      rw [splitAtSub]
      have hsw : listStartsWith (c :: cs) fenceChars = false := by
        rw [fenceChars, listStartsWith]
        have : (c == backquote) = false := by
          simp only [beq_eq_false_iff_ne, ne_eq]
          exact h c (List.mem_cons_self c cs)
        rw [this]
        rfl
      rw [if_neg (by simp [hsw])]
      rw [ih (fun x hx => h x (List.mem_cons_of_mem c hx))]
      rfl

/-- The fence regex does not match backquote-free text: `_strip_code_fences`
reduces to `strip`. -/
theorem stripCodeFences_eq_strip (text : String)
    (h : ∀ c ∈ text.data, ¬ c = backquote) :
    stripCodeFences text = pyStrip text := by
  rw [stripCodeFences, splitAtSub_fence_none _ h]

theorem splitOnNl_no_nl (cs : List Char) (h : ∀ c ∈ cs, ¬ c = '\n') :
    splitOnNl cs = [cs] := by
  induction cs with
  | nil => rfl
  | cons c cs ih =>
      rw [splitOnNl, if_neg (h c (List.mem_cons_self c cs))]
      rw [ih (fun x hx => h x (List.mem_cons_of_mem c hx))]

theorem splitOnNl_append_nl (xs rest : List Char) (h : ∀ c ∈ xs, ¬ c = '\n') :
    splitOnNl (xs ++ '\n' :: rest) = xs :: splitOnNl rest := by
  induction xs with
  | nil =>
      simp only [List.nil_append]
      rw [splitOnNl, if_pos rfl]
  | cons c xs ih =>
      rw [List.cons_append, splitOnNl, if_neg (h c (List.mem_cons_self c xs))]
      rw [ih (fun x hx => h x (List.mem_cons_of_mem c hx))]

/-! ### C3 analysis: parser failures and the stream unwrapper -/

/-- `parseVal` rejects any head character that starts no JSON token. -/
theorem parseVal_badHead (f : Nat) (c : Char) (cs : List Char)
    (h1 : ¬ c = '"') (h2 : ¬ c = '[') (h3 : ¬ c = '{') (h4 : ¬ c = 't')
    (h5 : ¬ c = 'f') (h6 : ¬ c = 'n') (h7 : ¬ c = '-') (h8 : isDigitChar c = false) :
    parseVal f (c :: cs) = none := by
  cases f with
  | zero => rfl
  | succ f =>
      rw [parseVal.eq_def]
      simp [h1, h2, h3, h4, h5, h6, h7, h8]

theorem jsonLoads_badHead (s : String) (c : Char) (cs : List Char)
    (hdata : s.data = c :: cs) (hws : jsonWsChar c = false)
    (h1 : ¬ c = '"') (h2 : ¬ c = '[') (h3 : ¬ c = '{') (h4 : ¬ c = 't')
    (h5 : ¬ c = 'f') (h6 : ¬ c = 'n') (h7 : ¬ c = '-') (h8 : isDigitChar c = false) :
    jsonLoads s = none := by
  simp only [jsonLoads]
  rw [hdata, skipWs_cons_of c cs hws,
    parseVal_badHead _ c cs h1 h2 h3 h4 h5 h6 h7 h8]

/-- `parseMembers` rejects a single-quoted key. -/
theorem parseMembers_squote_none (f : Nat) (cs : List Char) :
    parseMembers f ('\'' :: cs) = none := by
  cases f with
  | zero => rfl
  | succ f =>
      rw [parseMembers.eq_def]
      simp

theorem parseObjBody_squote_none (f : Nat) (cs : List Char) :
    parseObjBody f ('\'' :: cs) = none := by
  cases f with
  | zero => rfl
  | succ f =>
      rw [show parseObjBody (f + 1) ('\'' :: cs)
          = (fun p => (Json.obj p.1, p.2)) <$> parseMembers f ('\'' :: cs) from
        parseObjBody_cons f '\'' cs (by decide)]
      rw [parseMembers_squote_none]
      rfl

/-- A document starting `\x7b'` (a single-quoted Python dict) fails
`json.loads`. -/
theorem parseVal_braceQuote_none (f : Nat) (cs : List Char) :
    parseVal f ('{' :: '\'' :: cs) = none := by
  cases f with
  | zero => rfl
  | succ f =>
      rw [parseVal_obj_step, skipWs_cons_of '\'' cs (by decide),
        parseObjBody_squote_none]

theorem jsonLoads_braceQuote (s : String) (cs : List Char)
    (hdata : s.data = '{' :: '\'' :: cs) : jsonLoads s = none := by
  simp only [jsonLoads]
  rw [hdata, skipWs_cons_of '{' _ (by decide), parseVal_braceQuote_none]

/-- A document starting `[\x7b'` (a single-quoted Python list of dicts)
fails `json.loads`. -/
theorem jsonLoads_listBraceQuote (s : String) (cs : List Char)
    (hdata : s.data = '[' :: '{' :: '\'' :: cs) : jsonLoads s = none := by
  simp only [jsonLoads]
  rw [hdata, skipWs_cons_of '[' _ (by decide)]
  have hval : ∀ f, parseVal f ('[' :: '{' :: '\'' :: cs) = none := by
    intro f
    cases f with
    | zero => rfl
    | succ f =>
        rw [parseVal_arr_step, skipWs_cons_of '{' _ (by decide)]
        cases f with
        | zero => rfl
        | succ f =>
            rw [show parseArrBody (f + 1) ('{' :: '\'' :: cs)
                = (fun p => (Json.arr p.1, p.2)) <$> parseElems f ('{' :: '\'' :: cs)
              from parseArrBody_cons f '{' _ (by decide)]
            rw [show parseElems f ('{' :: '\'' :: cs) = none from by
              cases f with
              | zero => rfl
              | succ f =>
                  rw [parseElems.eq_def]
                  show (do
                    let p ← parseVal f ('{' :: '\'' :: cs)
                    match skipWs p.2 with
                    | ',' :: r2 => do
                        let q ← parseElems f (skipWs r2)
                        some (p.1 :: q.1, q.2)
                    | ']' :: r2 => some ([p.1], r2)
                    | _ => none) = none
                  rw [parseVal_braceQuote_none]
                  rfl]
            rfl
  rw [hval]

/-- `_extract_text` finds nothing in an object whose only key is
`"tasks"`. -/
theorem extractText_tasks (f : Nat) (v : Json) :
    extractText (f + 1) (Json.obj [("tasks", v)]) = "" := by
  rw [extractText.eq_def]
  simp [jsonGet, nonemptyStr, extractNested]

theorem pyStripList_of_strip_id (s : String) (h : pyStrip s = s) :
    pyStripList s.data = s.data := by
  have h2 := congrArg String.data h
  simpa [pyStrip] using h2

/-- A single-line payload that is no JSON object passes through
`_unwrap_provider_stream_payload` unchanged. -/
theorem unwrap_single_line_id (raw : String) (c : Char) (cs : List Char)
    (hdata : raw.data = c :: cs)
    (hstrip : pyStrip raw = raw)
    (hnonl : ∀ x ∈ raw.data, ¬ x = '\n')
    (hnotobj : ∀ fs, ¬ jsonLoads raw = some (Json.obj fs))
    (hnd : ¬ c = 'd')
    (hdone1 : ¬ raw.data = ['[', 'D', 'O', 'N', 'E', ']'])
    (hdone2 : ¬ raw.data = ['D', 'O', 'N', 'E'])
    (hnbrace : ¬ c = '{') :
    unwrapProviderStreamPayload raw = raw := by
  simp only [unwrapProviderStreamPayload]
  rw [hstrip]
  rw [if_neg (by rw [hdata]; simp)]
  rw [if_neg (by rw [hdata]; simp)]
  have hsingle : (match jsonLoads raw with
      | some (Json.obj fs) =>
          let extracted := extractText (boundV (Json.obj fs)) (Json.obj fs)
          if (pyStrip extracted).data.isEmpty then none else some extracted
      | _ => none) = (none : Option String) := by
    cases hjl : jsonLoads raw with
    | none => rfl
    | some v =>
        cases v with
        | obj fs => exact absurd hjl (hnotobj fs)
        | null => rfl
        | bool b => rfl
        | num i => rfl
        | str s => rfl
        | arr es => rfl
  rw [hsingle]
  show (let lines := ((splitOnNl raw.data).map pyStripList).filter (fun l => !l.isEmpty)
    if lines.isEmpty then raw else unwrapLines raw lines false []) = raw
  rw [splitOnNl_no_nl raw.data hnonl]
  simp only [List.map_cons, List.map_nil]
  rw [pyStripList_of_strip_id raw hstrip]
  rw [show List.filter (fun l => !l.isEmpty) [raw.data] = [raw.data] from by
    rw [List.filter_cons]
    rw [hdata]
    simp]
  rw [if_neg (by simp)]
  rw [unwrapLines]
  rw [show listStartsWith raw.data ['d', 'a', 't', 'a', ':'] = false from by
    rw [hdata, listStartsWith]
    have : (c == 'd') = false := by simpa using hnd
    rw [this]
    rfl]
  show (if raw.data = ['[', 'D', 'O', 'N', 'E', ']'] ∨ raw.data = ['D', 'O', 'N', 'E'] then
      unwrapLines raw [] false []
    else if ¬ (raw.data.head? = some '{' ∧ raw.data.getLast? = some '}') then raw
    else _) = raw
  rw [if_neg (not_or.mpr ⟨hdone1, hdone2⟩)]
  rw [if_pos]
  intro hconj
  apply hnbrace
  have h1 := hconj.1
  rw [hdata] at h1
  simpa using h1

/-- A single-line JSON-object payload from which `_extract_text` recovers
nothing passes through `_unwrap_provider_stream_payload` unchanged. -/
theorem unwrap_single_line_obj_id (raw : String) (fs : List (String × Json))
    (cs : List Char)
    (hdata : raw.data = '{' :: cs)
    (hlast : raw.data.getLast? = some '}')
    (hstrip : pyStrip raw = raw)
    (hnonl : ∀ x ∈ raw.data, ¬ x = '\n')
    (hobj : jsonLoads raw = some (Json.obj fs))
    (hext : extractText (boundV (Json.obj fs)) (Json.obj fs) = "")
    (hdone1 : ¬ raw.data = ['[', 'D', 'O', 'N', 'E', ']'])
    (hdone2 : ¬ raw.data = ['D', 'O', 'N', 'E']) :
    unwrapProviderStreamPayload raw = raw := by
  simp only [unwrapProviderStreamPayload]
  rw [hstrip]
  rw [if_neg (by rw [hdata]; simp)]
  rw [if_neg (by rw [hdata]; simp)]
  have hsingle : (match jsonLoads raw with
      | some (Json.obj fs) =>
          let extracted := extractText (boundV (Json.obj fs)) (Json.obj fs)
          if (pyStrip extracted).data.isEmpty then none else some extracted
      | _ => none) = (none : Option String) := by
    rw [hobj]
    show (if (pyStrip (extractText (boundV (Json.obj fs)) (Json.obj fs))).data.isEmpty
        then none
      else some (extractText (boundV (Json.obj fs)) (Json.obj fs))) = none
    rw [hext]
    rfl
  rw [hsingle]
  show (let lines := ((splitOnNl raw.data).map pyStripList).filter (fun l => !l.isEmpty)
    if lines.isEmpty then raw else unwrapLines raw lines false []) = raw
  rw [splitOnNl_no_nl raw.data hnonl]
  simp only [List.map_cons, List.map_nil]
  rw [pyStripList_of_strip_id raw hstrip]
  rw [show List.filter (fun l => !l.isEmpty) [raw.data] = [raw.data] from by
    rw [List.filter_cons]
    rw [hdata]
    simp]
  rw [if_neg (by simp)]
  rw [unwrapLines]
  rw [show listStartsWith raw.data ['d', 'a', 't', 'a', ':'] = false from by
    rw [hdata, listStartsWith]
    rfl]
  show (if raw.data = ['[', 'D', 'O', 'N', 'E', ']'] ∨ raw.data = ['D', 'O', 'N', 'E'] then
      unwrapLines raw [] false []
    else if ¬ (raw.data.head? = some '{' ∧ raw.data.getLast? = some '}') then raw
    else
      match jsonLoads (String.mk raw.data) with
      | some (Json.obj fs) =>
          let extracted := extractText (boundV (Json.obj fs)) (Json.obj fs)
          unwrapLines raw [] true (if extracted = "" then [] else extracted :: [])
      | _ => raw) = raw
  rw [if_neg (not_or.mpr ⟨hdone1, hdone2⟩)]
  rw [if_neg (not_not_intro ⟨by rw [hdata]; rfl, hlast⟩)]
  rw [string_mk_data raw, hobj]
  show unwrapLines raw [] true
    (if extractText (boundV (Json.obj fs)) (Json.obj fs) = "" then []
      else extractText (boundV (Json.obj fs)) (Json.obj fs) :: []) = raw
  rw [hext]
  rw [if_pos rfl]
  rw [unwrapLines]
  rfl

/-- The object document `\x7b"tasks": [...]\x7d` passes through the stream
unwrapper unchanged: `"tasks"` is not one of the envelope keys
`_extract_text` looks at. -/
theorem unwrap_tasks_obj (items : List Json)
    (ht : tameV (Json.obj [("tasks", Json.arr items)]) = true) :
    unwrapProviderStreamPayload (dumps (Json.obj [("tasks", Json.arr items)]))
      = dumps (Json.obj [("tasks", Json.arr items)]) := by
  have hjl : jsonLoads (dumps (Json.obj [("tasks", Json.arr items)]))
      = some (Json.obj [("tasks", Json.arr items)]) := jsonLoads_dumps _ ht
  have hext : extractText (boundV (Json.obj [("tasks", Json.arr items)]))
      (Json.obj [("tasks", Json.arr items)]) = "" := by
    rw [show boundV (Json.obj [("tasks", Json.arr items)])
        = (boundMembers [("tasks", Json.arr items)] + 1) + 1 from rfl]
    exact extractText_tasks _ _
  have hnonl : ∀ x ∈ (dumps (Json.obj [("tasks", Json.arr items)])).data, ¬ x = '\n' := by
    intro x hx heq
    subst heq
    have h32 := dumpsVal_ge32 (Json.obj [("tasks", Json.arr items)]) _ hx
    exact absurd h32 (by decide)
  have hlast : (dumps (Json.obj [("tasks", Json.arr items)])).data.getLast? = some '}' := by
    show (('{' :: (dumpsFields [("tasks", Json.arr items)] ++ ['}'])).getLast? = some '}')
    rw [show '{' :: (dumpsFields [("tasks", Json.arr items)] ++ ['}'])
        = ('{' :: dumpsFields [("tasks", Json.arr items)]) ++ ['}'] from by simp]
    exact List.getLast?_concat _
  refine unwrap_single_line_obj_id _ [("tasks", Json.arr items)]
    (dumpsFields [("tasks", Json.arr items)] ++ ['}']) rfl hlast
    (pyStrip_dumps _) hnonl hjl hext ?_ ?_
  · intro heq
    have hde : dumps (Json.obj [("tasks", Json.arr items)]) = "[DONE]" := by
      rw [← string_mk_data (dumps (Json.obj [("tasks", Json.arr items)])), heq]
    rw [hde, show jsonLoads "[DONE]" = none from by decide] at hjl
    exact Option.noConfusion hjl
  · intro heq
    have hde : dumps (Json.obj [("tasks", Json.arr items)]) = "DONE" := by
      rw [← string_mk_data (dumps (Json.obj [("tasks", Json.arr items)])), heq]
    rw [hde, show jsonLoads "DONE" = none from by decide] at hjl
    exact Option.noConfusion hjl

/-- The representation "`A` wrapped in markdown code fences": the literal
text ```` ```json\n<dumps A>\n``` ````. -/
def fencedWrap (v : Json) : String :=
  String.mk (fenceChars ++ ('j' :: 's' :: 'o' :: 'n' :: '\n'
    :: (dumpsVal v ++ '\n' :: fenceChars)))

theorem fencedWrap_strip (v : Json) : pyStrip (fencedWrap v) = fencedWrap v := by
  have hlast : (fencedWrap v).data.getLast? = some backquote := by
    show (([backquote, backquote, backquote, 'j', 's', 'o', 'n', '\n']
        ++ (dumpsVal v ++ ('\n' :: fenceChars))).getLast? = some backquote)
    rw [List.getLast?_append, List.getLast?_append]
    rfl
  show String.mk (pyStripList (fencedWrap v).data) = fencedWrap v
  rw [pyStripList_id (fencedWrap v).data backquote backquote rfl (by decide) hlast
    (by decide)]

theorem fencedWrap_loads (v : Json) : jsonLoads (fencedWrap v) = none :=
  jsonLoads_badHead _ backquote
    (backquote :: backquote :: 'j' :: 's' :: 'o' :: 'n' :: '\n'
      :: (dumpsVal v ++ '\n' :: fenceChars)) rfl (by decide) (by decide) (by decide)
    (by decide) (by decide) (by decide) (by decide) (by decide) (by decide)

/-- A fenced document passes through the stream unwrapper unchanged: its
first non-blank line starts with a backquote, so the envelope path bails
out to the stripped raw text. -/
theorem unwrap_fenced (v : Json) :
    unwrapProviderStreamPayload (fencedWrap v) = fencedWrap v := by
  have hnonl : ∀ x ∈ dumpsVal v, ¬ x = '\n' := by
    intro x hx heq
    subst heq
    exact absurd (dumpsVal_ge32 v _ hx) (by decide)
  simp only [unwrapProviderStreamPayload]
  rw [fencedWrap_strip]
  rw [if_neg (by show ¬ ((fenceChars ++ _).isEmpty = true); rw [fenceChars]; simp)]
  rw [if_neg (by show ¬ ((fenceChars ++ _).isEmpty = true); rw [fenceChars]; simp)]
  have hsingle : (match jsonLoads (fencedWrap v) with
      | some (Json.obj fs) =>
          let extracted := extractText (boundV (Json.obj fs)) (Json.obj fs)
          if (pyStrip extracted).data.isEmpty then none else some extracted
      | _ => none) = (none : Option String) := by
    rw [fencedWrap_loads]
  rw [hsingle]
  show (let lines := ((splitOnNl (fencedWrap v).data).map pyStripList).filter (fun l => !l.isEmpty)
    if lines.isEmpty then fencedWrap v else unwrapLines (fencedWrap v) lines false [])
    = fencedWrap v
  rw [show (fencedWrap v).data
      = [backquote, backquote, backquote, 'j', 's', 'o', 'n']
        ++ '\n' :: (dumpsVal v ++ '\n' :: fenceChars) from rfl]
  rw [splitOnNl_append_nl _ _ (by decide)]
  rw [splitOnNl_append_nl _ _ hnonl]
  rw [splitOnNl_no_nl fenceChars (by decide)]
  simp only [List.map_cons, List.map_nil]
  rw [show pyStripList [backquote, backquote, backquote, 'j', 's', 'o', 'n']
      = [backquote, backquote, backquote, 'j', 's', 'o', 'n'] from by decide]
  rw [show pyStripList (dumpsVal v) = dumpsVal v from
    pyStripList_of_strip_id (dumps v) (pyStrip_dumps v)]
  rw [show pyStripList fenceChars = fenceChars from by decide]
  obtain ⟨c0, cs0, hh, -⟩ := dumpsVal_head v
  rw [show List.filter (fun l => !l.isEmpty)
      [[backquote, backquote, backquote, 'j', 's', 'o', 'n'], dumpsVal v, fenceChars]
      = [[backquote, backquote, backquote, 'j', 's', 'o', 'n'], dumpsVal v, fenceChars]
    from by
      rw [List.filter_cons, List.filter_cons, List.filter_cons]
      rw [hh]
      simp [fenceChars]]
  rw [if_neg (by simp)]
  rw [unwrapLines]
  rw [show listStartsWith [backquote, backquote, backquote, 'j', 's', 'o', 'n']
      ['d', 'a', 't', 'a', ':'] = false from by decide]
  rw [if_neg (by decide)]
  rw [if_pos (by decide)]

/-! ### C3 analysis: the balanced-bracket scanners on literal text -/

theorem getElem?_drop_own : ∀ (l : List Char) (i j : Nat), (l.drop i)[j]? = l[i + j]?
  | _, 0, _ => by simp
  | [], _ + 1, _ => by simp
  | c :: t, i + 1, j => by
      rw [List.drop_succ_cons, getElem?_drop_own t i j,
        show i + 1 + j = (i + j) + 1 from by omega, List.getElem?_cons_succ]

theorem findCharFrom_none (cs : List Char) (t : Char) (start : Nat)
    (h : ∀ c ∈ cs.drop start, ¬ c = t) : findCharFrom cs t start = none := by
  rw [findCharFrom]
  rw [List.findIdx?_eq_none_iff.mpr (fun x hx => by simp [h x hx])]

theorem findCharFrom_some (cs : List Char) (t : Char) (start j : Nat)
    (h : findCharFrom cs t start = some j) : start ≤ j ∧ cs[j]? = some t := by
  rw [findCharFrom] at h
  cases hf : (cs.drop start).findIdx? (fun c => c = t) with
  | none => rw [hf] at h; exact absurd h (by simp)
  | some i =>
      rw [hf] at h
      simp only [Option.some.injEq] at h
      obtain ⟨hlt, hp, -⟩ := List.findIdx?_eq_some_iff_getElem.mp hf
      subst h
      refine ⟨by omega, ?_⟩
      rw [← getElem?_drop_own]
      rw [List.getElem?_eq_getElem hlt]
      simp only [Option.some.injEq]
      exact of_decide_eq_true hp

theorem scanBal_idx_ge : ∀ (l : List Char) (oc cc : Char) (d : Int) (s esc : Bool)
    (i e : Nat), scanBal oc cc l d s esc i = some e → i ≤ e
  | [], _, _, _, _, _, _, _, h => by rw [scanBal] at h; exact absurd h (by simp)
  | ch :: rest, oc, cc, d, s, esc, i, e, h => by
      rw [scanBal] at h
      split_ifs at h with h1 h2 h3 h4 h5 h6 h7 h8
      all_goals first
        | (have hge := scanBal_idx_ge rest _ _ _ _ _ _ _ h; omega)
        | (simp only [Option.some.injEq] at h; omega)

/-- Scanning over neutral characters: from depth 1, the single closing
bracket at the end is found at its exact index. -/
theorem scanBal_neutral : ∀ (mid : List Char) (oc cc : Char) (i : Nat),
    ¬ cc = '"' → ¬ cc = oc →
    (∀ c ∈ mid, ¬ c = '"' ∧ ¬ c = oc ∧ ¬ c = cc) →
    scanBal oc cc (mid ++ [cc]) 1 false false i = some (i + mid.length)
  | [], oc, cc, i, hc, hoc, _ => by
      rw [List.nil_append, scanBal]
      rw [if_neg Bool.false_ne_true, if_neg hc, if_neg hoc, if_pos rfl]
      rw [if_pos (by omega)]
      simp
  | m :: mid, oc, cc, i, hc, hoc, hmem => by
      obtain ⟨h1, h2, h3⟩ := hmem m (List.mem_cons_self m mid)
      rw [List.cons_append, scanBal]
      rw [if_neg Bool.false_ne_true, if_neg h1, if_neg h2, if_neg h3]
      rw [scanBal_neutral mid oc cc (i + 1) hc hoc
        (fun c hcm => hmem c (List.mem_cons_of_mem m hcm))]
      congr 1
      simp only [List.length_cons]
      omega

/-- Every `\x7b` in a well-formed literal dump is immediately followed by a
single quote (so every balanced-object candidate the scanner tries starts
`\x7b'` and fails `json.loads`). -/
def braceOK : List Char → Bool
  | [] => true
  | [c] => !(c = '{')
  | c :: c2 :: rest =>
      if c = '{' then c2 = '\'' && braceOK (c2 :: rest)
      else braceOK (c2 :: rest)

theorem braceOK_of_no_brace : ∀ (cs : List Char), (∀ c ∈ cs, ¬ c = '{') →
    braceOK cs = true
  | [], _ => rfl
  | [c], h => by
      rw [braceOK]
      simp [h c (List.mem_cons_self c [])]
  | c :: c2 :: rest, h => by
      rw [braceOK, if_neg (h c (List.mem_cons_self c (c2 :: rest)))]
      exact braceOK_of_no_brace (c2 :: rest)
        (fun x hx => h x (List.mem_cons_of_mem c hx))

theorem braceOK_append : ∀ (xs ys : List Char), braceOK xs = true → braceOK ys = true →
    ¬ xs.getLast? = some '{' → braceOK (xs ++ ys) = true
  | [], ys, _, h2, _ => by simpa using h2
  | [c], ys, h1, h2, h3 => by
      have hc : ¬ c = '{' := by simpa using h3
      cases ys with
      | nil => simpa using h1
      | cons y ys' =>
          rw [List.singleton_append, braceOK, if_neg hc]
          exact h2
  | c :: c2 :: xs'', ys, h1, h2, h3 => by
      rw [braceOK] at h1
      have hlast : ¬ (c2 :: xs'').getLast? = some '{' := by
        intro hx
        apply h3
        rw [List.getLast?_cons_cons]
        exact hx
      by_cases hc : c = '{'
      · rw [if_pos hc] at h1
        simp only [Bool.and_eq_true, decide_eq_true_eq] at h1
        rw [List.cons_append, List.cons_append, braceOK, if_pos hc, ← List.cons_append]
        rw [braceOK_append (c2 :: xs'') ys h1.2 h2 hlast]
        simp [h1.1]
      · rw [if_neg hc] at h1
        rw [List.cons_append, List.cons_append, braceOK, if_neg hc, ← List.cons_append]
        exact braceOK_append (c2 :: xs'') ys h1 h2 hlast

theorem braceOK_spec : ∀ (cs : List Char), braceOK cs = true →
    ∀ i, cs[i]? = some '{' → cs[i + 1]? = some '\''
  | [], _, i, h => by simp at h
  | [c], hb, i, h => by
      cases i with
      | zero =>
          have hc : c = '{' := by simpa using h
          rw [braceOK] at hb
          simp [hc] at hb
      | succ i => simp at h
  | c :: c2 :: rest, hb, 0, h => by
      have hc : c = '{' := by simpa using h
      subst hc
      rw [braceOK, if_pos rfl] at hb
      simp only [Bool.and_eq_true, decide_eq_true_eq] at hb
      simp [hb.1]
  | c :: c2 :: rest, hb, i + 1, h => by
      have hrest : braceOK (c2 :: rest) = true := by
        rw [braceOK] at hb
        by_cases hc : c = '{'
        · rw [if_pos hc] at hb
          simp only [Bool.and_eq_true, decide_eq_true_eq] at hb
          exact hb.2
        · rwa [if_neg hc] at hb
      simp only [List.getElem?_cons_succ] at h ⊢
      have hrec := braceOK_spec (c2 :: rest) hrest i h
      rwa [List.getElem?_cons_succ] at hrec

theorem getLast?_append_right (xs ys : List Char) (c : Char) (h : ys.getLast? = some c) :
    (xs ++ ys).getLast? = some c := by
  rw [List.getLast?_append, h]
  rfl

/-- The set of characters that must not leak from string content into a
literal representation the cascade is to leave alone. -/
def scanSpecial (c : Char) : Bool :=
  c = '[' || c = ']' || c = '"' || c = backquote || c = '{' || c = '}'

theorem litChar_not_special (c : Char) (h : litChar c = true) : scanSpecial c = false := by
  simp only [litChar, Bool.and_eq_true, Bool.not_eq_true', decide_eq_false_iff_not,
    beq_eq_false_iff_ne, ne_eq] at h
  simp only [scanSpecial, Bool.or_eq_false_iff, decide_eq_false_iff_not,
    beq_eq_false_iff_ne, ne_eq]
  exact ⟨⟨⟨⟨⟨h.1.1.1.1.2, h.1.1.1.2⟩, h.1.1.1.1.1.2⟩, h.2⟩, h.1.1.2⟩, h.1.2⟩

theorem intChars_mem_range (i : Int) (c : Char) (h : c ∈ intChars i) :
    45 ≤ c.toNat ∧ c.toNat ≤ 57 := by
  cases i with
  | ofNat n =>
      obtain ⟨d, hd, rfl⟩ := natCharsAux_mem _ _ c (by simpa [intChars, natChars] using h)
      rw [digitChar_toNat d hd]
      omega
  | negSucc n =>
      rcases List.mem_cons.mp (by simpa [intChars] using h) with h1 | h1
      · subst h1; decide
      · obtain ⟨d, hd, rfl⟩ := natCharsAux_mem _ _ c (by simpa [natChars] using h1)
        rw [digitChar_toNat d hd]
        omega

theorem reprEscapeChar_safe (c d : Char) (hc : litChar c = true)
    (hd : d ∈ reprEscapeChar '\'' c) : scanSpecial d = false := by
  have hc2 := hc
  simp only [litChar, Bool.and_eq_true, Bool.not_eq_true', decide_eq_false_iff_not,
    beq_eq_false_iff_ne, ne_eq, Bool.or_eq_true, decide_eq_true_eq, beq_iff_eq] at hc2
  have hnq : ¬ c = '\'' := hc2.1.1.1.1.1.1.2
  rw [reprEscapeChar] at hd
  by_cases h1 : c = '\\'
  · rw [if_pos h1] at hd
    rcases List.mem_cons.mp hd with rfl | h2
    · decide
    · simp only [List.mem_singleton] at h2; subst h2; decide
  · rw [if_neg h1, if_neg hnq] at hd
    by_cases h3 : c = '\n'
    · rw [if_pos h3] at hd
      rcases List.mem_cons.mp hd with rfl | h4
      · decide
      · simp only [List.mem_singleton] at h4; subst h4; decide
    · rw [if_neg h3] at hd
      by_cases h4 : c = '\r'
      · rw [if_pos h4] at hd
        rcases List.mem_cons.mp hd with rfl | h5
        · decide
        · simp only [List.mem_singleton] at h5; subst h5; decide
      · rw [if_neg h4] at hd
        by_cases h5 : c = '\t'
        · rw [if_pos h5] at hd
          rcases List.mem_cons.mp hd with rfl | h6
          · decide
          · simp only [List.mem_singleton] at h6; subst h6; decide
        · rw [if_neg h5] at hd
          have h6 : ¬ (c.toNat < 32 ∨ c.toNat = 127) := by
            rcases hc2.1.1.1.1.1.1.1 with ((h | h) | h) | h
            · exact absurd h h3
            · exact absurd h h5
            · exact absurd h h4
            · omega
          rw [if_neg h6] at hd
          simp only [List.mem_singleton] at hd
          subst hd
          exact litChar_not_special _ hc

theorem pyReprStr_safe (s : String) (hs : s.data.all litChar = true) (c : Char)
    (h : c ∈ pyReprStr s) : scanSpecial c = false := by
  have hq := pyReprStrQuote_lit s hs
  rw [pyReprStr, hq] at h
  rcases List.mem_cons.mp h with rfl | h1
  · decide
  rcases List.mem_append.mp h1 with h2 | h2
  · obtain ⟨x, hxm, hx⟩ := List.mem_flatMap.mp h2
    exact reprEscapeChar_safe x c (List.all_eq_true.mp hs x hxm) hx
  · simp only [List.mem_singleton] at h2
    subst h2
    decide

mutual

/-- Characters of the `repr` of a `litV` value: only the value's own
braces, quotes and scalar text — never brackets, double quotes or
backquotes. -/
theorem pyReprVal_noBracket : ∀ (v : Json), litV v = true → ∀ c ∈ pyReprVal v,
    ¬ c = '[' ∧ ¬ c = ']' ∧ ¬ c = '"' ∧ ¬ c = backquote
  | .null, _, c, h => by
      simp only [pyReprVal, List.mem_cons, List.not_mem_nil, or_false] at h
      rcases h with rfl | rfl | rfl | rfl <;> exact (by decide)
  | .bool true, _, c, h => by
      simp only [pyReprVal, List.mem_cons, List.not_mem_nil, or_false] at h
      rcases h with rfl | rfl | rfl | rfl <;> exact (by decide)
  | .bool false, _, c, h => by
      simp only [pyReprVal, List.mem_cons, List.not_mem_nil, or_false] at h
      rcases h with rfl | rfl | rfl | rfl | rfl <;> exact (by decide)
  | .num i, _, c, h => by
      obtain ⟨h1, h2⟩ := intChars_mem_range i c (by simpa [pyReprVal] using h)
      have hbq : backquote.toNat = 96 := by decide
      refine ⟨?_, ?_, ?_, ?_⟩ <;>
        exact char_ne_of_toNat_ne (by first | (rw [hbq]; omega) | (simp; omega))
  | .str s, hs, c, h => by
      have := pyReprStr_safe s (by simpa [litV] using hs) c (by simpa [pyReprVal] using h)
      simp only [scanSpecial, Bool.or_eq_false_iff, decide_eq_false_iff_not,
        beq_eq_false_iff_ne, ne_eq] at this
      exact ⟨this.1.1.1.1.1, this.1.1.1.1.2, this.1.1.1.2, this.1.1.2⟩
  | .arr es, hs, c, h => by simp [litV] at hs
  | .obj fs, hs, c, h => by
      have hf : litFields fs = true := by
        have hv := hs
        rw [litV] at hv
        simp only [Bool.and_eq_true] at hv
        exact hv.2
      rw [show pyReprVal (.obj fs) = '{' :: (pyReprFields fs ++ ['}']) from rfl] at h
      rcases List.mem_cons.mp h with rfl | h1
      · exact (by decide)
      rcases List.mem_append.mp h1 with h2 | h2
      · exact pyReprFields_noBracket fs hf c h2
      · simp only [List.mem_singleton] at h2
        subst h2
        exact (by decide)
termination_by v _ _ _ => sizeOf v

theorem pyReprElems_noBracket : ∀ (es : List Json), es.all litV = true →
    ∀ c ∈ pyReprElems es, ¬ c = '[' ∧ ¬ c = ']' ∧ ¬ c = '"' ∧ ¬ c = backquote
  | [], _, c, h => by simp [pyReprElems] at h
  | [e], hs, c, h =>
      pyReprVal_noBracket e (by simpa using hs) c (by simpa [pyReprElems] using h)
  | e :: e2 :: es, hs, c, h => by
      simp only [List.all_cons, Bool.and_eq_true] at hs
      rw [show pyReprElems (e :: e2 :: es)
          = pyReprVal e ++ (',' :: ' ' :: pyReprElems (e2 :: es)) from rfl] at h
      rcases List.mem_append.mp h with h1 | h1
      · exact pyReprVal_noBracket e hs.1 c h1
      rcases List.mem_cons.mp h1 with rfl | h2
      · exact (by decide)
      rcases List.mem_cons.mp h2 with rfl | h3
      · exact (by decide)
      · exact pyReprElems_noBracket (e2 :: es) (by simp [hs.2.1, hs.2.2]) c h3
termination_by es _ _ _ => sizeOf es

theorem pyReprFields_noBracket : ∀ (fs : List (String × Json)), litFields fs = true →
    ∀ c ∈ pyReprFields fs, ¬ c = '[' ∧ ¬ c = ']' ∧ ¬ c = '"' ∧ ¬ c = backquote
  | [], _, c, h => by simp [pyReprFields] at h
  | (k, v) :: fs, hf, c, h => by
      have hf2 : k.data.all litChar = true ∧ litV v = true ∧ litFields fs = true := by
        have := hf
        rw [litFields] at this
        simp only [Bool.and_eq_true] at this
        exact ⟨this.1.1, this.1.2, this.2⟩
      have hks : ∀ c ∈ pyReprStr k, ¬ c = '[' ∧ ¬ c = ']' ∧ ¬ c = '"' ∧ ¬ c = backquote := by
        intro x hx
        have := pyReprStr_safe k hf2.1 x hx
        simp only [scanSpecial, Bool.or_eq_false_iff, decide_eq_false_iff_not,
          beq_eq_false_iff_ne, ne_eq] at this
        exact ⟨this.1.1.1.1.1, this.1.1.1.1.2, this.1.1.1.2, this.1.1.2⟩
      cases fs with
      | nil =>
          rw [show pyReprFields [(k, v)]
              = pyReprStr k ++ (':' :: ' ' :: pyReprVal v) from rfl] at h
          rcases List.mem_append.mp h with h1 | h1
          · exact hks c h1
          rcases List.mem_cons.mp h1 with rfl | h2
          · exact (by decide)
          rcases List.mem_cons.mp h2 with rfl | h3
          · exact (by decide)
          · exact pyReprVal_noBracket v hf2.2.1 c h3
      | cons f2 fs' =>
          cases f2 with
          | mk k2 v2 =>
              rw [show pyReprFields ((k, v) :: (k2, v2) :: fs')
                  = (pyReprStr k ++ (':' :: ' ' :: pyReprVal v))
                    ++ (',' :: ' ' :: pyReprFields ((k2, v2) :: fs')) from rfl] at h
              rcases List.mem_append.mp h with h1 | h1
              · rcases List.mem_append.mp h1 with h2 | h2
                · exact hks c h2
                rcases List.mem_cons.mp h2 with rfl | h3
                · exact (by decide)
                rcases List.mem_cons.mp h3 with rfl | h4
                · exact (by decide)
                · exact pyReprVal_noBracket v hf2.2.1 c h4
              rcases List.mem_cons.mp h1 with rfl | h2
              · exact (by decide)
              rcases List.mem_cons.mp h2 with rfl | h3
              · exact (by decide)
              · exact pyReprFields_noBracket ((k2, v2) :: fs') hf2.2.2 c h3
termination_by fs _ _ _ => sizeOf fs

end

mutual

theorem litV_reprOk : ∀ (v : Json), litV v = true → reprOkV v = true
  | .null, _ => rfl
  | .bool _, _ => rfl
  | .num _, _ => rfl
  | .str s, h => by simpa [reprOkV] using (by simpa [litV] using h : s.data.all litChar = true)
  | .arr es, h => by simp [litV] at h
  | .obj fs, h => by
      have hf : litFields fs = true := by
        rw [litV] at h
        simp only [Bool.and_eq_true] at h
        exact h.2
      show reprOkFields fs = true
      exact litFields_reprOk fs hf
termination_by v _ => sizeOf v

theorem litFields_reprOk : ∀ (fs : List (String × Json)), litFields fs = true →
    reprOkFields fs = true
  | [], _ => rfl
  | (k, v) :: fs, h => by
      rw [litFields] at h
      simp only [Bool.and_eq_true] at h
      rw [reprOkFields]
      simp only [Bool.and_eq_true]
      exact ⟨⟨h.1.1, litV_reprOk v h.1.2⟩, litFields_reprOk fs h.2⟩
termination_by fs _ => sizeOf fs

end

theorem pyReprStr_ends_quote (s : String) :
    (pyReprStr s).getLast? = some (pyReprStrQuote s) := by
  simp only [pyReprStr]
  rw [show pyReprStrQuote s :: (s.data.flatMap (reprEscapeChar (pyReprStrQuote s))
      ++ [pyReprStrQuote s])
    = (pyReprStrQuote s :: s.data.flatMap (reprEscapeChar (pyReprStrQuote s)))
      ++ [pyReprStrQuote s] from by simp]
  exact List.getLast?_concat _

theorem pyReprStrQuote_ne_brace (s : String) : ¬ pyReprStrQuote s = '{' := by
  rw [pyReprStrQuote]
  split <;> decide

theorem pyReprElems_last : ∀ (es : List Json), es ≠ [] →
    ∃ c, (pyReprElems es).getLast? = some c ∧ ¬ c = '{'
  | [], h => absurd rfl h
  | [e], _ => by
      obtain ⟨c, hl, -, hc⟩ := pyReprVal_last e
      exact ⟨c, by simpa [pyReprElems] using hl, hc⟩
  | e :: e2 :: es, _ => by
      obtain ⟨c, hl, hc⟩ := pyReprElems_last (e2 :: es) (by simp)
      refine ⟨c, ?_, hc⟩
      rw [show pyReprElems (e :: e2 :: es)
          = pyReprVal e ++ ([',', ' '] ++ pyReprElems (e2 :: es)) from rfl]
      exact getLast?_append_right _ _ _ (getLast?_append_right _ _ _ hl)

theorem pyReprFields_last : ∀ (fs : List (String × Json)), fs ≠ [] →
    ∃ c, (pyReprFields fs).getLast? = some c ∧ ¬ c = '{'
  | [], h => absurd rfl h
  | [(k, v)], _ => by
      obtain ⟨c, hl, -, hc⟩ := pyReprVal_last v
      refine ⟨c, ?_, hc⟩
      rw [show pyReprFields [(k, v)] = pyReprStr k ++ ([':', ' '] ++ pyReprVal v) from rfl]
      exact getLast?_append_right _ _ _ (getLast?_append_right _ _ _ hl)
  | (k, v) :: (k2, v2) :: fs, _ => by
      obtain ⟨c, hl, hc⟩ := pyReprFields_last ((k2, v2) :: fs) (by simp)
      refine ⟨c, ?_, hc⟩
      rw [show pyReprFields ((k, v) :: (k2, v2) :: fs)
          = (pyReprStr k ++ (':' :: ' ' :: pyReprVal v))
            ++ ([',', ' '] ++ pyReprFields ((k2, v2) :: fs)) from rfl]
      exact getLast?_append_right _ _ _ (getLast?_append_right _ _ _ hl)

theorem pyReprStr_braceOK (s : String) (hs : s.data.all litChar = true) :
    braceOK (pyReprStr s) = true := by
  apply braceOK_of_no_brace
  intro c hc
  have hsp := pyReprStr_safe s hs c hc
  simp only [scanSpecial, Bool.or_eq_false_iff, decide_eq_false_iff_not,
    beq_eq_false_iff_ne, ne_eq] at hsp
  exact hsp.1.2

mutual

/-- In the `repr` of a `litV` value every `\x7b` is immediately followed by
the single quote opening its first key. -/
theorem pyReprVal_braceOK : ∀ (v : Json), litV v = true → braceOK (pyReprVal v) = true
  | .null, _ => by decide
  | .bool true, _ => by decide
  | .bool false, _ => by decide
  | .num i, _ =>
      braceOK_of_no_brace _ (fun c hc => by
        obtain ⟨h1, h2⟩ := intChars_mem_range i c (by simpa [pyReprVal] using hc)
        exact char_ne_of_toNat_ne (by simp; omega))
  | .str s, hs => pyReprStr_braceOK s (by simpa [litV] using hs)
  | .arr es, hs => by simp [litV] at hs
  | .obj fs, hs => by
      rw [litV] at hs
      simp only [Bool.and_eq_true] at hs
      cases fs with
      | nil => simp at hs
      | cons kv fs' =>
          cases kv with
          | mk k v =>
              have hfields : litFields ((k, v) :: fs') = true := hs.2
              have hk : k.data.all litChar = true := by
                rw [litFields] at hfields
                simp only [Bool.and_eq_true] at hfields
                exact hfields.1.1
              obtain ⟨u, hu⟩ := pyReprFields_cons_head k v fs' hk
              obtain ⟨cr, hlr, hcr⟩ := pyReprFields_last ((k, v) :: fs') (by simp)
              show braceOK ('{' :: (pyReprFields ((k, v) :: fs') ++ ['}'])) = true
              rw [hu]
              rw [show ('\'' :: u) ++ ['}'] = '\'' :: (u ++ ['}']) from rfl]
              rw [braceOK, if_pos rfl]
              rw [show '\'' :: (u ++ ['}']) = ('\'' :: u) ++ ['}'] from rfl, ← hu]
              rw [braceOK_append (pyReprFields ((k, v) :: fs')) ['}']
                (pyReprFields_braceOK _ hfields) (by decide)
                (by rw [hlr]; simp [hcr])]
              simp
termination_by v _ => sizeOf v

theorem pyReprElems_braceOK : ∀ (es : List Json), es.all litV = true →
    braceOK (pyReprElems es) = true
  | [], _ => rfl
  | [e], hs => pyReprVal_braceOK e (by simpa using hs)
  | e :: e2 :: es, hs => by
      simp only [List.all_cons, Bool.and_eq_true] at hs
      obtain ⟨cl, hl, -, hcl⟩ := pyReprVal_last e
      show braceOK (pyReprVal e ++ ([',', ' '] ++ pyReprElems (e2 :: es))) = true
      exact braceOK_append _ _ (pyReprVal_braceOK e hs.1)
        (braceOK_append [',', ' '] _ (by decide)
          (pyReprElems_braceOK (e2 :: es) (by simp [hs.2.1, hs.2.2])) (by decide))
        (by rw [hl]; simp [hcl])
termination_by es _ => sizeOf es

theorem pyReprFields_braceOK : ∀ (fs : List (String × Json)), litFields fs = true →
    braceOK (pyReprFields fs) = true
  | [], _ => rfl
  | [(k, v)], hf => by
      rw [litFields] at hf
      simp only [Bool.and_eq_true] at hf
      show braceOK (pyReprStr k ++ ([':', ' '] ++ pyReprVal v)) = true
      exact braceOK_append _ _ (pyReprStr_braceOK k hf.1.1)
        (braceOK_append [':', ' '] _ (by decide) (pyReprVal_braceOK v hf.1.2) (by decide))
        (by rw [pyReprStr_ends_quote k]; simp [pyReprStrQuote_ne_brace k])
  | (k, v) :: (k2, v2) :: fs, hf => by
      rw [litFields] at hf
      simp only [Bool.and_eq_true] at hf
      obtain ⟨cv, hlv, -, hcv⟩ := pyReprVal_last v
      show braceOK ((pyReprStr k ++ ([':', ' '] ++ pyReprVal v))
        ++ ([',', ' '] ++ pyReprFields ((k2, v2) :: fs))) = true
      refine braceOK_append _ _ ?_ ?_ ?_
      · exact braceOK_append _ _ (pyReprStr_braceOK k hf.1.1)
          (braceOK_append [':', ' '] _ (by decide) (pyReprVal_braceOK v hf.1.2) (by decide))
          (by rw [pyReprStr_ends_quote k]; simp [pyReprStrQuote_ne_brace k])
      · exact braceOK_append [',', ' '] _ (by decide)
          (pyReprFields_braceOK ((k2, v2) :: fs) hf.2) (by decide)
      · rw [getLast?_append_right _ _ _ (getLast?_append_right _ _ _ hlv)]
        simp [hcv]
termination_by fs _ => sizeOf fs

end

/-! ### C3 analysis: the cascade stages on a literal (`repr`) document -/

theorem pyStrip_pyRepr (v : Json) :
    pyStrip (String.mk (pyReprVal v)) = String.mk (pyReprVal v) := by
  obtain ⟨c, cs', hh, hws, -⟩ := pyReprVal_head v
  obtain ⟨b, hbl, hbs, -⟩ := pyReprVal_last v
  have hph : pyIsSpace c = false := by
    have h32 : 32 ≤ c.toNat :=
      pyReprVal_ge32 v c (by rw [hh]; exact List.mem_cons_self _ _)
    by_cases h33 : 33 ≤ c.toNat
    · exact pyIsSpace_eq_false_of_ge33 c h33
    · have hsp : c = ' ' := char_eq_of_toNat_eq (by simp; omega)
      subst hsp
      exact absurd hws (by decide)
  show String.mk (pyStripList (pyReprVal v)) = String.mk (pyReprVal v)
  rw [pyStripList_id (pyReprVal v) c b (by rw [hh]; rfl) hph hbl hbs]

theorem findCharFrom_head (t : Char) (l : List Char) : findCharFrom (t :: l) t 0 = some 0 := by
  rw [findCharFrom, List.drop_zero]
  rw [show (t :: l).findIdx? (fun c => c = t) = some 0 from by
    rw [List.findIdx?_cons]
    simp]

/-- The first item of a literal items list opens as `[\x7b'`. -/
theorem pyRepr_arr_obj_shape (k : String) (v : Json)
    (fs : List (String × Json)) (rest : List Json)
    (hk : k.data.all litChar = true) :
    ∃ X, pyReprVal (Json.arr (Json.obj ((k, v) :: fs) :: rest))
      = '[' :: '{' :: '\'' :: X := by
  obtain ⟨u, hu⟩ := pyReprFields_cons_head k v fs hk
  obtain ⟨t, ht⟩ := pyReprElems_cons_eq (Json.obj ((k, v) :: fs)) rest
  refine ⟨(u ++ ['}']) ++ (t ++ [']']), ?_⟩
  show '[' :: (pyReprElems (Json.obj ((k, v) :: fs) :: rest) ++ [']']) = _
  rw [ht]
  rw [show pyReprVal (Json.obj ((k, v) :: fs))
      = '{' :: (pyReprFields ((k, v) :: fs) ++ ['}']) from rfl, hu]
  simp

/-- Stage 2 on a literal document: the only array candidate is the whole
text, which fails the strict parse, and no later `[` exists. -/
theorem extractFirstJsonArrayAux_whole (mid : List Char) (f : Nat)
    (hmid : ∀ c ∈ mid, ¬ c = '"' ∧ ¬ c = '[' ∧ ¬ c = ']')
    (hload : jsonLoads (String.mk ('[' :: (mid ++ [']']))) = none) :
    extractFirstJsonArrayAux (f + 1) ('[' :: (mid ++ [']'])) 0 = none := by
  rw [extractFirstJsonArrayAux]
  rw [findCharFrom_head]
  show (match scanBal '[' ']' (('[' :: (mid ++ [']'])).drop 0) 0 false false 0 with
    | none => extractFirstJsonArrayAux f ('[' :: (mid ++ [']'])) (0 + 1)
    | some e =>
        match jsonLoads (String.mk ((('[' :: (mid ++ [']'])).drop 0).take (e + 1))) with
        | some (Json.arr xs) => some xs
        | _ => extractFirstJsonArrayAux f ('[' :: (mid ++ [']'])) (0 + 1)) = none
  rw [List.drop_zero]
  have hscan : scanBal '[' ']' ('[' :: (mid ++ [']'])) 0 false false 0
      = some (1 + mid.length) := by
    rw [scanBal]
    rw [if_neg Bool.false_ne_true, if_neg (by decide), if_pos rfl]
    exact scanBal_neutral mid '[' ']' 1 (by decide) (by decide) hmid
  rw [hscan]
  show (match jsonLoads (String.mk (('[' :: (mid ++ [']'])).take (1 + mid.length + 1))) with
    | some (Json.arr xs) => some xs
    | _ => extractFirstJsonArrayAux f ('[' :: (mid ++ [']'])) (0 + 1)) = none
  rw [show ('[' :: (mid ++ [']'])).take (1 + mid.length + 1) = '[' :: (mid ++ [']']) from by
    rw [show 1 + mid.length + 1 = ('[' :: (mid ++ [']'])).length from by
      simp
      omega]
    exact List.take_length _]
  rw [hload]
  show extractFirstJsonArrayAux f ('[' :: (mid ++ [']'])) (0 + 1) = none
  cases f with
  | zero => rfl
  | succ f =>
      rw [extractFirstJsonArrayAux]
      rw [findCharFrom_none _ _ _ (by
        intro c hc
        rw [show (0 : Nat) + 1 = 1 from rfl, List.drop_succ_cons, List.drop_zero] at hc
        rcases List.mem_append.mp hc with h1 | h1
        · exact (hmid c h1).2.1
        · simp only [List.mem_singleton] at h1
          subst h1
          decide)]

theorem extractFirstJsonArray_repr_none (items : List Json)
    (hlit : items.all litV = true)
    (hload : jsonLoads (String.mk (pyReprVal (Json.arr items))) = none) :
    extractFirstJsonArray (String.mk (pyReprVal (Json.arr items))) = none := by
  have hmid : ∀ c ∈ pyReprElems items, ¬ c = '"' ∧ ¬ c = '[' ∧ ¬ c = ']' := by
    intro c hc
    obtain ⟨h1, h2, h3, -⟩ := pyReprElems_noBracket items hlit c hc
    exact ⟨h3, h1, h2⟩
  rw [extractFirstJsonArray]
  rw [if_neg (by
    simp only [List.isEmpty_iff]
    exact pyReprVal_ne_nil (Json.arr items))]
  show extractFirstJsonArrayAux (('[' :: (pyReprElems items ++ [']'])).length + 1)
    ('[' :: (pyReprElems items ++ [']'])) 0 = none
  rw [show ('[' :: (pyReprElems items ++ [']'])).length + 1
      = ((pyReprElems items).length + 2) + 1 from by simp]
  exact extractFirstJsonArrayAux_whole (pyReprElems items)
    ((pyReprElems items).length + 2) hmid hload

/-- Helper: the object scanner finds nothing in text whose every `\x7b` is
followed by `'`. -/
theorem extractFirstJsonObjectAux_none : ∀ (fuel : Nat) (cs : List Char) (start : Nat),
    braceOK cs = true → extractFirstJsonObjectAux fuel cs start = none
  | 0, _, _, _ => rfl
  | fuel + 1, cs, start, hb => by
      rw [extractFirstJsonObjectAux]
      cases hf : findCharFrom cs '{' start with
      | none => rfl
      | some s =>
          show (match scanBal '{' '}' (cs.drop s) 0 false false 0 with
            | none => extractFirstJsonObjectAux fuel cs (s + 1)
            | some e =>
                match jsonLoads (String.mk ((cs.drop s).take (e + 1))) with
                | some (Json.obj fs) => some fs
                | _ => extractFirstJsonObjectAux fuel cs (s + 1)) = none
          obtain ⟨hs, hget⟩ := findCharFrom_some cs '{' start s hf
          have hslt : s < cs.length := by
            by_contra hge
            rw [List.getElem?_eq_none (by omega)] at hget
            exact Option.noConfusion hget
          have hq : cs[s + 1]? = some '\'' := braceOK_spec cs hb s hget
          have hslt1 : s + 1 < cs.length := by
            by_contra hge
            rw [List.getElem?_eq_none (by omega)] at hq
            exact Option.noConfusion hq
          have hcs : cs[s] = '{' := by
            rw [List.getElem?_eq_getElem hslt] at hget
            simpa using hget
          have hcs1 : cs[s + 1] = '\'' := by
            rw [List.getElem?_eq_getElem hslt1] at hq
            simpa using hq
          have hd1 : cs.drop s = '{' :: '\'' :: cs.drop (s + 2) := by
            rw [List.drop_eq_getElem_cons hslt, hcs]
            rw [List.drop_eq_getElem_cons hslt1, hcs1]
          cases hsb : scanBal '{' '}' (cs.drop s) 0 false false 0 with
          | none => exact extractFirstJsonObjectAux_none fuel cs (s + 1) hb
          | some e =>
              have he1 : 1 ≤ e := by
                rw [hd1, scanBal] at hsb
                rw [if_neg Bool.false_ne_true, if_neg (by decide), if_pos rfl] at hsb
                exact scanBal_idx_ge _ _ _ _ _ _ _ _ hsb
              obtain ⟨e', rfl⟩ : ∃ e', e = e' + 1 := ⟨e - 1, by omega⟩
              have hcand : (cs.drop s).take (e' + 1 + 1)
                  = '{' :: '\'' :: (cs.drop (s + 2)).take e' := by
                rw [hd1]
                rw [List.take_succ_cons, List.take_succ_cons]
              show (match jsonLoads (String.mk ((cs.drop s).take (e' + 1 + 1))) with
                | some (Json.obj fs) => some fs
                | _ => extractFirstJsonObjectAux fuel cs (s + 1)) = none
              rw [hcand]
              rw [jsonLoads_braceQuote _ _ rfl]
              exact extractFirstJsonObjectAux_none fuel cs (s + 1) hb

theorem extractFirstJsonObject_none_of_braceOK (cs : List Char)
    (hb : braceOK cs = true) :
    extractFirstJsonObject (String.mk cs) = none := by
  rw [extractFirstJsonObject]
  by_cases he : (String.mk cs).data.isEmpty
  · rw [if_pos he]
  · rw [if_neg he]
    exact extractFirstJsonObjectAux_none _ _ _ hb

/-- Every character of the literal array document, for fence stripping. -/
theorem pyRepr_arr_no_backquote (items : List Json) (hlit : items.all litV = true) :
    ∀ c ∈ pyReprVal (Json.arr items), ¬ c = backquote := by
  intro c hc
  rw [show pyReprVal (Json.arr items) = '[' :: (pyReprElems items ++ [']']) from rfl] at hc
  rcases List.mem_cons.mp hc with rfl | h1
  · decide
  rcases List.mem_append.mp h1 with h2 | h2
  · exact (pyReprElems_noBracket items hlit c h2).2.2.2
  · simp only [List.mem_singleton] at h2
    subst h2
    decide

theorem pyRepr_arr_braceOK (items : List Json) (hlit : items.all litV = true) :
    braceOK (pyReprVal (Json.arr items)) = true := by
  obtain hne2 : braceOK (pyReprElems items ++ [']']) = true := by
    cases hi : items with
    | nil => decide
    | cons it its =>
        obtain ⟨cl, hl, hcl⟩ := pyReprElems_last (it :: its) (by simp)
        refine braceOK_append _ _ ?_ (by decide) (by rw [hl]; simp [hcl])
        rw [← hi]
        exact pyReprElems_braceOK items hlit
  show braceOK ('[' :: (pyReprElems items ++ [']'])) = true
  cases hpe : pyReprElems items ++ [']'] with
  | nil => simp at hpe
  | cons d rest =>
      rw [braceOK, if_neg (by decide)]
      rw [← hpe]
      exact hne2

/-! ### C3 analysis: `_strip_code_fences` on the fenced representation -/

theorem splitAtSub_self_prefix (rest : List Char) :
    splitAtSub (fenceChars ++ rest) fenceChars = some ([], rest) := by
  show splitAtSub (backquote :: backquote :: backquote :: rest) fenceChars = some ([], rest)
  rw [splitAtSub]
  rw [if_pos (show listStartsWith (backquote :: backquote :: backquote :: rest) fenceChars
      = true from listStartsWith_append_self fenceChars rest)]
  rfl

theorem splitAtSub_fence_at : ∀ (xs rest : List Char), (∀ c ∈ xs, ¬ c = backquote) →
    splitAtSub (xs ++ (fenceChars ++ rest)) fenceChars = some (xs, rest)
  | [], rest, _ => by
      rw [List.nil_append]
      exact splitAtSub_self_prefix rest
  | c :: xs', rest, h => by
      rw [List.cons_append, splitAtSub]
      have hsw : listStartsWith (xs' ++ (fenceChars ++ rest) |> (c :: ·)) fenceChars
          = false := by
        show listStartsWith (c :: (xs' ++ (fenceChars ++ rest))) fenceChars = false
        rw [fenceChars, listStartsWith]
        have hcb : (c == backquote) = false := by
          simp only [beq_eq_false_iff_ne, ne_eq]
          exact h c (List.mem_cons_self c xs')
        rw [hcb]
        rfl
      rw [if_neg (by simp [hsw])]
      rw [splitAtSub_fence_at xs' rest (fun x hx => h x (List.mem_cons_of_mem c hx))]
      rfl

theorem dumpsVal_head_not_space (v : Json) :
    ∃ c cs', dumpsVal v = c :: cs' ∧ pyIsSpace c = false := by
  obtain ⟨c, cs', hh, hws, -⟩ := dumpsVal_head v
  refine ⟨c, cs', hh, ?_⟩
  have h32 : 32 ≤ c.toNat := dumpsVal_ge32 v c (by rw [hh]; exact List.mem_cons_self _ _)
  by_cases h33 : 33 ≤ c.toNat
  · exact pyIsSpace_eq_false_of_ge33 c h33
  · have hsp : c = ' ' := char_eq_of_toNat_eq (by simp; omega)
    subst hsp
    exact absurd hws (by decide)

theorem pyStripList_wrap_nl (v : Json) :
    pyStripList ('\n' :: (dumpsVal v ++ ['\n'])) = dumpsVal v := by
  obtain ⟨c, cs', hh, hph⟩ := dumpsVal_head_not_space v
  obtain ⟨b, hbl, hbs⟩ := dumpsVal_last v
  rw [pyStripList]
  rw [List.dropWhile_cons]
  rw [if_pos (by decide)]
  rw [show dumpsVal v ++ ['\n'] = c :: (cs' ++ ['\n']) from by rw [hh]; simp]
  rw [List.dropWhile_cons, if_neg (by simp [hph])]
  rw [show (c :: (cs' ++ ['\n'])).reverse = '\n' :: (c :: cs').reverse from by simp]
  rw [List.dropWhile_cons, if_pos (by decide)]
  rw [← hh]
  have hrev : (dumpsVal v).reverse.head? = some b := by
    rw [List.head?_reverse]
    exact hbl
  cases hrv : (dumpsVal v).reverse with
  | nil => rw [hrv] at hrev; simp at hrev
  | cons b' u =>
      rw [hrv] at hrev
      have hbc : b' = b := by simpa using hrev
      subst hbc
      rw [List.dropWhile_cons, if_neg (by simp [hbs])]
      rw [← hrv, List.reverse_reverse]

/-- On the fenced representation the fence regex fires and recovers exactly
the serialized array. -/
theorem stripCodeFences_fencedWrap (v : Json)
    (hbq : ∀ c ∈ dumpsVal v, ¬ c = backquote) :
    stripCodeFences (fencedWrap v) = dumps v := by
  rw [stripCodeFences]
  have h1 : splitAtSub (fencedWrap v).data fenceChars
      = some ([], 'j' :: 's' :: 'o' :: 'n' :: '\n' :: (dumpsVal v ++ '\n' :: fenceChars)) := by
    show splitAtSub (fenceChars ++ ('j' :: 's' :: 'o' :: 'n' :: '\n'
        :: (dumpsVal v ++ '\n' :: fenceChars))) fenceChars = _
    exact splitAtSub_self_prefix _
  rw [h1]
  show (match splitAtSub (('j' :: 's' :: 'o' :: 'n' :: '\n'
        :: (dumpsVal v ++ '\n' :: fenceChars)).drop 4) fenceChars with
    | none => pyStrip (fencedWrap v)
    | some (content, _) => String.mk (pyStripList content)) = dumps v
  have h2 : splitAtSub (('j' :: 's' :: 'o' :: 'n' :: '\n'
      :: (dumpsVal v ++ '\n' :: fenceChars)).drop 4) fenceChars
      = some ('\n' :: (dumpsVal v ++ ['\n']), []) := by
    show splitAtSub ('\n' :: (dumpsVal v ++ '\n' :: fenceChars)) fenceChars = _
    rw [show '\n' :: (dumpsVal v ++ '\n' :: fenceChars)
        = ('\n' :: (dumpsVal v ++ ['\n'])) ++ (fenceChars ++ []) from by simp]
    refine splitAtSub_fence_at _ [] ?_
    intro x hx
    rcases List.mem_cons.mp hx with rfl | h3
    · decide
    rcases List.mem_append.mp h3 with h4 | h4
    · exact hbq x h4
    · simp only [List.mem_singleton] at h4
      subst h4
      decide
  rw [h2]
  show String.mk (pyStripList ('\n' :: (dumpsVal v ++ ['\n']))) = dumps v
  rw [pyStripList_wrap_nl]
  rfl

/-! ### C3: the four representations through `_parse_json_list` -/

theorem reprOkElems_of_all_litV : ∀ (items : List Json), items.all litV = true →
    reprOkElems items = true
  | [], _ => rfl
  | it :: its, h => by
      simp only [List.all_cons, Bool.and_eq_true] at h
      rw [reprOkElems]
      simp only [Bool.and_eq_true]
      exact ⟨litV_reprOk it h.1, reprOkElems_of_all_litV its h.2⟩

/-- Representation 1: the clean JSON array parses at stage 1 provided no
string smuggles in a fence. -/
theorem parseJsonList_clean (items : List Json)
    (ht : tameV (Json.arr items) = true)
    (hbq : ∀ c ∈ dumpsVal (Json.arr items), ¬ c = backquote) :
    parseJsonList (dumps (Json.arr items)) "task breakdown" = some items := by
  have hjl := jsonLoads_dumps (Json.arr items) ht
  have hnonl : ∀ x ∈ (dumps (Json.arr items)).data, ¬ x = '\n' := by
    intro x hx heq
    subst heq
    exact absurd (dumpsVal_ge32 (Json.arr items) _ hx) (by decide)
  have hunw : unwrapProviderStreamPayload (dumps (Json.arr items))
      = dumps (Json.arr items) := by
    refine unwrap_single_line_id _ '[' (dumpsElems items ++ [']']) rfl
      (pyStrip_dumps _) hnonl ?_ (by decide) ?_ ?_ (by decide)
    · intro fs hcontra
      rw [hjl] at hcontra
      simp at hcontra
    · intro heq
      have hde : dumps (Json.arr items) = "[DONE]" := by
        rw [← string_mk_data (dumps (Json.arr items)), heq]
      rw [hde, show jsonLoads "[DONE]" = none from by decide] at hjl
      exact Option.noConfusion hjl
    · intro heq
      have hde : dumps (Json.arr items) = "DONE" := by
        rw [← string_mk_data (dumps (Json.arr items)), heq]
      rw [hde, show jsonLoads "DONE" = none from by decide] at hjl
      exact Option.noConfusion hjl
  simp only [parseJsonList]
  rw [hunw, pyStrip_dumps]
  rw [if_neg (show ¬ ((dumps (Json.arr items)).data.isEmpty = true
      ∧ ¬ (dumps (Json.arr items)).data.isEmpty = true) from fun h => h.2 h.1)]
  rw [stripCodeFences_eq_strip (dumps (Json.arr items)) hbq, pyStrip_dumps]
  rw [if_neg (by
    simp only [List.isEmpty_iff]
    exact dumpsVal_ne_nil (Json.arr items))]
  rw [hjl]

/-- Representation 2: the fenced document has its fence stripped, then
parses at stage 1. -/
theorem parseJsonList_fenced (items : List Json)
    (ht : tameV (Json.arr items) = true)
    (hbq : ∀ c ∈ dumpsVal (Json.arr items), ¬ c = backquote) :
    parseJsonList (fencedWrap (Json.arr items)) "task breakdown" = some items := by
  simp only [parseJsonList]
  rw [unwrap_fenced, fencedWrap_strip]
  rw [if_neg (show ¬ ((fencedWrap (Json.arr items)).data.isEmpty = true
      ∧ ¬ (fencedWrap (Json.arr items)).data.isEmpty = true) from fun h => h.2 h.1)]
  rw [stripCodeFences_fencedWrap _ hbq]
  rw [if_neg (by
    simp only [List.isEmpty_iff]
    exact dumpsVal_ne_nil (Json.arr items))]
  rw [jsonLoads_dumps _ ht]

theorem dumps_tasks_no_backquote (items : List Json)
    (hbq : ∀ c ∈ dumpsVal (Json.arr items), ¬ c = backquote) :
    ∀ c ∈ dumpsVal (Json.obj [("tasks", Json.arr items)]), ¬ c = backquote := by
  intro c hc
  rw [show dumpsVal (Json.obj [("tasks", Json.arr items)])
      = '{' :: ((dumpsStr "tasks" ++ (':' :: ' ' :: dumpsVal (Json.arr items))) ++ ['}'])
    from rfl] at hc
  rcases List.mem_cons.mp hc with rfl | h1
  · decide
  rcases List.mem_append.mp h1 with h2 | h2
  · rcases List.mem_append.mp h2 with h3 | h3
    · intro heq
      subst heq
      exact absurd h3 (by decide)
    rcases List.mem_cons.mp h3 with rfl | h4
    · decide
    rcases List.mem_cons.mp h4 with rfl | h5
    · decide
    · exact hbq c h5
  · simp only [List.mem_singleton] at h2
    subst h2
    decide

theorem tameV_tasks_obj (items : List Json) (ht : tameV (Json.arr items) = true) :
    tameV (Json.obj [("tasks", Json.arr items)]) = true := by
  show tameFields [("tasks", Json.arr items)] = true
  rw [tameFields]
  simp only [Bool.and_eq_true]
  exact ⟨⟨by decide, ht⟩, rfl⟩

/-- The `_walk` of the object extractor finds the `"tasks"` field
immediately. -/
theorem walkNode_tasks (items : List Json) :
    walkNode (candidateKeysFor "task breakdown") 6
      (some (Json.obj [("tasks", Json.arr items)])) = some items := by
  rw [show (6 : Nat) = 5 + 1 from rfl]
  rw [walkNode]
  rw [show candidateKeysFor "task breakdown"
      = ["tasks", "task_breakdown", "taskBreakdown", "work_items", "items", "data",
         "result"] from by rw [candidateKeysFor, if_pos rfl]]
  rw [walkKeys]
  simp [jsonGet]

/-- Representation 3: the object wrapper is recovered by
`_extract_list_from_json_object` through its first candidate key. -/
theorem extractListFromJsonObject_tasks (items : List Json)
    (ht3 : tameV (Json.obj [("tasks", Json.arr items)]) = true)
    (hbq3 : ∀ c ∈ dumpsVal (Json.obj [("tasks", Json.arr items)]), ¬ c = backquote) :
    extractListFromJsonObject (dumps (Json.obj [("tasks", Json.arr items)]))
      "task breakdown" = some items := by
  rw [extractListFromJsonObject]
  rw [if_neg (by
    simp only [List.isEmpty_iff]
    exact dumpsVal_ne_nil (Json.obj [("tasks", Json.arr items)]))]
  rw [stripCodeFences_eq_strip (dumps (Json.obj [("tasks", Json.arr items)])) hbq3,
    pyStrip_dumps]
  have htp : tryParseJsonLike (dumps (Json.obj [("tasks", Json.arr items)]))
      = some (Json.obj [("tasks", Json.arr items)]) := by
    simp only [tryParseJsonLike]
    rw [stripCodeFences_eq_strip (dumps (Json.obj [("tasks", Json.arr items)])) hbq3,
      pyStrip_dumps]
    rw [if_neg (by
      simp only [List.isEmpty_iff]
      exact dumpsVal_ne_nil (Json.obj [("tasks", Json.arr items)]))]
    rw [jsonLoads_dumps _ ht3]
  show (match (match tryParseJsonLike (dumps (Json.obj [("tasks", Json.arr items)])) with
      | some (Json.obj fs) => some (Json.obj fs)
      | _ =>
          match extractFirstJsonObject (dumps (Json.obj [("tasks", Json.arr items)])) with
          | some fs => some (Json.obj fs)
          | none => none) with
    | none => none
    | some r => walkNode (candidateKeysFor "task breakdown") 6 (some r)) = some items
  rw [htp]
  exact walkNode_tasks items

/-- Representation 3 through the full cascade. -/
theorem parseJsonList_tasks_obj (items : List Json)
    (ht : tameV (Json.arr items) = true)
    (hbq : ∀ c ∈ dumpsVal (Json.arr items), ¬ c = backquote) :
    parseJsonList (dumps (Json.obj [("tasks", Json.arr items)])) "task breakdown"
      = some items := by
  have ht3 := tameV_tasks_obj items ht
  have hbq3 := dumps_tasks_no_backquote items hbq
  simp only [parseJsonList]
  rw [unwrap_tasks_obj items ht3, pyStrip_dumps]
  rw [if_neg (show ¬ ((dumps (Json.obj [("tasks", Json.arr items)])).data.isEmpty = true
      ∧ ¬ (dumps (Json.obj [("tasks", Json.arr items)])).data.isEmpty = true)
    from fun h => h.2 h.1)]
  rw [stripCodeFences_eq_strip (dumps (Json.obj [("tasks", Json.arr items)])) hbq3,
    pyStrip_dumps]
  rw [if_neg (by
    simp only [List.isEmpty_iff]
    exact dumpsVal_ne_nil (Json.obj [("tasks", Json.arr items)]))]
  rw [jsonLoads_dumps _ ht3]
  exact extractListFromJsonObject_tasks items ht3 hbq3

theorem tryParseJsonLike_repr_none (items : List Json)
    (hlit : items.all litV = true)
    (hload : jsonLoads (String.mk (pyReprVal (Json.arr items))) = none) :
    tryParseJsonLike (String.mk (pyReprVal (Json.arr items))) = none := by
  simp only [tryParseJsonLike]
  rw [stripCodeFences_eq_strip (String.mk (pyReprVal (Json.arr items)))
    (pyRepr_arr_no_backquote items hlit)]
  rw [pyStrip_pyRepr]
  rw [if_neg (by
    simp only [List.isEmpty_iff]
    exact pyReprVal_ne_nil (Json.arr items))]
  rw [hload]
  show (match extractFirstJsonArray (String.mk (pyReprVal (Json.arr items))) with
    | some xs => some (Json.arr xs)
    | none =>
        match extractFirstJsonObject (String.mk (pyReprVal (Json.arr items))) with
        | some fs => some (Json.obj fs)
        | none => none) = none
  rw [extractFirstJsonArray_repr_none items hlit hload]
  show (match extractFirstJsonObject (String.mk (pyReprVal (Json.arr items))) with
    | some fs => some (Json.obj fs)
    | none => none) = none
  rw [extractFirstJsonObject_none_of_braceOK _ (pyRepr_arr_braceOK items hlit)]

theorem extractListFromJsonObject_repr_none (items : List Json) (label : String)
    (hlit : items.all litV = true)
    (hload : jsonLoads (String.mk (pyReprVal (Json.arr items))) = none) :
    extractListFromJsonObject (String.mk (pyReprVal (Json.arr items))) label = none := by
  rw [extractListFromJsonObject]
  rw [if_neg (by
    simp only [List.isEmpty_iff]
    exact pyReprVal_ne_nil (Json.arr items))]
  rw [stripCodeFences_eq_strip (String.mk (pyReprVal (Json.arr items)))
    (pyRepr_arr_no_backquote items hlit), pyStrip_pyRepr]
  show (match (match tryParseJsonLike (String.mk (pyReprVal (Json.arr items))) with
      | some (Json.obj fs) => some (Json.obj fs)
      | _ =>
          match extractFirstJsonObject (String.mk (pyReprVal (Json.arr items))) with
          | some fs => some (Json.obj fs)
          | none => none) with
    | none => none
    | some r => walkNode (candidateKeysFor label) 6 (some r)) = none
  rw [tryParseJsonLike_repr_none items hlit hload]
  rw [extractFirstJsonObject_none_of_braceOK _ (pyRepr_arr_braceOK items hlit)]

/-- Representation 4: the single-quoted literal falls through the first
three stages and is recovered by `ast.literal_eval`, modulo the dict
filter. -/
theorem parseJsonList_repr (items : List Json)
    (hne : items ≠ [])
    (hobj : items.all isObjJson = true)
    (hlit : items.all litV = true) :
    parseJsonList (String.mk (pyReprVal (Json.arr items))) "task breakdown"
      = some items := by
  obtain ⟨it0, rest, rfl⟩ : ∃ it0 rest, items = it0 :: rest := by
    cases items with
    | nil => exact absurd rfl hne
    | cons a l => exact ⟨a, l, rfl⟩
  have hobj0 : isObjJson it0 = true := by
    simp only [List.all_cons, Bool.and_eq_true] at hobj
    exact hobj.1
  have hlit0 : litV it0 = true := by
    simp only [List.all_cons, Bool.and_eq_true] at hlit
    exact hlit.1
  obtain ⟨fs0, rfl⟩ : ∃ fs0, it0 = Json.obj fs0 := by
    cases it0 with
    | obj fs => exact ⟨fs, rfl⟩
    | null => simp [isObjJson] at hobj0
    | bool b => simp [isObjJson] at hobj0
    | num i => simp [isObjJson] at hobj0
    | str s => simp [isObjJson] at hobj0
    | arr es => simp [isObjJson] at hobj0
  have hfs : litFields fs0 = true ∧ ¬ fs0.isEmpty = true := by
    rw [litV] at hlit0
    simp only [Bool.and_eq_true, Bool.not_eq_true'] at hlit0
    exact ⟨hlit0.2, by rw [hlit0.1]; simp⟩
  obtain ⟨⟨k, v⟩, fs0', rfl⟩ : ∃ kv fs0', fs0 = kv :: fs0' := by
    cases fs0 with
    | nil => exact absurd rfl hfs.2
    | cons kv l => exact ⟨kv, l, rfl⟩
  have hk : k.data.all litChar = true := by
    have hlf := hfs.1
    rw [litFields] at hlf
    simp only [Bool.and_eq_true] at hlf
    exact hlf.1.1
  obtain ⟨X, hshape⟩ := pyRepr_arr_obj_shape k v fs0' rest hk
  have hload : jsonLoads (String.mk
      (pyReprVal (Json.arr (Json.obj ((k, v) :: fs0') :: rest)))) = none :=
    jsonLoads_listBraceQuote _ X hshape
  have hnonl : ∀ x ∈ (String.mk
      (pyReprVal (Json.arr (Json.obj ((k, v) :: fs0') :: rest)))).data, ¬ x = '\n' := by
    intro x hx heq
    subst heq
    exact absurd (pyReprVal_ge32 (Json.arr (Json.obj ((k, v) :: fs0') :: rest)) _ hx)
      (by decide)
  have hunw : unwrapProviderStreamPayload (String.mk
      (pyReprVal (Json.arr (Json.obj ((k, v) :: fs0') :: rest))))
      = String.mk (pyReprVal (Json.arr (Json.obj ((k, v) :: fs0') :: rest))) := by
    refine unwrap_single_line_id _ '['
      (pyReprElems (Json.obj ((k, v) :: fs0') :: rest) ++ [']']) rfl
      (pyStrip_pyRepr _) hnonl ?_ (by decide) ?_ ?_ (by decide)
    · intro fs hcontra
      rw [hload] at hcontra
      exact Option.noConfusion hcontra
    · intro heq
      have heq2 : pyReprVal (Json.arr (Json.obj ((k, v) :: fs0') :: rest))
          = ['[', 'D', 'O', 'N', 'E', ']'] := heq
      rw [hshape] at heq2
      simp at heq2
    · intro heq
      have heq2 : pyReprVal (Json.arr (Json.obj ((k, v) :: fs0') :: rest))
          = ['D', 'O', 'N', 'E'] := heq
      rw [hshape] at heq2
      simp at heq2
  simp only [parseJsonList]
  rw [hunw, pyStrip_pyRepr]
  rw [if_neg (show ¬ ((String.mk
        (pyReprVal (Json.arr (Json.obj ((k, v) :: fs0') :: rest)))).data.isEmpty = true
      ∧ ¬ (String.mk
        (pyReprVal (Json.arr (Json.obj ((k, v) :: fs0') :: rest)))).data.isEmpty = true)
    from fun h => h.2 h.1)]
  rw [stripCodeFences_eq_strip
    (String.mk (pyReprVal (Json.arr (Json.obj ((k, v) :: fs0') :: rest))))
    (pyRepr_arr_no_backquote _ hlit), pyStrip_pyRepr]
  rw [if_neg (by
    simp only [List.isEmpty_iff]
    exact pyReprVal_ne_nil (Json.arr (Json.obj ((k, v) :: fs0') :: rest)))]
  rw [hload]
  show (match extractFirstJsonArray (String.mk
      (pyReprVal (Json.arr (Json.obj ((k, v) :: fs0') :: rest)))) with
    | some xs => some xs
    | none =>
        match extractListFromJsonObject (String.mk
            (pyReprVal (Json.arr (Json.obj ((k, v) :: fs0') :: rest)))) "task breakdown" with
        | some l => some l
        | none => tryLiteralEvalList (String.mk
            (pyReprVal (Json.arr (Json.obj ((k, v) :: fs0') :: rest)))) "task breakdown")
    = some (Json.obj ((k, v) :: fs0') :: rest)
  rw [extractFirstJsonArray_repr_none _ hlit hload]
  show (match extractListFromJsonObject (String.mk
      (pyReprVal (Json.arr (Json.obj ((k, v) :: fs0') :: rest)))) "task breakdown" with
    | some l => some l
    | none => tryLiteralEvalList (String.mk
        (pyReprVal (Json.arr (Json.obj ((k, v) :: fs0') :: rest)))) "task breakdown")
    = some (Json.obj ((k, v) :: fs0') :: rest)
  rw [extractListFromJsonObject_repr_none _ _ hlit hload]
  show tryLiteralEvalList (String.mk
      (pyReprVal (Json.arr (Json.obj ((k, v) :: fs0') :: rest)))) "task breakdown"
    = some (Json.obj ((k, v) :: fs0') :: rest)
  simp only [tryLiteralEvalList]
  rw [literalEval_pyRepr _ (show reprOkV (Json.arr (Json.obj ((k, v) :: fs0') :: rest)) = true
    from reprOkElems_of_all_litV _ hlit)]
  show some ((Json.obj ((k, v) :: fs0') :: rest).filter isObjJson)
    = some (Json.obj ((k, v) :: fs0') :: rest)
  rw [List.filter_eq_self.mpr (fun a ha => List.all_eq_true.mp hobj a ha)]

/-- C3 counterexample: the claim fails on two reachable inputs.  First, a
clean JSON array of task objects whose string content contains markdown
fences is destroyed by `_strip_code_fences` (the code strips fences
*before* the first strict parse, not after it as the claim's stage order
says), and the whole cascade returns `None`.  Second, a single-quoted
Python literal with a nested numeric list is hijacked by the
first-balanced-array scan (stage 2), which returns the inner `[1]` —
not a list of dicts and not equivalent to the input. -/
theorem parseJsonList_counterexample :
    (dumps (Json.arr [Json.obj [("d", Json.str "a```b```c")]])
        = "[\x7b\"d\": \"a```b```c\"\x7d]"
      ∧ parseJsonList "[\x7b\"d\": \"a```b```c\"\x7d]" "task breakdown" = none)
    ∧ (parseJsonList "[\x7b'a': [1]\x7d]" "task breakdown" = some [Json.num 1]
      ∧ literalEval "[\x7b'a': [1]\x7d]"
          = some (Json.arr [Json.obj [("a", Json.arr [Json.num 1])]])) := by
  decide

/-- C3 (amended): for a non-empty list of task objects whose serialized
form contains no markdown fence, whose keys and string values stay in the
`litChar` range (printable, no quotes, brackets, braces or backquotes)
and whose values nest no lists, all four textual representations recover
exactly the original items through `_parse_json_list`: the clean JSON
array and the object wrapper `\x7b"tasks": [...]\x7d` via the strict parse
(the latter through the candidate-key walk), the fenced form via the
fence-stripping regex followed by the strict parse, and the single-quoted
Python literal via `ast.literal_eval` after the three JSON stages fail on
it. -/
theorem parseJsonList_four_representations (items : List Json)
    (hne : items ≠ [])
    (htame : tameV (Json.arr items) = true)
    (hbq : ∀ c ∈ dumpsVal (Json.arr items), ¬ c = backquote)
    (hobj : items.all isObjJson = true)
    (hlit : items.all litV = true) :
    parseJsonList (dumps (Json.arr items)) "task breakdown" = some items
    ∧ parseJsonList (fencedWrap (Json.arr items)) "task breakdown" = some items
    ∧ parseJsonList (dumps (Json.obj [("tasks", Json.arr items)])) "task breakdown"
        = some items
    ∧ parseJsonList (String.mk (pyReprVal (Json.arr items))) "task breakdown"
        = some items :=
  ⟨parseJsonList_clean items htame hbq, parseJsonList_fenced items htame hbq,
    parseJsonList_tasks_obj items htame hbq, parseJsonList_repr items hne hobj hlit⟩

/-- C3 witness: the amended theorem applied to the one-task plan
`[\x7b"title": "a"\x7d]`, every hypothesis discharged by evaluation. -/
theorem parseJsonList_four_representations_witness :
    (tameV (Json.arr [Json.obj [("title", Json.str "a")]]) = true
      ∧ [Json.obj [("title", Json.str "a")]].all litV = true)
    ∧ (parseJsonList (dumps (Json.arr [Json.obj [("title", Json.str "a")]]))
          "task breakdown" = some [Json.obj [("title", Json.str "a")]]
      ∧ parseJsonList (fencedWrap (Json.arr [Json.obj [("title", Json.str "a")]]))
          "task breakdown" = some [Json.obj [("title", Json.str "a")]]
      ∧ parseJsonList (dumps (Json.obj [("tasks",
            Json.arr [Json.obj [("title", Json.str "a")]])])) "task breakdown"
          = some [Json.obj [("title", Json.str "a")]]
      ∧ parseJsonList (String.mk (pyReprVal
            (Json.arr [Json.obj [("title", Json.str "a")]]))) "task breakdown"
          = some [Json.obj [("title", Json.str "a")]]) :=
  ⟨⟨by decide, by decide⟩,
    parseJsonList_four_representations [Json.obj [("title", Json.str "a")]]
      (by decide) (by decide) (by decide) (by decide) (by decide)⟩

/-! ## Claim C4: task fallback after an unparsable breakdown
    (`_fallback_tasks_from_context` planner.py 67-122,
    `_derive_tasks_from_text` planner.py 426-499, and the recovery
    composition in `plan()` lines 597-617). -/

/-- The line-break characters recognised by Python's `str.splitlines()`. -/
def pySplitlinesBreak (c : Char) : Bool :=
  c == '\n' || c == '\r' || c == '\x0b' || c == '\x0c' ||
  c == Char.ofNat 28 || c == Char.ofNat 29 || c == Char.ofNat 30 ||
  c == Char.ofNat 133 || c == Char.ofNat 8232 || c == Char.ofNat 8233

/-- Python's `str.splitlines()`: no trailing empty line, `\r\n` counts as a
single break. -/
def splitLinesAux : List Char → List Char → List (List Char)
  | [], [] => []
  | [], acc => [acc.reverse]
  | '\r' :: '\n' :: rest, acc => acc.reverse :: splitLinesAux rest []
  | c :: rest, acc =>
      if pySplitlinesBreak c then acc.reverse :: splitLinesAux rest []
      else splitLinesAux rest (c :: acc)

/-- Python's `str.splitlines()` on a character list. -/
def splitLines (cs : List Char) : List (List Char) := splitLinesAux cs []

/-- Python's `str.rstrip(":")`. -/
def rstripColon (cs : List Char) : List Char :=
  (cs.reverse.dropWhile (fun c => c == ':')).reverse

/-- `re.match(r"^\d+[\.)]\s+", s)` distilled: `some rest` is the text left
after removing the matched numbered prefix (what the anchored `re.sub`
keeps), `none` when the pattern does not match the start of `s`. -/
def numPrefixRest (cs : List Char) : Option (List Char) :=
  let digits := cs.takeWhile isDigitChar
  if digits.isEmpty then none
  else
    match cs.drop digits.length with
    | c :: rest =>
        if c == '.' || c == ')' then
          let ws := rest.takeWhile pyIsSpace
          if ws.isEmpty then none else some (rest.drop ws.length)
        else none
    | [] => none

/-- The section-closing prefixes checked while inside `requirements`. -/
def reqStops : List (List Char) :=
  ["non-goals".data, "## non-goals".data, "technical constraints".data,
   "## technical constraints".data]

/-- The line loop of `_derive_tasks_from_text`: collect numbered lines
everywhere and `-`/`*` bullets inside a `requirements` section. -/
def deriveReqLines : List (List Char) → Bool → List (List Char)
  | [], _ => []
  | line :: rest, inReq =>
      let cleaned := pyStripList ((pyStripList line).dropWhile (fun c => c == '•'))
      if cleaned.isEmpty then deriveReqLines rest inReq
      else
        let lowered := rstripColon (cleaned.map Char.toLower)
        if lowered = "requirements".data ∨ lowered = "## requirements".data then
          deriveReqLines rest true
        else
          let inReq2 :=
            if inReq && reqStops.any (fun p => listStartsWith lowered p) then false
            else inReq
          match numPrefixRest cleaned with
          | some remTail => remTail :: deriveReqLines rest inReq2
          | none =>
              if inReq2 && (listStartsWith cleaned ['-'] || listStartsWith cleaned ['*'])
              then pyStripList (cleaned.drop 1) :: deriveReqLines rest inReq2
              else deriveReqLines rest inReq2

/-- Decimal rendering of a natural number as a `String` (Python `f"{idx}"`). -/
def natStr (n : Nat) : String := String.mk (natChars n)

/-- The summary truncation pattern `s.strip()[:keep] + "..."` applied when
the stripped length exceeds `cap` (240/237 and 160/157 in the source). -/
def pyTruncSummary (cap keep : Nat) (s : String) : String :=
  let t := pyStripList s.data
  if t.length > cap then String.mk (t.take keep ++ ['.', '.', '.'])
  else String.mk t

/-- One derived requirement task (`_derive_tasks_from_text` loop body,
`enumerate(..., start=1)` index). -/
def reqTask (idx : Nat) (req : List Char) : TaskSpec :=
  { key := "t" ++ natStr idx
  , title := "Implement requirement " ++ natStr idx
  , description := "Deliver requirement: " ++ String.mk req ++
      ". Include concrete acceptance checks in the final report."
  , task_type := "agent"
  , priority := if idx ≤ 3 then "high" else "medium"
  , tags := ["requirement", "implementation"]
  , estimated_minutes := 45
  , required_specialties := ["python"]
  , blocked_by_keys := if 1 < idx then ["t" ++ natStr (idx - 1)] else [] }

/-- The requirement-task accumulation loop, indices counted from `idx`. -/
def buildReqTasks : Nat → List (List Char) → List TaskSpec
  | _, [] => []
  | idx, r :: rs => reqTask idx r :: buildReqTasks (idx + 1) rs

instance : Inhabited TaskSpec :=
  ⟨{ key := "", title := "", description := "", task_type := "", priority := ""
   , tags := [], estimated_minutes := 0, required_specialties := []
   , blocked_by_keys := [] }⟩

/-- The trailing human-review task appended by `_derive_tasks_from_text`. -/
def reviewTask (projectDescription : String) (tasks : List TaskSpec) : TaskSpec :=
  { key := "t" ++ natStr (tasks.length + 1)
  , title := "Human review and approval"
  , description := "Review implemented requirements and confirm next actions. " ++
      "Project summary: " ++ pyTruncSummary 160 157 projectDescription
  , task_type := "human"
  , priority := "medium"
  , tags := ["review", "approval"]
  , estimated_minutes := 15
  , required_specialties := ["user"]
  , blocked_by_keys := [(tasks.getLastD default).key] }

/-- `_derive_tasks_from_text`: unwrap the stream payload, harvest
numbered/bulleted requirement lines, keep at most 12, chain them and
append the review task. -/
def deriveTasksFromText (raw projectDescription : String) : List TaskSpec :=
  let text := unwrapProviderStreamPayload raw
  if text = "" then []
  else
    let reqLines := deriveReqLines (splitLines text.data) false
    if reqLines.isEmpty then []
    else
      let tasks := buildReqTasks 1 (reqLines.take 12)
      tasks ++ [reviewTask projectDescription tasks]

/-- First task of `_fallback_tasks_from_context`. -/
def fallbackTask1 (summary : String) : TaskSpec :=
  { key := "t1"
  , title := "Analyze current project files and constraints"
  , description := "Inspect the provided workspace/files, summarize current state, " ++
      "and produce a concrete implementation checklist. User request summary: " ++ summary
  , task_type := "agent"
  , priority := "high"
  , tags := ["analysis", "planning"]
  , estimated_minutes := 45
  , required_specialties := ["python"]
  , blocked_by_keys := [] }

/-- Second task of `_fallback_tasks_from_context`. -/
def fallbackTask2 : TaskSpec :=
  { key := "t2"
  , title := "Implement approved changes and verify behavior"
  , description := "Apply required code changes based on analysis, run validation " ++
      "checks/tests, and report results with file-level notes."
  , task_type := "agent"
  , priority := "high"
  , tags := ["implementation", "testing"]
  , estimated_minutes := 90
  , required_specialties := ["python", "testing"]
  , blocked_by_keys := ["t1"] }

/-- Third task of `_fallback_tasks_from_context`. -/
def fallbackTask3 : TaskSpec :=
  { key := "t3"
  , title := "Human review and approval"
  , description := "Review proposed/implemented changes and approve next actions, " ++
      "including any install/execute steps requiring explicit consent."
  , task_type := "human"
  , priority := "medium"
  , tags := ["review", "approval"]
  , estimated_minutes := 15
  , required_specialties := ["user"]
  , blocked_by_keys := ["t2"] }

/-- `_fallback_tasks_from_context`: the fixed three-task minimal plan. -/
def fallbackTasksFromContext (projectDescription : String) : List TaskSpec :=
  [fallbackTask1 (pyTruncSummary 240 237 projectDescription), fallbackTask2,
   fallbackTask3]

/-- The recovery composition of `plan()` (lines 597-617) once both
breakdown attempts parse to no tasks: derive from the latest raw response,
fall back to the fixed plan when derivation is empty. -/
def tasksAfterParseFailure (tasksRaw projectDescription : String) : List TaskSpec :=
  let derived := deriveTasksFromText tasksRaw projectDescription
  if derived.isEmpty then fallbackTasksFromContext projectDescription else derived

/-- Every task after the head is blocked exactly by its predecessor's key. -/
def chainedFrom : List TaskSpec → TaskSpec → Bool
  | [], _ => true
  | t :: ts, prev => decide (t.blocked_by_keys = [prev.key]) && chainedFrom ts t

/-- A sequentially chained plan: no blockers on the first task, and each
later task blocked exactly by the task before it. -/
def chainedTasks : List TaskSpec → Bool
  | [] => true
  | t :: ts => t.blocked_by_keys.isEmpty && chainedFrom ts t

theorem buildReqTasks_task_type (idx : Nat) (rs : List (List Char)) :
    ∀ t ∈ buildReqTasks idx rs, t.task_type = "agent" := by
  induction rs generalizing idx with
  | nil => intro t ht; cases ht
  | cons r rs ih =>
      intro t ht
      rw [buildReqTasks] at ht
      rcases List.mem_cons.mp ht with h | h
      · rw [h]; rfl
      · exact ih (idx + 1) t h

theorem buildReqTasks_last_key (idx : Nat) (r : List Char) (rs : List (List Char))
    (d : TaskSpec) :
    ((buildReqTasks idx (r :: rs)).getLastD d).key = "t" ++ natStr (idx + rs.length) := by
  induction rs generalizing idx r d with
  | nil => rfl
  | cons r2 rs ih =>
      show (List.getLastD (reqTask idx r :: buildReqTasks (idx + 1) (r2 :: rs)) d).key = _
      rw [List.getLastD_cons, ih (idx + 1) r2 (reqTask idx r)]
      have harith : idx + 1 + rs.length = idx + (r2 :: rs).length := by
        rw [List.length_cons]; omega
      rw [harith]

theorem buildReqTasks_chainedFrom (rs : List (List Char)) (idx : Nat)
    (prev final : TaskSpec) (hidx : 1 ≤ idx)
    (hprev : prev.key = "t" ++ natStr idx)
    (hfinal : final.blocked_by_keys = ["t" ++ natStr (idx + rs.length)]) :
    chainedFrom (buildReqTasks (idx + 1) rs ++ [final]) prev = true := by
  induction rs generalizing idx prev with
  | nil =>
      show chainedFrom [final] prev = true
      rw [chainedFrom, hfinal, hprev]
      simp [chainedFrom]
  | cons r rs ih =>
      show chainedFrom (reqTask (idx + 1) r :: (buildReqTasks (idx + 2) rs ++ [final]))
        prev = true
      rw [chainedFrom]
      have hb : (reqTask (idx + 1) r).blocked_by_keys = ["t" ++ natStr idx] := by
        show (if 1 < idx + 1 then ["t" ++ natStr (idx + 1 - 1)] else []) = _
        rw [if_pos (by omega)]
        have : idx + 1 - 1 = idx := by omega
        rw [this]
      rw [hb, hprev]
      have h1 : (decide ((["t" ++ natStr idx] : List String) = ["t" ++ natStr idx])) = true := by
        simp
      rw [h1, Bool.true_and]
      have harith : idx + (r :: rs).length = idx + 1 + rs.length := by
        rw [List.length_cons]; omega
      rw [harith] at hfinal
      exact ih (idx + 1) (reqTask (idx + 1) r) (by omega) rfl hfinal

theorem deriveTasksFromText_eq (raw desc : String) :
    deriveTasksFromText raw desc = []
    ∨ ∃ r rs, deriveTasksFromText raw desc
        = buildReqTasks 1 (r :: rs)
          ++ [reviewTask desc (buildReqTasks 1 (r :: rs))] := by
  by_cases h1 : unwrapProviderStreamPayload raw = ""
  · left; simp [deriveTasksFromText, h1]
  · by_cases h2 :
      (deriveReqLines (splitLines (unwrapProviderStreamPayload raw).data) false).isEmpty
    · left; simp [deriveTasksFromText, h1, h2]
    · cases hrl : deriveReqLines (splitLines (unwrapProviderStreamPayload raw).data) false
        with
      | nil => rw [hrl] at h2; exact (h2 rfl).elim
      | cons r rl =>
          right
          refine ⟨r, rl.take 11, ?_⟩
          simp only [deriveTasksFromText]
          rw [if_neg h1, hrl, if_neg (by simp),
            show (12 : Nat) = 11 + 1 from rfl, List.take_succ_cons]

/-- C4: when both task-breakdown attempts parse to no tasks, the recovery
composition of `plan()` still produces a non-empty plan that is chained
sequentially (the first task unblocked, every later task blocked exactly by
its predecessor's key) and ends in a single terminal human-review task of
task_type "human", all earlier tasks being agent tasks; and when prose
derivation also yields nothing, the result is exactly the fixed three-task
fallback analyze / implement-and-verify / human-review chained t1 - t2 - t3. -/
theorem planTasks_after_parse_failure (tasksRaw projectDescription : String) :
    tasksAfterParseFailure tasksRaw projectDescription ≠ []
    ∧ chainedTasks (tasksAfterParseFailure tasksRaw projectDescription) = true
    ∧ (∃ front done_task,
        tasksAfterParseFailure tasksRaw projectDescription = front ++ [done_task]
        ∧ done_task.task_type = "human"
        ∧ done_task.title = "Human review and approval"
        ∧ ∀ t ∈ front, t.task_type = "agent")
    ∧ (deriveTasksFromText tasksRaw projectDescription = [] →
        (tasksAfterParseFailure tasksRaw projectDescription).map
            (fun t => (t.key, t.title, t.task_type, t.blocked_by_keys))
          = [("t1", "Analyze current project files and constraints", "agent",
                ([] : List String)),
             ("t2", "Implement approved changes and verify behavior", "agent",
                (["t1"] : List String)),
             ("t3", "Human review and approval", "human",
                (["t2"] : List String))]) := by
  rcases deriveTasksFromText_eq tasksRaw projectDescription with hd | ⟨r, rs, hd⟩
  · have hres : tasksAfterParseFailure tasksRaw projectDescription
        = fallbackTasksFromContext projectDescription := by
      simp [tasksAfterParseFailure, hd]
    refine ⟨?_, ?_, ?_, ?_⟩
    · rw [hres]; simp [fallbackTasksFromContext]
    · rw [hres]
      simp [fallbackTasksFromContext, chainedTasks, chainedFrom,
        fallbackTask1, fallbackTask2, fallbackTask3]
    · refine ⟨[fallbackTask1 (pyTruncSummary 240 237 projectDescription),
        fallbackTask2], fallbackTask3, ?_, rfl, rfl, ?_⟩
      · rw [hres]; rfl
      · intro t ht
        rcases List.mem_cons.mp ht with h | h
        · rw [h]; rfl
        · rcases List.mem_cons.mp h with h | h
          · rw [h]; rfl
          · cases h
    · intro _; rw [hres]; rfl
  · have hne : deriveTasksFromText tasksRaw projectDescription ≠ [] := by
      rw [hd]; simp
    have hres : tasksAfterParseFailure tasksRaw projectDescription
        = deriveTasksFromText tasksRaw projectDescription := by
      rw [tasksAfterParseFailure]
      rw [if_neg (by simpa [List.isEmpty_iff] using hne)]
    refine ⟨?_, ?_, ?_, ?_⟩
    · rw [hres, hd]; simp
    · rw [hres, hd]
      have hfin : (reviewTask projectDescription
          (buildReqTasks 1 (r :: rs))).blocked_by_keys
          = ["t" ++ natStr (1 + rs.length)] := by
        show [((buildReqTasks 1 (r :: rs)).getLastD default).key] = _
        rw [buildReqTasks_last_key]
      generalize hrev : reviewTask projectDescription (buildReqTasks 1 (r :: rs)) = rev
      rw [hrev] at hfin
      rw [buildReqTasks, List.cons_append, chainedTasks]
      have hb0 : (reqTask 1 r).blocked_by_keys = [] := by
        show (if 1 < 1 then ["t" ++ natStr (1 - 1)] else []) = []
        rw [if_neg (by omega)]
      rw [hb0]
      rw [buildReqTasks_chainedFrom rs 1 (reqTask 1 r) rev (by omega) rfl hfin]
      rfl
    · refine ⟨buildReqTasks 1 (r :: rs),
        reviewTask projectDescription (buildReqTasks 1 (r :: rs)), ?_, rfl, rfl, ?_⟩
      · rw [hres, hd]
      · exact buildReqTasks_task_type 1 (r :: rs)
    · intro h
      rw [h] at hd
      exact absurd hd.symm (by simp)

/-! ## The `_run_prompt` accumulation loop (planner.py lines 697-857),
    shared model for claims C6, C8 and C10.

The provider stream is modelled as a list of events, each carrying the
time gap (an exact rational, in seconds) since the previous event and
either the end-of-stream signal (`StopAsyncIteration`) or a chunk with its
`type` and `content`.  An empty remaining event list models a stream that
stays silent forever, so the pending `asyncio.wait_for` necessarily times
out.  A chunk whose gap exceeds the computed `wait_for` timeout is never
received: the `TimeoutError` branch runs instead.  The exception messages
built from f-strings are abstracted to the outcome constructors, keeping
the provider-error `side` classification and the compacted error text. -/

/-- One step of the provider stream: end of iteration, or a chunk. -/
inductive PChunk where
  | stopIter
  | item (ty : String) (content : String)
deriving DecidableEq

/-- A stream event: arrival gap in seconds, then the chunk. -/
structure PEvent where
  gap : ℚ
  chunk : PChunk
deriving DecidableEq

/-- How `_run_prompt` ends: a returned string, one of the two
`TimeoutError`s, or the classified `RuntimeError` for an error chunk. -/
inductive RunOutcome where
  | ok (text : String)
  | overallTimeout
  | stallTimeout
  | backendError (side : String) (message : String)
deriving DecidableEq

/-- Python's `str.split()` (no argument): words between whitespace runs. -/
def pySplitWsAux : List Char → List Char → List (List Char)
  | [], [] => []
  | [], acc => [acc.reverse]
  | c :: rest, acc =>
      if pyIsSpace c then
        if acc.isEmpty then pySplitWsAux rest []
        else acc.reverse :: pySplitWsAux rest []
      else pySplitWsAux rest (c :: acc)

/-- Python's `str.split()` on a character list. -/
def pySplitWs (cs : List Char) : List (List Char) := pySplitWsAux cs []

/-- `" ".join(words)` on character lists. -/
def joinSpace : List (List Char) → List Char
  | [] => []
  | [w] => w
  | w :: w2 :: ws => w ++ ' ' :: joinSpace (w2 :: ws)

/-- `" ".join(s.split())`: whitespace-normalise a string. -/
def wsJoin (s : String) : String := String.mk (joinSpace (pySplitWs s.data))

/-- The `side` classification of an error chunk (`_run_prompt` lines
783-793), applied to the lowered error text. -/
def errorSide (lowered : String) : String :=
  if ["401", "unauthorized", "api key", "forbidden", "authentication"].any
      (fun t => containsSub lowered t) then "llm_provider_auth"
  else if ["quota", "insufficient_quota", "billing", "max budget"].any
      (fun t => containsSub lowered t) then "llm_provider_quota"
  else if ["timeout", "connection", "dns", "ssl", "temporarily unavailable"].any
      (fun t => containsSub lowered t) then "network_or_provider_availability"
  else "backend"

/-- `compact_error`: whitespace-collapse, truncated to 420 characters. -/
def compactError (rawError : String) : String :=
  let compact := wsJoin rawError
  if compact.length > 420 then String.mk (compact.data.take 420) ++ "..."
  else compact

/-- The overall/idle timeout pair chosen from the backend name
(`_run_prompt` lines 719-725). -/
def plannerTimeouts (backendName : String) : ℚ × ℚ :=
  if backendName = "open_interpreter" then (900, 180) else (300, 60)

/-- `expect_json = "json" in (prompt or "").lower()`. -/
def expectJsonOf (prompt : String) : Bool := containsSub (pyLower prompt) "json"

/-- Total accumulated length, `sum(len(part) for part in output_parts)`. -/
def partsLen (parts : List String) : Nat := (parts.map String.length).sum

/-- Result of processing one received chunk: leave the loop with an
outcome, or continue with updated `output_parts` / `recent_norm_chunks`. -/
inductive StepRes where
  | halt (r : RunOutcome)
  | next (parts recent : List String)
deriving DecidableEq

/-- The per-chunk body of the `_run_prompt` loop (lines 774-846).  The
heartbeat test and the repetition guard both normalise the chunk with
`" ".join(content.lower().split())`; the shared value is computed once.
`recent` models the `deque(maxlen=12)` (never longer than 12 by
construction). -/
def runPromptStep (expectJson : Bool) (parts recent : List String) :
    PChunk → StepRes
  | PChunk.stopIter => StepRes.halt (RunOutcome.ok (String.join parts))
  | PChunk.item ty content =>
      if ty = "done" then StepRes.halt (RunOutcome.ok (String.join parts))
      else if ty = "error" then
        let rawError :=
          pyStrip (if content = "" then "Unknown backend error" else content)
        StepRes.halt (RunOutcome.backendError (errorSide (pyLower rawError))
          (compactError rawError))
      else if ty ≠ "message" then StepRes.next parts recent
      else if content = "" then StepRes.next parts recent
      else
        let normalized := wsJoin (pyLower content)
        if expectJson = true ∧ (normalized = "⏳ still processing..."
            ∨ normalized = "still processing...") then
          StepRes.next parts recent
        else
          let parts2 := parts ++ [content]
          let early : Option (List Json) :=
            if expectJson then extractFirstJsonArray (String.join parts2)
            else none
          match early with
          | some xs => StepRes.halt (RunOutcome.ok (dumps (Json.arr xs)))
          | none =>
              if partsLen parts2 ≥ 120000 then
                StepRes.halt (RunOutcome.ok (String.join parts2))
              else if normalized ≠ "" then
                let recent2 :=
                  if recent.length = 12 then recent.drop 1 ++ [normalized]
                  else recent ++ [normalized]
                if 8 ≤ recent2.length ∧ recent2.dedup.length ≤ 2 then
                  StepRes.halt (RunOutcome.ok (String.join parts2))
                else StepRes.next parts2 recent2
              else StepRes.next parts2 recent

/-- The accumulation loop of `_run_prompt` (lines 739-857): overall-timeout
check, `wait_for` with the idle ceiling, then the per-chunk body. -/
def runPromptLoop (expectJson : Bool) (overallT idleT : ℚ) :
    List PEvent → List String → List String → ℚ → RunOutcome
  | [], parts, _, elapsed =>
      if elapsed ≥ overallT then RunOutcome.overallTimeout
      else if expectJson = false ∧ parts ≠ [] then RunOutcome.ok (String.join parts)
      else RunOutcome.stallTimeout
  | ev :: evs, parts, recent, elapsed =>
      if elapsed ≥ overallT then RunOutcome.overallTimeout
      else if min idleT (max (1/10 : ℚ) (overallT - elapsed)) < ev.gap then
        if expectJson = false ∧ parts ≠ [] then RunOutcome.ok (String.join parts)
        else RunOutcome.stallTimeout
      else
        match runPromptStep expectJson parts recent ev.chunk with
        | StepRes.halt r => r
        | StepRes.next parts2 recent2 =>
            runPromptLoop expectJson overallT idleT evs parts2 recent2
              (elapsed + ev.gap)

/-- `_run_prompt` on a fixed prompt/backend and event stream. -/
def runPrompt (prompt backendName : String) (events : List PEvent) : RunOutcome :=
  runPromptLoop (expectJsonOf prompt) (plannerTimeouts backendName).1
    (plannerTimeouts backendName).2 events [] [] 0

/-- The largest chunk content length in an event stream. -/
def maxContentLen : List PEvent → Nat
  | [] => 0
  | ev :: evs =>
      match ev.chunk with
      | PChunk.item _ content => max content.length (maxContentLen evs)
      | _ => maxContentLen evs

/-- C6: when the per-chunk wait of `_run_prompt` times out (the next event
would arrive later than the idle-gap ceiling, with the overall timer not
yet expired), the phase returns the partial accumulated text exactly when
it does not expect JSON and at least one message chunk was accumulated;
when it expects JSON, or nothing was accumulated, it raises the stall
`TimeoutError`. -/
theorem runPromptLoop_idle_stall (expectJson : Bool) (overallT idleT : ℚ)
    (ev : PEvent) (evs : List PEvent) (parts recent : List String) (elapsed : ℚ)
    (hel : elapsed < overallT)
    (hgap : min idleT (max (1/10 : ℚ) (overallT - elapsed)) < ev.gap) :
    (expectJson = false ∧ parts ≠ [] →
      runPromptLoop expectJson overallT idleT (ev :: evs) parts recent elapsed
        = RunOutcome.ok (String.join parts))
    ∧ (expectJson = true ∨ parts = [] →
      runPromptLoop expectJson overallT idleT (ev :: evs) parts recent elapsed
        = RunOutcome.stallTimeout) := by
  rw [runPromptLoop, if_neg (by exact fun h => absurd hel (by exact not_lt.mpr h)),
    if_pos hgap]
  constructor
  · intro h; rw [if_pos h]
  · intro h
    rw [if_neg]
    rintro ⟨h1, h2⟩
    rcases h with h | h
    · rw [h] at h1; exact absurd h1 (by decide)
    · exact h2 h

/-- C6 witness: a text phase that accumulated one chunk then stalls keeps
the partial text, while a JSON phase in the same position raises. -/
theorem runPromptLoop_idle_stall_witness :
    ((2 : ℚ) < 300 ∧ min (60 : ℚ) (max (1/10 : ℚ) (300 - 2)) < (400 : ℚ))
    ∧ runPromptLoop false 300 60 [⟨400, PChunk.stopIter⟩] ["hello "] [] 2
        = RunOutcome.ok (String.join ["hello "])
    ∧ runPromptLoop true 300 60 [⟨400, PChunk.stopIter⟩] ["hello "] [] 2
        = RunOutcome.stallTimeout :=
  ⟨⟨by norm_num, by norm_num⟩,
    (runPromptLoop_idle_stall false 300 60 ⟨400, PChunk.stopIter⟩ [] ["hello "] [] 2
        (by norm_num) (by norm_num)).1 ⟨rfl, by simp⟩,
    (runPromptLoop_idle_stall true 300 60 ⟨400, PChunk.stopIter⟩ [] ["hello "] [] 2
        (by norm_num) (by norm_num)).2 (Or.inl rfl)⟩

/-- Step lemma: an accepted message chunk whose joined accumulation
contains a balanced JSON array halts the loop with the re-serialised
array. -/
theorem runPromptStep_json_early (parts recent : List String) (content : String)
    (xs : List Json) (hc : ¬ content = "")
    (hhb : ¬ (wsJoin (pyLower content) = "⏳ still processing..."
        ∨ wsJoin (pyLower content) = "still processing..."))
    (hx : extractFirstJsonArray (String.join (parts ++ [content])) = some xs) :
    runPromptStep true parts recent (PChunk.item "message" content)
      = StepRes.halt (RunOutcome.ok (dumps (Json.arr xs))) := by
  simp [runPromptStep, hc, hhb, hx]

/-- C8: for a phase that expects JSON, as soon as an accepted message chunk
makes the joined accumulated text contain a first balanced top-level array
(per the string-aware bracket scanner), `_run_prompt` returns immediately
with that array re-serialised by `json.dumps`, regardless of any further
stream events. -/
theorem runPromptLoop_json_early_return (overallT idleT gap : ℚ)
    (content : String) (evs : List PEvent) (parts recent : List String)
    (elapsed : ℚ) (xs : List Json)
    (hel : elapsed < overallT)
    (hgap : ¬ min idleT (max (1/10 : ℚ) (overallT - elapsed)) < gap)
    (hc : ¬ content = "")
    (hhb : ¬ (wsJoin (pyLower content) = "⏳ still processing..."
        ∨ wsJoin (pyLower content) = "still processing..."))
    (hx : extractFirstJsonArray (String.join (parts ++ [content])) = some xs) :
    runPromptLoop true overallT idleT
        (⟨gap, PChunk.item "message" content⟩ :: evs) parts recent elapsed
      = RunOutcome.ok (dumps (Json.arr xs)) := by
  rw [runPromptLoop]
  rw [if_neg (fun h => absurd hel (not_lt.mpr h)), if_neg hgap,
    runPromptStep_json_early parts recent content xs hc hhb hx]

/-- C8 witness: the chunk `"2]"` completes the array begun by `"[1, "` and
the loop returns its serialisation at once. -/
theorem runPromptLoop_json_early_return_witness :
    ((0 : ℚ) < 300 ∧ ¬ min (60 : ℚ) (max (1/10 : ℚ) (300 - 0)) < 1
      ∧ extractFirstJsonArray (String.join (["[1, "] ++ ["2]"]))
          = some [Json.num 1, Json.num 2])
    ∧ runPromptLoop true 300 60 [⟨1, PChunk.item "message" "2]"⟩] ["[1, "] [] 0
        = RunOutcome.ok (dumps (Json.arr [Json.num 1, Json.num 2])) :=
  ⟨⟨by norm_num, by norm_num, by decide⟩,
    runPromptLoop_json_early_return 300 60 1 "2]" [] ["[1, "] [] 0
      [Json.num 1, Json.num 2]
      (by norm_num) (by norm_num) (by decide) (by decide) (by decide)⟩

/-- Content length carried by a chunk (zero for the end-of-stream signal). -/
def chunkContentLen : PChunk → Nat
  | PChunk.stopIter => 0
  | PChunk.item _ content => content.length

theorem stringJoin_foldl_length (l : List String) : ∀ a : String,
    (l.foldl (fun r s => r ++ s) a).length = a.length + partsLen l := by
  induction l with
  | nil => intro a; simp [partsLen]
  | cons s l ih =>
      intro a
      rw [List.foldl_cons, ih]
      simp [partsLen, String.length_append]
      omega

theorem stringJoin_length (parts : List String) :
    (String.join parts).length = partsLen parts := by
  show (parts.foldl (fun r s => r ++ s) "").length = _
  rw [stringJoin_foldl_length]
  simp

theorem partsLen_append_single (parts : List String) (content : String) :
    partsLen (parts ++ [content]) = partsLen parts + content.length := by
  simp [partsLen]

theorem maxContentLen_cons (ev : PEvent) (evs : List PEvent) :
    maxContentLen (ev :: evs)
      = max (chunkContentLen ev.chunk) (maxContentLen evs) := by
  rw [maxContentLen]
  cases hch : ev.chunk with
  | stopIter => simp [chunkContentLen]
  | item ty content => simp [chunkContentLen]

/-- Exhaustive behaviour of the chunk body when the phase does not expect
JSON: finish with the previously joined text, raise a backend error, skip,
stop at the output cap or the repetition guard with the newly joined text,
or continue having appended the chunk while staying under the cap. -/
theorem runPromptStep_false_cases (parts recent : List String)
    (ty content : String) :
    runPromptStep false parts recent (PChunk.item ty content)
      = StepRes.halt (RunOutcome.ok (String.join parts))
    ∨ (∃ s m, runPromptStep false parts recent (PChunk.item ty content)
        = StepRes.halt (RunOutcome.backendError s m))
    ∨ runPromptStep false parts recent (PChunk.item ty content)
        = StepRes.next parts recent
    ∨ runPromptStep false parts recent (PChunk.item ty content)
        = StepRes.halt (RunOutcome.ok (String.join (parts ++ [content])))
    ∨ (∃ r2, runPromptStep false parts recent (PChunk.item ty content)
        = StepRes.next (parts ++ [content]) r2
        ∧ partsLen (parts ++ [content]) < 120000) := by
  by_cases h1 : ty = "done"
  · left; simp [runPromptStep, h1]
  by_cases h2 : ty = "error"
  · right; left
    exact ⟨errorSide (pyLower (pyStrip
        (if content = "" then "Unknown backend error" else content))),
      compactError (pyStrip
        (if content = "" then "Unknown backend error" else content)),
      by simp [runPromptStep, h1, h2]⟩
  by_cases h3 : ty = "message"
  case neg => right; right; left; simp [runPromptStep, h1, h2, h3]
  by_cases h4 : content = ""
  · right; right; left; simp [runPromptStep, h1, h2, h3, h4]
  by_cases hcap : 120000 ≤ partsLen (parts ++ [content])
  · right; right; right; left
    simp [runPromptStep, h1, h2, h3, h4, hcap]
  by_cases h5 : wsJoin (pyLower content) = ""
  · right; right; right; right
    exact ⟨recent, by simp [runPromptStep, h1, h2, h3, h4, hcap, h5],
      by omega⟩
  by_cases h6 : 8 ≤ (if recent.length = 12
        then recent.tail ++ [wsJoin (pyLower content)]
        else recent ++ [wsJoin (pyLower content)]).length
      ∧ (if recent.length = 12
        then recent.tail ++ [wsJoin (pyLower content)]
        else recent ++ [wsJoin (pyLower content)]).dedup.length ≤ 2
  · right; right; right; left
    simp [runPromptStep, h1, h2, h3, h4, hcap, h5, h6]
  · right; right; right; right
    refine ⟨if recent.length = 12
        then recent.tail ++ [wsJoin (pyLower content)]
        else recent ++ [wsJoin (pyLower content)],
      by simp [runPromptStep, h1, h2, h3, h4, hcap, h5, h6], by omega⟩

/-- Invariant transfer for the chunk body of a non-JSON phase: a halt with
text stays within the cap plus the chunk length, and a continuation keeps
the accumulated total under the cap. -/
theorem runPromptStep_false_inv (parts recent : List String) (ch : PChunk)
    (hinv : partsLen parts < 120000) :
    (∀ t, runPromptStep false parts recent ch = StepRes.halt (RunOutcome.ok t) →
      t.length < 120000 + chunkContentLen ch)
    ∧ (∀ p2 r2, runPromptStep false parts recent ch = StepRes.next p2 r2 →
      partsLen p2 < 120000) := by
  cases ch with
  | stopIter =>
      refine ⟨?_, ?_⟩
      · intro t ht
        rw [runPromptStep] at ht
        injection ht with h
        injection h with h
        rw [← h, stringJoin_length]
        omega
      · intro p2 r2 ht
        rw [runPromptStep] at ht
        exact StepRes.noConfusion ht
  | item ty content =>
      rcases runPromptStep_false_cases parts recent ty content with
        hA | ⟨s, m, hB⟩ | hC | hD | ⟨r2, hE, hElen⟩
      · refine ⟨?_, ?_⟩
        · intro t ht
          rw [hA] at ht
          injection ht with h
          injection h with h
          rw [← h, stringJoin_length, chunkContentLen]
          omega
        · intro p2 r2 ht; rw [hA] at ht; exact StepRes.noConfusion ht
      · refine ⟨?_, ?_⟩
        · intro t ht
          rw [hB] at ht
          injection ht with h
          exact RunOutcome.noConfusion h
        · intro p2 r2 ht; rw [hB] at ht; exact StepRes.noConfusion ht
      · refine ⟨?_, ?_⟩
        · intro t ht; rw [hC] at ht; exact StepRes.noConfusion ht
        · intro p2 r2 ht
          rw [hC] at ht
          injection ht with h h2
          rw [← h]
          exact hinv
      · refine ⟨?_, ?_⟩
        · intro t ht
          rw [hD] at ht
          injection ht with h
          injection h with h
          rw [← h, stringJoin_length, partsLen_append_single, chunkContentLen]
          omega
        · intro p2 r2 ht; rw [hD] at ht; exact StepRes.noConfusion ht
      · refine ⟨?_, ?_⟩
        · intro t ht; rw [hE] at ht; exact StepRes.noConfusion ht
        · intro p2 r2 ht
          rw [hE] at ht
          injection ht with h h2
          rw [← h]
          exact hElen

/-- Output bound for a whole non-JSON run: starting under the cap, any
returned text stays below the cap plus the largest chunk length. -/
theorem runPromptLoop_false_bound (overallT idleT : ℚ) (events : List PEvent) :
    ∀ (parts recent : List String) (elapsed : ℚ) (t : String),
      partsLen parts < 120000 →
      runPromptLoop false overallT idleT events parts recent elapsed
        = RunOutcome.ok t →
      t.length < 120000 + maxContentLen events := by
  induction events with
  | nil =>
      intro parts recent elapsed t hinv h
      rw [runPromptLoop] at h
      split at h
      · exact RunOutcome.noConfusion h
      · split at h
        · injection h with h2
          rw [← h2, stringJoin_length]
          omega
        · exact RunOutcome.noConfusion h
  | cons ev evs ih =>
      intro parts recent elapsed t hinv h
      rw [runPromptLoop] at h
      split at h
      · exact RunOutcome.noConfusion h
      · split at h
        · split at h
          · injection h with h2
            rw [← h2, stringJoin_length]
            omega
          · exact RunOutcome.noConfusion h
        · split at h
          case _ r heq =>
            subst h
            have hb := (runPromptStep_false_inv parts recent ev.chunk hinv).1 t heq
            have hm : chunkContentLen ev.chunk ≤ maxContentLen (ev :: evs) := by
              rw [maxContentLen_cons]
              exact le_max_left _ _
            omega
          case _ p2 r2 heq =>
            have hinv2 :=
              (runPromptStep_false_inv parts recent ev.chunk hinv).2 p2 r2 heq
            have hb := ih p2 r2 (elapsed + ev.gap) t hinv2 h
            have hm : maxContentLen evs ≤ maxContentLen (ev :: evs) := by
              rw [maxContentLen_cons]
              exact le_max_right _ _
            omega

/-- Stepping lemma: an event received in time hands control to the chunk
body. -/
theorem runPromptLoop_cons_step (expectJson : Bool) (overallT idleT gap : ℚ)
    (ch : PChunk) (evs : List PEvent) (parts recent : List String) (elapsed : ℚ)
    (hel : ¬ elapsed ≥ overallT)
    (hgap : ¬ min idleT (max (1/10 : ℚ) (overallT - elapsed)) < gap) :
    runPromptLoop expectJson overallT idleT
        ((⟨gap, ch⟩ : PEvent) :: evs) parts recent elapsed
      = match runPromptStep expectJson parts recent ch with
        | StepRes.halt r => r
        | StepRes.next parts2 recent2 =>
            runPromptLoop expectJson overallT idleT evs parts2 recent2
              (elapsed + gap) := by
  rw [runPromptLoop]
  show (if elapsed ≥ overallT then RunOutcome.overallTimeout
    else if min idleT (max (1/10 : ℚ) (overallT - elapsed)) < gap then
      if expectJson = false ∧ parts ≠ [] then RunOutcome.ok (String.join parts)
      else RunOutcome.stallTimeout
    else
      match runPromptStep expectJson parts recent ch with
      | StepRes.halt r => r
      | StepRes.next parts2 recent2 =>
          runPromptLoop expectJson overallT idleT evs parts2 recent2
            (elapsed + gap)) = _
  rw [if_neg hel, if_neg hgap]

/-- C10 (amended): for phases that do not expect JSON the accumulated
output is truly bounded — an accepted message chunk that lifts the total
to 120000 characters or more halts the stream and returns the joined text,
and every returned text of such a run stays below 120000 plus the largest
chunk length.  (For JSON phases the early array return preempts the cap
and may exceed this bound; see the counterexample.) -/
theorem runPrompt_output_capped :
    (∀ prompt backendName events t,
      expectJsonOf prompt = false →
      runPrompt prompt backendName events = RunOutcome.ok t →
      t.length < 120000 + maxContentLen events)
    ∧ (∀ parts recent content,
      ¬ content = "" →
      120000 ≤ partsLen (parts ++ [content]) →
      runPromptStep false parts recent (PChunk.item "message" content)
        = StepRes.halt (RunOutcome.ok (String.join (parts ++ [content])))) := by
  constructor
  · intro prompt backendName events t hexp hok
    rw [runPrompt, hexp] at hok
    exact runPromptLoop_false_bound _ _ events [] [] 0 t (by simp [partsLen]) hok
  · intro parts recent content hc hcap
    simp [runPromptStep, hc, hcap]

/-- C10 witness: a two-chunk text run returns the joined text within the
bound, and a chunk lifting the total past the cap halts with the joined
text. -/
theorem runPrompt_output_capped_witness :
    (expectJsonOf "hello" = false
      ∧ runPrompt "hello" "x"
          [⟨1, PChunk.item "message" "hi"⟩, ⟨1, PChunk.stopIter⟩]
        = RunOutcome.ok "hi"
      ∧ ("hi" : String).length
          < 120000 + maxContentLen
              [⟨1, PChunk.item "message" "hi"⟩, ⟨1, PChunk.stopIter⟩])
    ∧ (¬ ("x" : String) = ""
      ∧ 120000 ≤ partsLen ([String.mk (List.replicate 120000 'a')] ++ ["x"])
      ∧ runPromptStep false [String.mk (List.replicate 120000 'a')] []
            (PChunk.item "message" "x")
          = StepRes.halt (RunOutcome.ok
              (String.join ([String.mk (List.replicate 120000 'a')] ++ ["x"])))) := by
  have hlen : partsLen ([String.mk (List.replicate 120000 'a')] ++ ["x"])
      = 120001 := by
    rw [partsLen_append_single]
    have h1 : (String.mk (List.replicate 120000 'a')).length = 120000 := by
      show (List.replicate 120000 'a').length = 120000
      rw [List.length_replicate]
    have h2 : partsLen [String.mk (List.replicate 120000 'a')]
        = (String.mk (List.replicate 120000 'a')).length := by
      rw [partsLen, List.map_cons, List.map_nil, List.sum_cons, List.sum_nil]
      omega
    rw [h2, h1]
    decide
  have hrun : runPrompt "hello" "x"
      [⟨1, PChunk.item "message" "hi"⟩, ⟨1, PChunk.stopIter⟩]
      = RunOutcome.ok "hi" := by
    have he : expectJsonOf "hello" = false := by decide
    have hp1 : (plannerTimeouts "x").1 = 300 := by
      rw [plannerTimeouts, if_neg (by decide)]
    have hp2 : (plannerTimeouts "x").2 = 60 := by
      rw [plannerTimeouts, if_neg (by decide)]
    rw [runPrompt, he, hp1, hp2]
    rw [runPromptLoop_cons_step false 300 60 1 (PChunk.item "message" "hi") _ _ _ _
      (by norm_num) (by norm_num)]
    rw [show runPromptStep false [] [] (PChunk.item "message" "hi")
        = StepRes.next ["hi"] ["hi"] from by decide]
    show runPromptLoop false 300 60 [⟨1, PChunk.stopIter⟩] ["hi"] ["hi"] (0 + 1)
      = RunOutcome.ok "hi"
    rw [runPromptLoop_cons_step false 300 60 1 PChunk.stopIter _ _ _ _
      (by norm_num) (by norm_num)]
    decide
  refine ⟨⟨by decide, hrun,
      runPrompt_output_capped.1 "hello" "x"
        [⟨1, PChunk.item "message" "hi"⟩, ⟨1, PChunk.stopIter⟩] "hi"
        (by decide) hrun⟩,
    ⟨by decide, by rw [hlen]; omega,
      runPrompt_output_capped.2 [String.mk (List.replicate 120000 'a')] [] "x"
        (by decide) (by rw [hlen]; omega)⟩⟩

/-- `"1" (",1")*`: the body of the compact array text `"[1,1,...,1]"`. -/
def onesMid : Nat → List Char
  | 0 => ['1']
  | n + 1 => '1' :: ',' :: onesMid n

/-- The compact JSON-array chunk `"[1,1,...,1]"` with `n + 1` ones. -/
def onesChunk (n : Nat) : String := String.mk ('[' :: (onesMid n ++ [']']))

theorem onesMid_length (n : Nat) : (onesMid n).length = 2 * n + 1 := by
  induction n with
  | zero => rfl
  | succ n ih => rw [onesMid, List.length_cons, List.length_cons, ih]; omega

theorem onesMid_mem (n : Nat) : ∀ c ∈ onesMid n, c = '1' ∨ c = ',' := by
  induction n with
  | zero =>
      intro c hc
      rw [onesMid] at hc
      simp at hc
      exact Or.inl hc
  | succ n ih =>
      intro c hc
      rw [onesMid] at hc
      rcases List.mem_cons.mp hc with h | h
      · exact Or.inl h
      · rcases List.mem_cons.mp h with h | h
        · exact Or.inr h
        · exact ih c h

theorem onesMid_sep (n : Nat) :
    ∀ c ∈ onesMid n, ¬ c = '"' ∧ ¬ c = '[' ∧ ¬ c = ']' := by
  intro c hc
  rcases onesMid_mem n c hc with h | h <;> rw [h] <;>
    exact ⟨by decide, by decide, by decide⟩

theorem onesBody_cons (n : Nat) : ∃ rest, onesMid n ++ [']'] = '1' :: rest := by
  cases n with
  | zero => exact ⟨[']'], rfl⟩
  | succ n => exact ⟨',' :: (onesMid n ++ [']']), by rw [onesMid]; rfl⟩

theorem skipWs_onesBody (n : Nat) :
    skipWs (onesMid n ++ [']']) = onesMid n ++ [']'] := by
  cases n with
  | zero => decide
  | succ n =>
      rw [onesMid]
      exact skipWs_cons_of '1' _ (by decide)

theorem parseElems_ones : ∀ (n f : Nat), n + 2 ≤ f →
    parseElems f (onesMid n ++ [']'])
      = some (List.replicate (n + 1) (Json.num 1), []) := by
  intro n
  induction n with
  | zero =>
      intro f hf
      obtain ⟨g, rfl⟩ : ∃ g, f = g + 1 := ⟨f - 1, by omega⟩
      rw [parseElems.eq_def]
      show (do
        let p ← parseVal g (onesMid 0 ++ [']'])
        match skipWs p.2 with
        | ',' :: r2 => do
            let q ← parseElems g (skipWs r2)
            some (p.1 :: q.1, q.2)
        | ']' :: r2 => some ([p.1], r2)
        | _ => none) = some (List.replicate 1 (Json.num 1), [])
      obtain ⟨g2, rfl⟩ : ∃ g2, g = g2 + 1 := ⟨g - 1, by omega⟩
      rw [show onesMid 0 ++ [']'] = dumpsVal (Json.num 1) ++ [']'] from by decide]
      rw [parseVal_numLit g2 1 [']'] (by decide)]
      show (match skipWs [']'] with
        | ',' :: r2 => do
            let q ← parseElems (g2 + 1) (skipWs r2)
            some (Json.num 1 :: q.1, q.2)
        | ']' :: r2 => some ([Json.num 1], r2)
        | _ => none) = some (List.replicate 1 (Json.num 1), [])
      rw [skipWs_cons_of ']' [] (by decide)]
      rfl
  | succ n ih =>
      intro f hf
      obtain ⟨g, rfl⟩ : ∃ g, f = g + 1 := ⟨f - 1, by omega⟩
      rw [parseElems.eq_def]
      show (do
        let p ← parseVal g (onesMid (n + 1) ++ [']'])
        match skipWs p.2 with
        | ',' :: r2 => do
            let q ← parseElems g (skipWs r2)
            some (p.1 :: q.1, q.2)
        | ']' :: r2 => some ([p.1], r2)
        | _ => none) = some (List.replicate (n + 2) (Json.num 1), [])
      obtain ⟨g2, rfl⟩ : ∃ g2, g = g2 + 1 := ⟨g - 1, by omega⟩
      rw [show onesMid (n + 1) ++ [']']
          = dumpsVal (Json.num 1) ++ (',' :: (onesMid n ++ [']'])) from by
        rw [onesMid, show dumpsVal (Json.num 1) = ['1'] from by decide]
        rfl]
      rw [parseVal_numLit g2 1 (',' :: (onesMid n ++ [']'])) (by rfl)]
      show (match skipWs (',' :: (onesMid n ++ [']'])) with
        | ',' :: r2 => do
            let q ← parseElems (g2 + 1) (skipWs r2)
            some (Json.num 1 :: q.1, q.2)
        | ']' :: r2 => some ([Json.num 1], r2)
        | _ => none) = some (List.replicate (n + 2) (Json.num 1), [])
      rw [skipWs_cons_of ',' _ (by decide)]
      show (do
        let q ← parseElems (g2 + 1) (skipWs (onesMid n ++ [']']))
        some (Json.num 1 :: q.1, q.2))
        = some (List.replicate (n + 2) (Json.num 1), [])
      rw [skipWs_onesBody, ih (g2 + 1) (by omega)]
      show some (Json.num 1 :: List.replicate (n + 1) (Json.num 1), [])
        = some (List.replicate (n + 2) (Json.num 1), [])
      rw [← List.replicate_succ]

theorem parseVal_onesChunk (n : Nat) :
    parseVal ((4 * n + 7) + 1) ('[' :: (onesMid n ++ [']']))
      = some (Json.arr (List.replicate (n + 1) (Json.num 1)), []) := by
  rw [parseVal_arr_step, skipWs_onesBody]
  rw [show (4 * n + 7) = (4 * n + 6) + 1 from by omega]
  rw [parseArrBody.eq_def]
  obtain ⟨rest, hshape⟩ := onesBody_cons n
  rw [hshape]
  show (fun p => (Json.arr p.1, p.2)) <$> parseElems (4 * n + 6) ('1' :: rest)
      = some (Json.arr (List.replicate (n + 1) (Json.num 1)), [])
  rw [← hshape, parseElems_ones n (4 * n + 6) (by omega)]
  rfl

theorem jsonLoads_onesChunk (n : Nat) :
    jsonLoads (onesChunk n)
      = some (Json.arr (List.replicate (n + 1) (Json.num 1))) := by
  simp only [jsonLoads]
  rw [show (onesChunk n).data = '[' :: (onesMid n ++ [']']) from rfl]
  rw [show skipWs ('[' :: (onesMid n ++ [']'])) = '[' :: (onesMid n ++ [']']) from
    skipWs_cons_of '[' _ (by decide)]
  rw [show ('[' :: (onesMid n ++ [']'])).length = 2 * n + 3 from by
    rw [List.length_cons, List.length_append, onesMid_length, List.length_singleton]
    try omega]
  rw [show 2 * (2 * n + 3) + 2 = (4 * n + 7) + 1 from by omega]
  rw [parseVal_onesChunk n]
  rfl

theorem extractFirstJsonArrayAux_whole_some (mid : List Char) (f : Nat)
    (xs : List Json)
    (hmid : ∀ c ∈ mid, ¬ c = '"' ∧ ¬ c = '[' ∧ ¬ c = ']')
    (hload : jsonLoads (String.mk ('[' :: (mid ++ [']'])))
        = some (Json.arr xs)) :
    extractFirstJsonArrayAux (f + 1) ('[' :: (mid ++ [']'])) 0 = some xs := by
  rw [extractFirstJsonArrayAux]
  rw [findCharFrom_head]
  show (match scanBal '[' ']' (('[' :: (mid ++ [']'])).drop 0) 0 false false 0 with
    | none => extractFirstJsonArrayAux f ('[' :: (mid ++ [']'])) (0 + 1)
    | some e =>
        match jsonLoads (String.mk ((('[' :: (mid ++ [']'])).drop 0).take (e + 1))) with
        | some (Json.arr xs) => some xs
        | _ => extractFirstJsonArrayAux f ('[' :: (mid ++ [']'])) (0 + 1)) = some xs
  rw [List.drop_zero]
  have hscan : scanBal '[' ']' ('[' :: (mid ++ [']'])) 0 false false 0
      = some (1 + mid.length) := by
    rw [scanBal]
    rw [if_neg Bool.false_ne_true, if_neg (by decide), if_pos rfl]
    exact scanBal_neutral mid '[' ']' 1 (by decide) (by decide) hmid
  rw [hscan]
  show (match jsonLoads (String.mk (('[' :: (mid ++ [']'])).take (1 + mid.length + 1))) with
    | some (Json.arr xs) => some xs
    | _ => extractFirstJsonArrayAux f ('[' :: (mid ++ [']'])) (0 + 1)) = some xs
  rw [show ('[' :: (mid ++ [']'])).take (1 + mid.length + 1) = '[' :: (mid ++ [']']) from by
    rw [show 1 + mid.length + 1 = ('[' :: (mid ++ [']'])).length from by
      simp
      omega]
    exact List.take_length _]
  rw [hload]

theorem extractFirstJsonArray_onesChunk (n : Nat) :
    extractFirstJsonArray (onesChunk n)
      = some (List.replicate (n + 1) (Json.num 1)) := by
  rw [extractFirstJsonArray]
  rw [show (onesChunk n).data = '[' :: (onesMid n ++ [']']) from rfl]
  rw [if_neg (by simp)]
  rw [show ('[' :: (onesMid n ++ [']'])).length = 2 * n + 3 from by
    rw [List.length_cons, List.length_append, onesMid_length, List.length_singleton]
    try omega]
  exact extractFirstJsonArrayAux_whole_some (onesMid n) (2 * n + 3) _
    (onesMid_sep n) (jsonLoads_onesChunk n)

theorem onesChunk_length (n : Nat) : (onesChunk n).length = 2 * n + 3 := by
  show ('[' :: (onesMid n ++ [']'])).length = _
  rw [List.length_cons, List.length_append, onesMid_length, List.length_singleton]
  try omega

theorem dumpsElems_onesRep_length (n : Nat) :
    (dumpsElems (List.replicate (n + 1) (Json.num 1))).length = 3 * n + 1 := by
  induction n with
  | zero => decide
  | succ n ih =>
      rw [show List.replicate (n + 2) (Json.num 1)
          = Json.num 1 :: Json.num 1 :: List.replicate n (Json.num 1) from by
        rw [List.replicate_succ, List.replicate_succ]]
      have h2 : dumpsElems (Json.num 1 :: Json.num 1 :: List.replicate n (Json.num 1))
          = ['1'] ++ (',' :: ' ' :: dumpsElems (Json.num 1 :: List.replicate n (Json.num 1))) := by
        rw [dumpsElems, show dumpsVal (Json.num 1) = ['1'] from by decide]
      rw [h2, ← List.replicate_succ]
      simp [List.length_append, List.length_cons, ih]
      try omega

theorem dumps_onesRep_length (n : Nat) :
    (dumps (Json.arr (List.replicate (n + 1) (Json.num 1)))).length = 3 * n + 3 := by
  show (dumpsVal (Json.arr (List.replicate (n + 1) (Json.num 1)))).length = _
  rw [dumpsVal, List.length_cons, List.length_append,
    dumpsElems_onesRep_length, List.length_singleton]
  try omega

theorem stringJoin_single (s : String) : String.join [s] = s := by
  cases s with
  | mk data => rfl

theorem onesChunk_ne_empty (n : Nat) : ¬ onesChunk n = "" := by
  intro h
  have hd := congrArg String.data h
  rw [show (onesChunk n).data = '[' :: (onesMid n ++ [']']) from rfl,
    show ("" : String).data = [] from rfl] at hd
  exact List.noConfusion hd

theorem dumps_ne_stringJoin_onesChunk (n : Nat) (h : 1 ≤ n) :
    ¬ dumps (Json.arr (List.replicate (n + 1) (Json.num 1)))
      = String.join [onesChunk n] := by
  intro heq
  have h1 := congrArg String.length heq
  rw [dumps_onesRep_length, stringJoin_single, onesChunk_length] at h1
  omega

theorem onesMid_lower (n : Nat) : (onesMid n).map Char.toLower = onesMid n := by
  induction n with
  | zero => decide
  | succ n ih =>
      rw [onesMid, List.map_cons, List.map_cons, ih,
        show Char.toLower '1' = '1' from by decide,
        show Char.toLower ',' = ',' from by decide]

theorem onesChunk_lower (n : Nat) : pyLower (onesChunk n) = onesChunk n := by
  show String.mk (('[' :: (onesMid n ++ [']'])).map Char.toLower) = _
  rw [List.map_cons, List.map_append, onesMid_lower,
    show Char.toLower '[' = '[' from by decide,
    show ([']'] : List Char).map Char.toLower = [']'] from by decide]
  rfl

theorem pySplitWsAux_no_ws (cs : List Char) :
    ∀ acc : List Char, (∀ c ∈ cs, pyIsSpace c = false) → acc ≠ [] →
      pySplitWsAux cs acc = [acc.reverse ++ cs] := by
  induction cs with
  | nil =>
      intro acc h hne
      cases acc with
      | nil => exact absurd rfl hne
      | cons a as =>
          rw [pySplitWsAux]
          simp
          exact hne
  | cons c cs ih =>
      intro acc h hne
      rw [pySplitWsAux]
      rw [if_neg (by simp [h c (List.mem_cons_self c cs)])]
      rw [ih (c :: acc) (fun d hd => h d (List.mem_cons_of_mem c hd)) (by simp)]
      rw [List.reverse_cons]
      simp

theorem pySplitWs_no_ws (c : Char) (cs : List Char)
    (h : ∀ d ∈ c :: cs, pyIsSpace d = false) :
    pySplitWs (c :: cs) = [c :: cs] := by
  rw [pySplitWs, pySplitWsAux]
  rw [if_neg (by simp [h c (List.mem_cons_self c cs)])]
  rw [pySplitWsAux_no_ws cs [c] (fun d hd => h d (List.mem_cons_of_mem c hd))
    (by simp)]
  simp

theorem onesChunk_no_ws (n : Nat) :
    ∀ d ∈ '[' :: (onesMid n ++ [']']), pyIsSpace d = false := by
  intro d hd
  rcases List.mem_cons.mp hd with h | h
  · rw [h]; decide
  · rcases List.mem_append.mp h with h2 | h2
    · rcases onesMid_mem n d h2 with h3 | h3 <;> rw [h3] <;> decide
    · simp at h2; rw [h2]; decide

theorem wsJoin_onesChunk (n : Nat) :
    wsJoin (pyLower (onesChunk n)) = onesChunk n := by
  rw [onesChunk_lower, wsJoin]
  rw [show (onesChunk n).data = '[' :: (onesMid n ++ [']']) from rfl]
  rw [pySplitWs_no_ws '[' _ (onesChunk_no_ws n)]
  rfl

theorem onesChunk_ne_hb (n : Nat) :
    ¬ (wsJoin (pyLower (onesChunk n)) = "⏳ still processing..."
      ∨ wsJoin (pyLower (onesChunk n)) = "still processing...") := by
  rw [wsJoin_onesChunk]
  rintro (h | h)
  · have hd := congrArg String.data h
    rw [show (onesChunk n).data = '[' :: (onesMid n ++ [']']) from rfl] at hd
    have hhd := congrArg List.head? hd
    rw [List.head?_cons,
      show ("⏳ still processing..." : String).data.head? = some '⏳' from by
        decide] at hhd
    exact absurd hhd (by decide)
  · have hd := congrArg String.data h
    rw [show (onesChunk n).data = '[' :: (onesMid n ++ [']']) from rfl] at hd
    have hhd := congrArg List.head? hd
    rw [List.head?_cons,
      show ("still processing..." : String).data.head? = some 's' from by
        decide] at hhd
    exact absurd hhd (by decide)

/-- The JSON task-breakdown phase fed a single compact `[1,1,...,1]` chunk
returns the re-serialised array (with `", "` separators), not the gathered
text. -/
theorem runPrompt_ones (n : Nat) :
    runPrompt "Return a JSON array" "x"
        [⟨1, PChunk.item "message" (onesChunk n)⟩]
      = RunOutcome.ok (dumps (Json.arr (List.replicate (n + 1) (Json.num 1)))) := by
  have he : expectJsonOf "Return a JSON array" = true := by decide
  have hp1 : (plannerTimeouts "x").1 = 300 := by
    rw [plannerTimeouts, if_neg (by decide)]
  have hp2 : (plannerTimeouts "x").2 = 60 := by
    rw [plannerTimeouts, if_neg (by decide)]
  have hx : extractFirstJsonArray (String.join (([] : List String) ++ [onesChunk n]))
      = some (List.replicate (n + 1) (Json.num 1)) := by
    rw [show ([] : List String) ++ [onesChunk n] = [onesChunk n] from rfl,
      stringJoin_single, extractFirstJsonArray_onesChunk]
  rw [runPrompt, he, hp1, hp2]
  rw [runPromptLoop_cons_step true 300 60 1 (PChunk.item "message" (onesChunk n))
    _ _ _ _ (by norm_num) (by norm_num)]
  rw [runPromptStep_json_early [] [] (onesChunk n) _ (onesChunk_ne_empty n)
    (onesChunk_ne_hb n) hx]

/-- C10 counterexample: the implicit output-cap invariant fails for JSON
phases.  A single accepted chunk of 240005 characters takes the total past
120000, yet `_run_prompt` does not return the gathered text: the early
array return fires first, re-serialises the 120002-element array with
`", "` separators, and the returned string (360006 characters) exceeds
120000 plus the final chunk's length (360005). -/
theorem runPrompt_cap_counterexample :
    120000 ≤ (onesChunk 120001).length
    ∧ runPrompt "Return a JSON array" "x"
        [⟨1, PChunk.item "message" (onesChunk 120001)⟩]
      = RunOutcome.ok (dumps (Json.arr (List.replicate 120002 (Json.num 1))))
    ∧ 120000 + (onesChunk 120001).length
        < (dumps (Json.arr (List.replicate 120002 (Json.num 1)))).length
    ∧ ¬ dumps (Json.arr (List.replicate 120002 (Json.num 1)))
        = String.join [onesChunk 120001] := by
  have hrep : (120001 + 1 : Nat) = 120002 := rfl
  refine ⟨?_, ?_, ?_, ?_⟩
  · rw [onesChunk_length]; omega
  · have h := runPrompt_ones 120001
    rw [hrep] at h
    exact h
  · have h := dumps_onesRep_length 120001
    rw [hrep] at h
    rw [h, onesChunk_length]
    omega
  · have h := dumps_ne_stringJoin_onesChunk 120001 (by omega)
    rw [hrep] at h
    exact h

/-- C4 witness: the theorem applied to a prose response from which no
requirement can be derived, exercising the fixed three-task fallback. -/
theorem planTasks_after_parse_failure_witness :
    deriveTasksFromText "garbage" "demo" = []
    ∧ (tasksAfterParseFailure "garbage" "demo").map
        (fun t => (t.key, t.title, t.task_type, t.blocked_by_keys))
      = [("t1", "Analyze current project files and constraints", "agent",
            ([] : List String)),
         ("t2", "Implement approved changes and verify behavior", "agent",
            (["t1"] : List String)),
         ("t3", "Human review and approval", "human",
            (["t2"] : List String))] :=
  ⟨by decide, (planTasks_after_parse_failure "garbage" "demo").2.2.2 (by decide)⟩

end Steam
